import Mathlib

/-!
# generate-go-pkgs: a shallow embedding of `hack/generate-go-pkgs/main.go`

The program reads a configuration (host, default user, packages), and for each
package creates `public/<name>/`, optionally a `.gitignore`, normalises the
package's repository reference into an absolute URL and renders `index.html`.

Go strings are byte sequences; they are embedded as lists of bytes.  The Go
standard-library functions the program calls (`path.Join`, `net/url.Parse`,
`(*url.URL).String`, `errors.Join`, the `os` file operations) are embedded
next to the program, following their Go sources (Go 1.26: in particular
`parseHost` checks the text between the brackets of an IP literal with
`netip.ParseAddr`, and accepts a single colon outside brackets).
-/

set_option autoImplicit false

/-! ## Bytes and strings -/

/-- A Go `byte`. -/
abbrev Byte := Fin 256

/-- A Go `string`: an immutable sequence of bytes. -/
abbrev GoString := List Byte

/-- The byte of an ASCII character literal. -/
def ch (c : Char) : Byte := Fin.ofNat c.toNat

/-- The bytes of an ASCII string literal (every literal of the program is ASCII). -/
def str (s : String) : GoString := s.toList.map ch

deriving instance DecidableEq for Except

namespace strings

/-- Go `strings.HasPrefix`. -/
def HasPrefix (s pre : GoString) : Bool := pre.isPrefixOf s

/-- Go `strings.HasSuffix`. -/
def HasSuffix (s suf : GoString) : Bool := suf.isSuffixOf s

/-- Go `strings.Index`: the index of the first instance of `sep` in `s`, if any. -/
def Index : GoString → GoString → Option Nat
  | [], sep => if sep = [] then some 0 else none
  | c :: s, sep =>
    if sep.isPrefixOf (c :: s) then some 0
    else (Index s sep).map (· + 1)

/-- Go `strings.Contains`. -/
def Contains (s sep : GoString) : Bool := (Index s sep).isSome

/-- Go `strings.LastIndex`: the index of the last instance of `sep` in `s`, if any. -/
def LastIndex : GoString → GoString → Option Nat
  | [], sep => if sep = [] then some 0 else none
  | c :: s, sep =>
    match LastIndex s sep with
    | some i => some (i + 1)
    | none => if sep.isPrefixOf (c :: s) then some 0 else none

/-- Go `strings.Cut`: slices `s` around the first instance of `sep`. -/
def Cut (s sep : GoString) : GoString × GoString × Bool :=
  match Index s sep with
  | some i => (s.take i, s.drop (i + sep.length), true)
  | none => (s, [], false)

/-- Go `strings.Count` for a one-byte separator: the number of instances of `c` in `s`. -/
def CountByte (s : GoString) (c : Byte) : Nat := s.count c

/-- Go `strings.ToLower` on ASCII input: `A`..`Z` are mapped to `a`..`z`, every other
byte below 0x80 is kept.  (The program only lowers URL schemes, which are ASCII.) -/
def ToLower (s : GoString) : GoString :=
  s.map (fun c => if ch 'A' ≤ c ∧ c ≤ ch 'Z' then c + 32 else c)

/-- Go `strings.Join`. -/
def Join : List GoString → GoString → GoString
  | [], _ => []
  | [e], _ => e
  | e :: es, sep => e ++ sep ++ Join es sep

end strings

/-! ## `path.Clean` and `path.Join` -/

namespace path

/-- The inner loop of the `..` case of `Clean`:
`for out.w > dotdot && out.index(out.w) != '/' { out.w-- }`, returning the final `w`. -/
def backtrack (buf : GoString) (dotdot : Nat) : Nat → Nat
  | 0 => 0
  | w + 1 =>
    if w + 1 > dotdot ∧ buf.getD (w + 1) 0 ≠ ch '/' then backtrack buf dotdot w else w + 1

/-- The main loop of `Clean`.  `p` is the unread input `path[r:]`, `out` the bytes written
so far (`buf[:w]`), `dotdot` the index where `..` must stop.  Every iteration consumes at
least one byte of `p`, so `fuel = len(path)` iterations are enough. -/
def cleanLoop (rooted : Bool) : Nat → GoString → GoString → Nat → GoString
  | 0, _, out, _ => out
  | fuel + 1, p, out, dotdot =>
    match p with
    | [] => out
    | c :: rest =>
      if c = ch '/' then
        -- empty path element
        cleanLoop rooted fuel rest out dotdot
      else if c = ch '.' ∧ (rest = [] ∨ rest.head? = some (ch '/')) then
        -- . element
        cleanLoop rooted fuel rest out dotdot
      else if c = ch '.' ∧ rest.head? = some (ch '.') ∧
          (rest.tail = [] ∨ rest.tail.head? = some (ch '/')) then
        -- .. element: remove to last /
        if out.length > dotdot then
          -- can backtrack
          cleanLoop rooted fuel rest.tail (out.take (backtrack out dotdot (out.length - 1))) dotdot
        else if !rooted then
          -- cannot backtrack, but not rooted, so append .. element.
          let out1 := if out.length > 0 then out ++ [ch '/'] else out
          let out2 := out1 ++ [ch '.', ch '.']
          cleanLoop rooted fuel rest.tail out2 out2.length
        else
          cleanLoop rooted fuel rest.tail out dotdot
      else
        -- real path element: add slash if needed, then copy element
        let out1 :=
          if (rooted ∧ out.length ≠ 1) ∨ (!rooted ∧ out.length ≠ 0) then out ++ [ch '/'] else out
        cleanLoop rooted fuel ((c :: rest).dropWhile (· ≠ ch '/'))
          (out1 ++ (c :: rest).takeWhile (· ≠ ch '/')) dotdot

/-- Go `path.Clean`. -/
def Clean (p : GoString) : GoString :=
  if p = [] then str "."
  else
    let rooted : Bool := p.head? = some (ch '/')
    let out :=
      if rooted then cleanLoop rooted p.length p.tail [ch '/'] 1
      else cleanLoop rooted p.length p [] 0
    -- Turn empty string into "."
    if out.length = 0 then str "." else out

/-- The buffer built by `Join`: non-empty elements separated by `/` (an empty element
after the first non-empty one still contributes its separator). -/
def joinBuf : GoString → List GoString → GoString
  | buf, [] => buf
  | buf, e :: es =>
    if buf.length > 0 ∨ e ≠ [] then
      joinBuf ((if buf.length > 0 then buf ++ [ch '/'] else buf) ++ e) es
    else joinBuf buf es

/-- Go `path.Join`. -/
def Join (elem : List GoString) : GoString :=
  if (elem.map List.length).sum = 0 then []
  else Clean (joinBuf [] elem)

end path

namespace filepath

/-- Go `filepath.Clean` on Unix: there is no volume name and the separator is `/`, so it is
the algorithm of `path.Clean`. -/
def Clean (p : GoString) : GoString := path.Clean p

/-- Go `filepath.Join` on Unix: the elements from the first non-empty one on, joined by the
separator and cleaned. -/
def Join : List GoString → GoString
  | [] => []
  | e :: es => if e ≠ [] then Clean (strings.Join (e :: es) [ch '/']) else Join es

end filepath

/-! ## `net/netip`: parsing an address -/

namespace netip

/-- Go `parseAddrError`: the text that failed to parse (`in`), the cause (`msg`), and the
part of the text where the parser stopped (`at`, may be empty). -/
structure parseAddrError where
  input : GoString
  msg : GoString
  rest : GoString
  deriving DecidableEq, Repr

/-- What `url.parseHost` observes of a Go `netip.Addr`: whether it is an IPv4 address
(`Is4`) and its zone.  The address bytes themselves are not kept. -/
structure Addr where
  Is4 : Bool
  zone : GoString
  deriving DecidableEq, Repr

/-- The loop of Go `parseIPv4Fields` over `s = in[off:end]`: `t` is `s[i:]`, `val` the value
of the current octet, `pos` the number of octets read, `digLen` the number of digits of the
current octet.  An error is its message and the text it is found at. -/
def parseIPv4FieldsLoop (s : GoString) :
    GoString → Nat → Nat → Nat → Nat → Except (GoString × GoString) Unit
  | [], _, _, pos, _ =>
    if pos < 3 then .error (str "IPv4 address too short", []) else .ok ()
  | c :: t, i, val, pos, digLen =>
    if ch '0' ≤ c ∧ c ≤ ch '9' then
      if digLen = 1 ∧ val = 0 then .error (str "IPv4 field has octet with leading zero", [])
      else if val * 10 + (c.val - (ch '0').val) > 255 then
        .error (str "IPv4 field has value >255", [])
      else parseIPv4FieldsLoop s t (i + 1) (val * 10 + (c.val - (ch '0').val)) pos (digLen + 1)
    else if c = ch '.' then
      -- .1.2.3, 1.2.3., 1..2.3
      if i = 0 ∨ i = s.length - 1 ∨ s.getD (i - 1) 0 = ch '.' then
        .error (str "IPv4 field must have at least one digit", c :: t)
      -- 1.2.3.4.5
      else if pos = 3 then .error (str "IPv4 address too long", [])
      else parseIPv4FieldsLoop s t (i + 1) 0 (pos + 1) 0
    else .error (str "unexpected character", c :: t)

/-- Go `parseIPv4Fields` on `in[off:end] = s`. -/
def parseIPv4Fields (s : GoString) : Except (GoString × GoString) Unit :=
  parseIPv4FieldsLoop s s 0 0 0 0

/-- Go `parseIPv4`. -/
def parseIPv4 (s : GoString) : Except parseAddrError Addr :=
  match parseIPv4Fields s with
  | .error (msg, rest) => .error ⟨s, msg, rest⟩
  | .ok _ => .ok ⟨true, []⟩

/-- The value of a hexadecimal digit, as `parseIPv6` computes it. -/
def hexVal (c : Byte) : Nat :=
  if ch '0' ≤ c ∧ c ≤ ch '9' then c.val - (ch '0').val
  else if ch 'a' ≤ c ∧ c ≤ ch 'f' then c.val - (ch 'a').val + 10
  else c.val - (ch 'A').val + 10

/-- The inner loop of `parseIPv6` that reads one group of hexadecimal digits from `t`
(`s[off:]`): the number of digits read, and the text after them; or the message of the
error. -/
def hexGroup : GoString → Nat → Nat → Except GoString (Nat × GoString)
  | [], off, _ => .ok (off, [])
  | c :: t, off, acc =>
    if (ch '0' ≤ c ∧ c ≤ ch '9') ∨ (ch 'a' ≤ c ∧ c ≤ ch 'f') ∨ (ch 'A' ≤ c ∧ c ≤ ch 'F') then
      if off > 3 then
        -- more than 4 digits in group, fail.
        .error (str "each group must have 4 or less digits")
      else if acc * 16 + hexVal c > 0xFFFF then
        -- Overflow, fail.
        .error (str "IPv6 field has value >=2^16")
      else hexGroup t (off + 1) (acc * 16 + hexVal c)
    else .ok (off, c :: t)

/-- The main loop of `parseIPv6` (`for i < 16`), on the text `s` still to read, the index
`i` of the next address byte and the position of the ellipsis.  Every turn that goes on
advances `i` by 2, so 8 turns are enough.  The result is the state `(s, i, ellipsis)` when
the loop is left; an error is its message and the text it is found at. -/
def parseIPv6Loop : Nat → GoString → Nat → Option Nat →
    Except (GoString × GoString) (GoString × Nat × Option Nat)
  | 0, s, i, ellipsis => .ok (s, i, ellipsis)
  | fuel + 1, s, i, ellipsis =>
    if ¬ i < 16 then .ok (s, i, ellipsis)
    else
      -- Hex number.
      match hexGroup s 0 0 with
      | .error msg => .error (msg, s)
      | .ok (off, t) =>
        if off = 0 then
          -- No digits found, fail.
          .error (str "each colon-separated field must have at least one digit", s)
        else if t.head? = some (ch '.') then
          -- If followed by dot, might be in trailing IPv4.
          if ellipsis.isNone ∧ i ≠ 12 then
            -- Not the right place.
            .error (str ("embedded IPv4 address must replace the final 2 fields of the " ++
              "address"), s)
          else if i + 4 > 16 then
            -- Not enough room.
            .error (str ("too many hex fields to fit an embedded IPv4 at the end of the " ++
              "address"), s)
          else
            match parseIPv4Fields s with
            | .error e => .error e
            | .ok _ => .ok ([], i + 4, ellipsis)
        else
          -- Save this 16-bit chunk.  Stop at end of string.
          if t = [] then .ok ([], i + 2, ellipsis)
          -- Otherwise must be followed by colon and more.
          else if t.head? ≠ some (ch ':') then
            .error (str "unexpected character, want colon", t)
          else if t.length = 1 then
            .error (str "colon must be followed by more characters", t)
          else
            -- Look for ellipsis.
            if (t.drop 1).head? = some (ch ':') then
              if ellipsis.isSome then -- already have one
                .error (str "multiple :: in address", t.drop 1)
              else if t.drop 2 = [] then -- can be at end
                .ok ([], i + 2, some (i + 2))
              else parseIPv6Loop fuel (t.drop 2) (i + 2) (some (i + 2))
            else parseIPv6Loop fuel (t.drop 1) (i + 2) ellipsis

/-- Go `parseIPv6`. -/
def parseIPv6 (inp : GoString) : Except parseAddrError Addr :=
  -- Split off the zone right from the start.
  let s := match strings.Index inp [ch '%'] with
    | some i => inp.take i
    | none => inp
  let zone := match strings.Index inp [ch '%'] with
    | some i => inp.drop (i + 1)
    | none => []
  if (strings.Index inp [ch '%']).isSome ∧ zone = [] then
    -- Not allowed to have an empty zone if explicitly specified.
    .error ⟨inp, str "zone must be a non-empty string", []⟩
  else
    -- Might have leading ellipsis
    let lead : Bool := s.take 2 = [ch ':', ch ':']
    let ellipsis : Option Nat := if lead then some 0 else none
    let s := if lead then s.drop 2 else s
    -- Might be only ellipsis
    if lead ∧ s = [] then .ok ⟨false, zone⟩
    else
      match parseIPv6Loop 8 s 0 ellipsis with
      | .error (msg, rest) => .error ⟨inp, msg, rest⟩
      | .ok (s, i, ellipsis) =>
        -- Must have used entire string.
        if s ≠ [] then .error ⟨inp, str "trailing garbage after address", s⟩
        -- If didn't parse enough, expand ellipsis.
        else if i < 16 then
          if ellipsis.isNone then .error ⟨inp, str "address string too short", []⟩
          else .ok ⟨false, zone⟩
        else if ellipsis.isSome then
          -- Ellipsis must represent at least one 0 group.
          .error ⟨inp, str "the :: must expand to at least one field of zeros", []⟩
        else .ok ⟨false, zone⟩

/-- Go `netip.ParseAddr`: the first `.`, `:` or `%` of the text decides how it is read. -/
def ParseAddrLoop (s : GoString) : GoString → Except parseAddrError Addr
  | [] => .error ⟨s, str "unable to parse IP", []⟩
  | c :: t =>
    if c = ch '.' then parseIPv4 s
    else if c = ch ':' then parseIPv6 s
    else if c = ch '%' then
      -- Assume that this was trying to be an IPv6 address with
      -- a zone specifier, but the address is missing.
      .error ⟨s, str "missing IPv6 address", []⟩
    else ParseAddrLoop s t

/-- Go `netip.ParseAddr`. -/
def ParseAddr (s : GoString) : Except parseAddrError Addr := ParseAddrLoop s s

end netip

/-! ## `net/url` -/

namespace url

/-- The escaping modes of `net/url`. -/
inductive encoding
  | encodePath
  | encodePathSegment
  | encodeHost
  | encodeZone
  | encodeUserPassword
  | encodeQueryComponent
  | encodeFragment
  deriving DecidableEq, Repr

open encoding

/-- The errors `url.Parse` can wrap. -/
inductive ParseErr
  /-- `EscapeError(s)`. -/
  | escapeError (s : GoString)
  /-- `InvalidHostError(s)`. -/
  | invalidHostError (s : GoString)
  /-- `net/url: invalid control character in URL`. -/
  | invalidControlChar
  /-- `missing protocol scheme`. -/
  | missingProtocolScheme
  /-- `first path segment in URL cannot contain colon`. -/
  | firstSegmentColon
  /-- `missing ']' in host`. -/
  | missingBracket
  /-- `invalid port %q after host`. -/
  | invalidPort (colonPort : GoString)
  /-- `net/url: invalid userinfo`. -/
  | invalidUserinfo
  /-- `invalid host: %w`, wrapping the error of `netip.ParseAddr`. -/
  | invalidHost (err : netip.parseAddrError)
  /-- `invalid IP-literal`. -/
  | invalidIPLiteral
  deriving DecidableEq, Repr

/-- Go `url.Userinfo`. -/
structure Userinfo where
  username : GoString
  password : GoString
  passwordSet : Bool
  deriving DecidableEq, Repr

/-- Go `url.URL`. -/
structure URL where
  Scheme : GoString := []
  Opaque : GoString := []
  User : Option Userinfo := none
  Host : GoString := []
  Path : GoString := []
  RawPath : GoString := []
  OmitHost : Bool := false
  ForceQuery : Bool := false
  RawQuery : GoString := []
  Fragment : GoString := []
  RawFragment : GoString := []
  deriving DecidableEq, Repr

/-- Go `ishex`. -/
def ishex (c : Byte) : Bool :=
  (ch '0' ≤ c ∧ c ≤ ch '9') ∨ (ch 'a' ≤ c ∧ c ≤ ch 'f') ∨ (ch 'A' ≤ c ∧ c ≤ ch 'F')

/-- Go `unhex`. -/
def unhex (c : Byte) : Byte :=
  if ch '0' ≤ c ∧ c ≤ ch '9' then c - ch '0'
  else if ch 'a' ≤ c ∧ c ≤ ch 'f' then c - ch 'a' + 10
  else if ch 'A' ≤ c ∧ c ≤ ch 'F' then c - ch 'A' + 10
  else 0

/-- The byte `unhex(a)<<4 | unhex(b)` of an escape `%ab`. -/
def unhex2 (a b : Byte) : Byte := Fin.ofNat ((unhex a).val * 16 % 256 ||| (unhex b).val)

/-- Go `upperhex[i]`, for `i < 16`. -/
def upperhex (i : Nat) : Byte := (str "0123456789ABCDEF").getD i 0

/-- Go `shouldEscape`: whether the byte must be escaped when it appears in the given part
of a URL. -/
def shouldEscape (c : Byte) (mode : encoding) : Bool :=
  -- §2.3 Unreserved characters (alphanum)
  if (ch 'a' ≤ c ∧ c ≤ ch 'z') ∨ (ch 'A' ≤ c ∧ c ≤ ch 'Z') ∨ (ch '0' ≤ c ∧ c ≤ ch '9') then false
  else if (mode = encodeHost ∨ mode = encodeZone) ∧
      c ∈ [ch '!', ch '$', ch '&', ch '\'', ch '(', ch ')', ch '*', ch '+', ch ',', ch ';',
           ch '=', ch ':', ch '[', ch ']', ch '<', ch '>', ch '"'] then false
  else if c ∈ [ch '-', ch '_', ch '.', ch '~'] then false
  else if c ∈ [ch '$', ch '&', ch '+', ch ',', ch '/', ch ':', ch ';', ch '=', ch '?', ch '@'] ∧
      mode ∈ [encodePath, encodePathSegment, encodeUserPassword, encodeQueryComponent,
              encodeFragment] then
    match mode with
    | encodePath => c = ch '?'
    | encodePathSegment => c = ch '/' ∨ c = ch ';' ∨ c = ch ',' ∨ c = ch '?'
    | encodeUserPassword => c = ch '@' ∨ c = ch '/' ∨ c = ch '?' ∨ c = ch ':'
    | encodeQueryComponent => true
    | _ => false
  else if mode = encodeFragment ∧ c ∈ [ch '!', ch '(', ch ')', ch '*'] then false
  else
    -- Everything else must be escaped.
    true

/-- The first pass of Go `unescape`: count `%`, check that they are well-formed.  Returns the
number `n` of escapes and the flag `hasPlus`, or the error. -/
def unescapeScan (mode : encoding) : GoString → Nat → Bool → Except ParseErr (Nat × Bool)
  | [], n, hasPlus => .ok (n, hasPlus)
  | c :: rest, n, hasPlus =>
    if c = ch '%' then
      match rest with
      | a :: b :: rest2 =>
        if !ishex a || !ishex b then .error (.escapeError [c, a, b])
        else if mode = encodeHost ∧ unhex a < 8 ∧ [c, a, b] ≠ str "%25" then
          .error (.escapeError [c, a, b])
        else if mode = encodeZone ∧ [c, a, b] ≠ str "%25" ∧ unhex2 a b ≠ ch ' ' ∧
            shouldEscape (unhex2 a b) encodeHost then
          .error (.escapeError [c, a, b])
        else unescapeScan mode rest2 (n + 1) hasPlus
      | _ => .error (.escapeError ((c :: rest).take 3))
    else if c = ch '+' then
      unescapeScan mode rest n (decide (mode = encodeQueryComponent))
    else if (mode = encodeHost ∨ mode = encodeZone) ∧ c < 0x80 ∧ shouldEscape c encodeHost then
      .error (.invalidHostError [c])
    else unescapeScan mode rest n hasPlus

/-- The second pass of Go `unescape`: decode the escapes of a string that passed the scan. -/
def unescapeBuild (mode : encoding) : GoString → GoString
  | [] => []
  | c :: rest =>
    if c = ch '%' then
      match rest with
      | a :: b :: rest2 => unhex2 a b :: unescapeBuild mode rest2
      | _ => []
    else if c = ch '+' then
      (if mode = encodeQueryComponent then ch ' ' else ch '+') :: unescapeBuild mode rest
    else c :: unescapeBuild mode rest

/-- Go `unescape`. -/
def unescape (s : GoString) (mode : encoding) : Except ParseErr GoString :=
  match unescapeScan mode s 0 false with
  | .error e => .error e
  | .ok (n, hasPlus) =>
    if n = 0 ∧ !hasPlus then .ok s
    else .ok (unescapeBuild mode s)

/-- The output bytes of Go `escape` for one byte. -/
def escapeByte (mode : encoding) (c : Byte) : GoString :=
  if c = ch ' ' ∧ mode = encodeQueryComponent then [ch '+']
  else if shouldEscape c mode then [ch '%', upperhex (c.val / 16), upperhex (c.val % 16)]
  else [c]

/-- Go `escape`. -/
def escape (s : GoString) (mode : encoding) : GoString :=
  let spaceCount := (s.filter (fun c => shouldEscape c mode && (c = ch ' ' ∧ mode = encodeQueryComponent))).length
  let hexCount := (s.filter (fun c => shouldEscape c mode && !(c = ch ' ' ∧ mode = encodeQueryComponent))).length
  if spaceCount = 0 ∧ hexCount = 0 then s
  else (s.map (escapeByte mode)).flatten

/-- Go `validEncoded`: whether `s` is a valid encoded path or fragment, according to mode. -/
def validEncoded (s : GoString) (mode : encoding) : Bool :=
  s.all fun c =>
    if c ∈ [ch '!', ch '$', ch '&', ch '\'', ch '(', ch ')', ch '*', ch '+', ch ',', ch ';',
            ch '=', ch ':', ch '@'] then true
    else if c ∈ [ch '[', ch ']'] then true
    else if c = ch '%' then true
    else !shouldEscape c mode

/-- Go `stringContainsCTLByte`. -/
def stringContainsCTLByte (s : GoString) : Bool :=
  s.any fun b => b < ch ' ' ∨ b = 0x7f

/-- Go `getScheme`: split off a leading `scheme:`. -/
def getSchemeLoop (rawURL : GoString) : Nat → GoString → Except ParseErr (GoString × GoString)
  | _, [] => .ok ([], rawURL)
  | i, c :: rest =>
    if (ch 'a' ≤ c ∧ c ≤ ch 'z') ∨ (ch 'A' ≤ c ∧ c ≤ ch 'Z') then
      getSchemeLoop rawURL (i + 1) rest
    else if (ch '0' ≤ c ∧ c ≤ ch '9') ∨ c = ch '+' ∨ c = ch '-' ∨ c = ch '.' then
      if i = 0 then .ok ([], rawURL) else getSchemeLoop rawURL (i + 1) rest
    else if c = ch ':' then
      if i = 0 then .error .missingProtocolScheme
      else .ok (rawURL.take i, rawURL.drop (i + 1))
    else
      -- we have encountered an invalid character, so there is no valid scheme
      .ok ([], rawURL)

/-- Go `getScheme`. -/
def getScheme (rawURL : GoString) : Except ParseErr (GoString × GoString) :=
  getSchemeLoop rawURL 0 rawURL

/-- Go `validOptionalPort`: `port` is either empty or `:` followed by digits. -/
def validOptionalPort (port : GoString) : Bool :=
  match port with
  | [] => true
  | c :: rest => c = ch ':' ∧ rest.all fun b => !(b < ch '0' ∨ b > ch '9')

/-- Go `validUserinfo`.  (The source ranges over runes; a rune is accepted only if it is one
of the listed ASCII characters, so the test is the same byte by byte.) -/
def validUserinfo (s : GoString) : Bool :=
  s.all fun r =>
    (ch 'A' ≤ r ∧ r ≤ ch 'Z') ∨ (ch 'a' ≤ r ∧ r ≤ ch 'z') ∨ (ch '0' ≤ r ∧ r ≤ ch '9') ∨
    r ∈ [ch '-', ch '.', ch '_', ch ':', ch '~', ch '!', ch '$', ch '&', ch '\'', ch '(',
         ch ')', ch '*', ch '+', ch ',', ch ';', ch '=', ch '%', ch '@']

/-- Go `parseHost`: parses `host` as an authority without user information, that is, as
`host[:port]`.  (With the default `urlstrictcolons` setting: outside brackets the port starts
at the first colon.  After a valid optional port the last `]` is after the last `[`, so
the slice `host[openBracketIdx+1 : closeBracketIdx]` is in range.) -/
def parseHost (host : GoString) : Except ParseErr GoString :=
  match strings.LastIndex host (str "[") with
  | some openBracketIdx =>
    -- Parse an IP-Literal in RFC 3986 and RFC 6874.
    -- E.g., "[fe80::1]", "[fe80::1%25en0]", "[fe80::1]:80".
    match strings.LastIndex host (str "]") with
    | none => .error .missingBracket
    | some closeBracketIdx =>
      let colonPort := host.drop (closeBracketIdx + 1)
      if !validOptionalPort colonPort then .error (.invalidPort colonPort)
      else
        match unescape colonPort encodeHost with
        | .error e => .error e
        | .ok unescapedColonPort =>
          let hostname := (host.take closeBracketIdx).drop (openBracketIdx + 1)
          -- RFC 6874 defines that %25 (%-encoded percent) introduces
          -- the zone identifier, and the zone identifier can use basically
          -- any %-encoding it likes. That's different from the host, which
          -- can only %-encode non-ASCII bytes.
          let unescapedHostname : Except ParseErr GoString :=
            match strings.Index hostname (str "%25") with
            | some zoneIdx =>
              match unescape (hostname.take zoneIdx) encodeHost with
              | .error e => .error e
              | .ok hostPart =>
                match unescape (hostname.drop zoneIdx) encodeZone with
                | .error e => .error e
                | .ok zonePart => .ok (hostPart ++ zonePart)
            | none => unescape hostname encodeHost
          match unescapedHostname with
          | .error e => .error e
          | .ok unescapedHostname =>
            -- Per RFC 3986, only a host identified by a valid
            -- IPv6 address can be enclosed by square brackets.
            -- This excludes any IPv4, but notably not IPv4-mapped addresses.
            match netip.ParseAddr unescapedHostname with
            | .error err => .error (.invalidHost err)
            | .ok addr =>
              if addr.Is4 then .error .invalidIPLiteral
              else .ok (str "[" ++ unescapedHostname ++ str "]" ++ unescapedColonPort)
  | none =>
    match strings.Index host (str ":") with
    | some i =>
      let colonPort := host.drop i
      if !validOptionalPort colonPort then .error (.invalidPort colonPort)
      else unescape host encodeHost
    | none => unescape host encodeHost

/-- Go `parseAuthority`. -/
def parseAuthority (authority : GoString) : Except ParseErr (Option Userinfo × GoString) :=
  let i := strings.LastIndex authority (str "@")
  let hostRes :=
    match i with
    | none => parseHost authority
    | some i => parseHost (authority.drop (i + 1))
  match hostRes with
  | .error e => .error e
  | .ok host =>
    match i with
    | none => .ok (none, host)
    | some i =>
      let userinfo := authority.take i
      if !validUserinfo userinfo then .error .invalidUserinfo
      else if !strings.Contains userinfo (str ":") then
        match unescape userinfo encodeUserPassword with
        | .error e => .error e
        | .ok userinfo => .ok (some ⟨userinfo, [], false⟩, host)
      else
        let (username, password, _) := strings.Cut userinfo (str ":")
        match unescape username encodeUserPassword with
        | .error e => .error e
        | .ok username =>
          match unescape password encodeUserPassword with
          | .error e => .error e
          | .ok password => .ok (some ⟨username, password, true⟩, host)

/-- Go `(*URL).setPath`. -/
def setPath (u : URL) (p : GoString) : Except ParseErr URL :=
  match unescape p encodePath with
  | .error e => .error e
  | .ok path =>
    if p = escape path encodePath then
      -- Default encoding is fine.
      .ok { u with Path := path, RawPath := [] }
    else .ok { u with Path := path, RawPath := p }

/-- Go `(*URL).setFragment`. -/
def setFragment (u : URL) (f : GoString) : Except ParseErr URL :=
  match unescape f encodeFragment with
  | .error e => .error e
  | .ok frag =>
    if f = escape frag encodeFragment then
      -- Default encoding is fine.
      .ok { u with Fragment := frag, RawFragment := [] }
    else .ok { u with Fragment := frag, RawFragment := f }

/-- Go `parse` with `viaRequest = false` (the only way `url.Parse` calls it). -/
def parse (rawURL : GoString) : Except ParseErr URL :=
  if stringContainsCTLByte rawURL then .error .invalidControlChar
  else if rawURL = str "*" then .ok { Path := str "*" }
  else
    -- Split off possible leading "http:", "mailto:", etc.
    match getScheme rawURL with
    | .error e => .error e
    | .ok (scheme, rest0) =>
      let scheme := strings.ToLower scheme
      let forceQuery : Bool :=
        strings.HasSuffix rest0 (str "?") && strings.CountByte rest0 (ch '?') = 1
      let rest := if forceQuery then rest0.take (rest0.length - 1) else (strings.Cut rest0 (str "?")).1
      let rawQuery := if forceQuery then [] else (strings.Cut rest0 (str "?")).2.1
      let u : URL := { Scheme := scheme, ForceQuery := forceQuery, RawQuery := rawQuery }
      if !strings.HasPrefix rest (str "/") ∧ scheme ≠ [] then
        -- We consider rootless paths per RFC 3986 as opaque.
        .ok { u with Opaque := rest }
      else if !strings.HasPrefix rest (str "/") ∧
          strings.Contains (strings.Cut rest (str "/")).1 (str ":") then
        -- First path segment has colon. Not allowed in relative URL.
        .error .firstSegmentColon
      else if (scheme ≠ [] ∨ !strings.HasPrefix rest (str "///")) ∧
          strings.HasPrefix rest (str "//") then
        let authority0 := rest.drop 2
        let authority :=
          match strings.Index authority0 (str "/") with
          | some i => authority0.take i
          | none => authority0
        let rest2 :=
          match strings.Index authority0 (str "/") with
          | some i => authority0.drop i
          | none => []
        match parseAuthority authority with
        | .error e => .error e
        | .ok (user, host) => setPath { u with User := user, Host := host } rest2
      else if scheme ≠ [] ∧ strings.HasPrefix rest (str "/") then
        -- OmitHost is set to true when rawURL has an empty host (authority).
        setPath { u with OmitHost := true } rest
      else setPath u rest

/-- Go `url.Parse`: on failure the `*url.Error` carries the operation `parse`, the text that
failed to parse, and the cause; the result here is that text and the cause. -/
def Parse (rawURL : GoString) : Except (GoString × ParseErr) URL :=
  -- Cut off #frag
  let (u, frag, _) := strings.Cut rawURL (str "#")
  match parse u with
  | .error e => .error (u, e)
  | .ok url =>
    if frag = [] then .ok url
    else
      match setFragment url frag with
      | .error e => .error (rawURL, e)
      | .ok url => .ok url

/-- Go `(*URL).EscapedPath`. -/
def EscapedPath (u : URL) : GoString :=
  if u.RawPath ≠ [] ∧ validEncoded u.RawPath encodePath ∧
      unescape u.RawPath encodePath = .ok u.Path then u.RawPath
  else if u.Path = str "*" then str "*" -- don't escape (Issue 11202)
  else escape u.Path encodePath

/-- Go `(*URL).EscapedFragment`. -/
def EscapedFragment (u : URL) : GoString :=
  if u.RawFragment ≠ [] ∧ validEncoded u.RawFragment encodeFragment ∧
      unescape u.RawFragment encodeFragment = .ok u.Fragment then u.RawFragment
  else escape u.Fragment encodeFragment

/-- Go `(*Userinfo).String`. -/
def Userinfo.String (u : Userinfo) : GoString :=
  escape u.username encodeUserPassword ++
    (if u.passwordSet then str ":" ++ escape u.password encodeUserPassword else [])

/-- Go `(*URL).String`: reassemble the URL into a valid URL string. -/
def URL.String (u : URL) : GoString :=
  let buf1 := if u.Scheme ≠ [] then u.Scheme ++ str ":" else []
  let buf2 :=
    if u.Opaque ≠ [] then buf1 ++ u.Opaque
    else
      let buf :=
        if u.Scheme ≠ [] ∨ u.Host ≠ [] ∨ u.User.isSome then
          if u.OmitHost ∧ u.Host = [] ∧ u.User.isNone then
            -- omit empty host
            buf1
          else
            buf1 ++ (if u.Host ≠ [] ∨ u.Path ≠ [] ∨ u.User.isSome then str "//" else [])
              ++ (match u.User with
                  | some ui => ui.String ++ str "@"
                  | none => [])
              ++ (if u.Host ≠ [] then escape u.Host encodeHost else [])
        else buf1
      let path := EscapedPath u
      let buf := if path ≠ [] ∧ path.head? ≠ some (ch '/') ∧ u.Host ≠ [] then buf ++ str "/" else buf
      let buf :=
        if buf.length = 0 ∧ strings.Contains (strings.Cut path (str "/")).1 (str ":") then
          buf ++ str "./"
        else buf
      buf ++ path
  let buf3 := if u.ForceQuery ∨ u.RawQuery ≠ [] then buf2 ++ str "?" ++ u.RawQuery else buf2
  if u.Fragment ≠ [] then buf3 ++ str "#" ++ EscapedFragment u else buf3

end url

/-! ## Errors -/

/-- The causes of a failed file operation that the model distinguishes. -/
inductive Errno
  | EEXIST
  | ENOTEMPTY
  | ENOTDIR
  | ENOENT
  | EISDIR
  | EACCES
  | ENOSPC
  | EROFS
  | EINVAL
  deriving DecidableEq, Repr

/-- The non-nil `error` values `templatePkg` can return. -/
inductive GoError
  /-- A `*url.Error`: operation, text that failed to parse, cause. -/
  | urlError (Op URL : GoString) (Err : url.ParseErr)
  /-- A `*fs.PathError`: operation, path, cause. -/
  | pathError (Op Path : GoString) (Err : Errno)
  /-- An error returned by the execution of the page template, with its message. -/
  | execError (msg : GoString)
  deriving DecidableEq, Repr

/-- Go `os.IsExist`: the error is a `*PathError` whose cause is `EEXIST` or `ENOTEMPTY`. -/
def os.IsExist (err : GoError) : Bool :=
  match err with
  | .pathError _ _ .EEXIST => true
  | .pathError _ _ .ENOTEMPTY => true
  | _ => false

/-- The result of `errors.Join` when it is not nil: a `*joinError` wrapping the given
errors. -/
structure joinError where
  errs : List GoError
  deriving DecidableEq, Repr

/-- Go `errors.Join`: nil if every value in `errs` is nil, otherwise an error wrapping the
non-nil values, in order. -/
def errors.Join (errs : List (Option GoError)) : Option joinError :=
  let n := (errs.filter Option.isSome).length
  if n = 0 then none
  else some ⟨errs.filterMap id⟩

/-! ### Error messages -/

/-- Go `utf8.DecodeRuneInString`: the first rune of `s` and its width in bytes; for an
invalid encoding, `RuneError` (U+FFFD) and the width 1. -/
def utf8.DecodeRuneInString (s : GoString) : Nat × Nat :=
  match s with
  | [] => (0xFFFD, 0)
  | s0 :: t =>
    if s0 < 0x80 then (s0.val, 1) -- ASCII
    else if s0 < 0xC2 ∨ 0xF4 < s0 then (0xFFFD, 1) -- not the first byte of an encoding
    else
      let sz : Nat := if s0 < 0xE0 then 2 else if s0 < 0xF0 then 3 else 4
      -- `acceptRanges`: the range of the second byte
      let lo : Byte := if s0 = 0xE0 then 0xA0 else if s0 = 0xF0 then 0x90 else 0x80
      let hi : Byte := if s0 = 0xED then 0x9F else if s0 = 0xF4 then 0x8F else 0xBF
      let s1 := t.getD 0 0
      let s2 := t.getD 1 0
      let s3 := t.getD 2 0
      if t.length + 1 < sz then (0xFFFD, 1)
      else if s1 < lo ∨ hi < s1 then (0xFFFD, 1)
      else if sz ≤ 2 then ((s0.val % 32) * 64 + s1.val % 64, 2)
      else if s2 < 0x80 ∨ 0xBF < s2 then (0xFFFD, 1)
      else if sz ≤ 3 then ((s0.val % 16) * 4096 + (s1.val % 64) * 64 + s2.val % 64, 3)
      else if s3 < 0x80 ∨ 0xBF < s3 then (0xFFFD, 1)
      else ((s0.val % 8) * 262144 + (s1.val % 64) * 4096 + (s2.val % 64) * 64 + s3.val % 64, 4)

/-- Go `lowerhex[i]`, for `i < 16`. -/
def strconv.lowerhex (i : Nat) : Byte := (str "0123456789abcdef").getD i 0

/-- Go `strconv.IsPrint` on a rune up to U+00FF (its fast check for Latin-1).  Above U+00FF
the answer is in the Unicode tables of `strconv`, which are not embedded: `none`. -/
def strconv.IsPrint (r : Nat) : Option Bool :=
  if r ≤ 0xFF then
    if 0x20 ≤ r ∧ r ≤ 0x7E then some true -- All the ASCII is printable from space through DEL-1.
    else if 0xA1 ≤ r ∧ r ≤ 0xFF then some (r ≠ 0xAD) -- except for the bizarre soft hyphen.
    else some false
  else none

/-- Go `appendEscapedRune` with the quote `"`, `ASCIIonly` and `graphicOnly` false, on a
rune whose printability is known. -/
def strconv.appendEscapedRune (r : Nat) : Option GoString :=
  if r = (ch '"').val ∨ r = (ch '\\').val then some [ch '\\', Fin.ofNat r] -- always backslashed
  else
    match strconv.IsPrint r with
    | none => none
    | some true =>
      -- utf8.AppendRune, for a rune up to U+00FF
      if r < 0x80 then some [Fin.ofNat r]
      else some [Fin.ofNat (0xC0 + r / 64), Fin.ofNat (0x80 + r % 64)]
    | some false =>
      if r = 7 then some (str "\\a")
      else if r = 8 then some (str "\\b")
      else if r = 12 then some (str "\\f")
      else if r = 10 then some (str "\\n")
      else if r = 13 then some (str "\\r")
      else if r = 9 then some (str "\\t")
      else if r = 11 then some (str "\\v")
      else if r < 0x20 ∨ r = 0x7f then
        some (str "\\x" ++ [strconv.lowerhex (r / 16), strconv.lowerhex (r % 16)])
      else
        some (str "\\u" ++ [strconv.lowerhex (r / 4096 % 16), strconv.lowerhex (r / 256 % 16),
          strconv.lowerhex (r / 16 % 16), strconv.lowerhex (r % 16)])

/-- The loop of Go `appendQuotedWith`: every turn consumes at least one byte of `s`. -/
def strconv.quoteLoop : Nat → GoString → Option GoString
  | 0, _ => some []
  | _ + 1, [] => some []
  | fuel + 1, s0 :: t =>
    let rw : Nat × Nat := if s0 < 0x80 then (s0.val, 1) else utf8.DecodeRuneInString (s0 :: t)
    if rw.2 = 1 ∧ rw.1 = 0xFFFD then
      (strconv.quoteLoop fuel t).map
        (str "\\x" ++ [strconv.lowerhex (s0.val / 16), strconv.lowerhex (s0.val % 16)] ++ ·)
    else
      match strconv.appendEscapedRune rw.1, strconv.quoteLoop fuel ((s0 :: t).drop rw.2) with
      | some q, some rest => some (q ++ rest)
      | _, _ => none

/-- Go `strconv.Quote`.  The result is `none` when `s` holds a rune above U+00FF, whose
quoting depends on the Unicode tables of `strconv.IsPrint`. -/
def strconv.Quote (s : GoString) : Option GoString :=
  (strconv.quoteLoop s.length s).map (str "\"" ++ · ++ str "\"")

/-- Go `parseAddrError.Error`. -/
def netip.parseAddrError.Error (err : netip.parseAddrError) : Option GoString :=
  match strconv.Quote err.input, strconv.Quote err.rest with
  | some i, some a =>
    if err.rest ≠ [] then
      some (str "ParseAddr(" ++ i ++ str "): " ++ err.msg ++ str " (at " ++ a ++ str ")")
    else some (str "ParseAddr(" ++ i ++ str "): " ++ err.msg)
  | _, _ => none

/-- The message of a parse error cause (`Error()`). -/
def url.ParseErr.Error : url.ParseErr → Option GoString
  | .escapeError s => (strconv.Quote s).map (str "invalid URL escape " ++ ·)
  | .invalidHostError s =>
    (strconv.Quote s).map (fun q => str "invalid character " ++ q ++ str " in host name")
  | .invalidControlChar => some (str "net/url: invalid control character in URL")
  | .missingProtocolScheme => some (str "missing protocol scheme")
  | .firstSegmentColon => some (str "first path segment in URL cannot contain colon")
  | .missingBracket => some (str "missing ']' in host")
  | .invalidPort p => (strconv.Quote p).map (fun q => str "invalid port " ++ q ++ str " after host")
  | .invalidUserinfo => some (str "net/url: invalid userinfo")
  | .invalidHost err => err.Error.map (str "invalid host: " ++ ·)
  | .invalidIPLiteral => some (str "invalid IP-literal")

/-- The message of a `syscall.Errno`. -/
def Errno.Error : Errno → GoString
  | .EEXIST => str "file exists"
  | .ENOTEMPTY => str "directory not empty"
  | .ENOTDIR => str "not a directory"
  | .ENOENT => str "no such file or directory"
  | .EISDIR => str "is a directory"
  | .EACCES => str "permission denied"
  | .ENOSPC => str "no space left on device"
  | .EROFS => str "read-only file system"
  | .EINVAL => str "invalid argument"

/-- The message of an error (`Error()`): for `*url.Error` it is
`fmt.Sprintf("%s %q: %s", e.Op, e.URL, e.Err)`, for `*fs.PathError` it is
`e.Op + " " + e.Path + ": " + e.Err.Error()`. -/
def GoError.Error : GoError → Option GoString
  | .urlError op u e =>
    match strconv.Quote u, e.Error with
    | some q, some m => some (op ++ str " " ++ q ++ str ": " ++ m)
    | _, _ => none
  | .pathError op p e => some (op ++ str " " ++ p ++ str ": " ++ e.Error)
  | .execError msg => some msg

/-- Go `(*joinError).Error`: the messages of the wrapped errors, separated by newlines. -/
def joinError.Error (e : joinError) : Option GoString :=
  (e.errs.mapM GoError.Error).map (fun ms => strings.Join ms (str "\n"))

/-! ## The file system -/

/-- The state of the file system: which paths are directories, and the content of the
regular files.  Paths are the path strings the program passes to `os`; there are no
symbolic links. -/
structure FS where
  isDir : GoString → Bool
  file : GoString → Option GoString

/-- The world `templatePkg` runs in: the file system, the failures the environment will
inject into the coming system calls (one entry is consumed per call; `none` lets the call
proceed), and the records logged through `slog.Info`. -/
structure World where
  fs : FS
  faults : List (Option Errno)
  log : List (GoString × GoString)

/-- Consume the next entry of the failure oracle. -/
def World.nextFault (w : World) : Option Errno × World :=
  (w.faults.head?.join, { w with faults := w.faults.tail })

/-- The proper ancestors of a path: its prefixes that end right before a `/` (other than a
leading one). -/
def FS.ancestors (p : GoString) : List GoString :=
  ((List.range p.length).filter (fun i => 0 < i ∧ p.getD i 0 = ch '/')).map (fun i => p.take i)

/-- What the kernel finds when it walks to the directory that holds `p`: the error for the
first ancestor of `p` that is not a directory, if any (`ENOTDIR` if it is a regular file,
`ENOENT` if it does not exist). -/
def FS.walk (fs : FS) (p : GoString) : Option Errno :=
  match (FS.ancestors p).find? (fun d => !fs.isDir d) with
  | none => none
  | some d => if (fs.file d).isSome then some .ENOTDIR else some .ENOENT

/-- The start of a system call on the path `p`: a path with a NUL byte is refused with
`EINVAL` before the kernel is reached; otherwise the environment may make the call fail; the
kernel refuses the empty path, and a path with an ancestor that is not a directory. -/
def os.enter (p : GoString) (w : World) : World × Option Errno :=
  if (0 : Byte) ∈ p then (w, some .EINVAL)
  else
    match w.nextFault with
    | (some e, w) => (w, some e)
    | (none, w) => if p = [] then (w, some .ENOENT) else (w, w.fs.walk p)

/-- Go `os.Stat`: whether the path is a directory, or the error. -/
def os.Stat (name : GoString) (w : World) : World × Except GoError Bool :=
  match os.enter name w with
  | (w, some e) => (w, .error (.pathError (str "stat") name e))
  | (w, none) =>
    if w.fs.isDir name then (w, .ok true)
    else if (w.fs.file name).isSome then (w, .ok false)
    else (w, .error (.pathError (str "stat") name .ENOENT))

/-- Go `os.Lstat` (without symbolic links, it differs from `os.Stat` in the name of the
operation only). -/
def os.Lstat (name : GoString) (w : World) : World × Except GoError Bool :=
  match os.enter name w with
  | (w, some e) => (w, .error (.pathError (str "lstat") name e))
  | (w, none) =>
    if w.fs.isDir name then (w, .ok true)
    else if (w.fs.file name).isSome then (w, .ok false)
    else (w, .error (.pathError (str "lstat") name .ENOENT))

/-- Go `os.Mkdir`. -/
def os.Mkdir (name : GoString) (w : World) : World × Option GoError :=
  match os.enter name w with
  | (w, some e) => (w, some (.pathError (str "mkdir") name e))
  | (w, none) =>
    if w.fs.isDir name ∨ (w.fs.file name).isSome then
      (w, some (.pathError (str "mkdir") name .EEXIST))
    else ({ w with fs := { w.fs with isDir := fun q => q = name ∨ w.fs.isDir q } }, none)

/-- The parent `path[:i]` that `os.MkdirAll` extracts from `path`, by first removing any
trailing path separator and then scanning backward until finding a path separator or
reaching the beginning of the string. -/
def os.parentOf (path : GoString) : GoString :=
  (((path.reverse.dropWhile (· = ch '/')).dropWhile (· ≠ ch '/')).drop 1).reverse

/-- Go `os.MkdirAll`.  The parent is shorter than the path, so `len(path) + 1` nested
calls are enough. -/
def os.MkdirAllLoop : Nat → GoString → World → World × Option GoError
  | 0, _, w => (w, none)
  | fuel + 1, path, w =>
    -- Fast path: if we can tell whether path is a directory or file, stop with success or error.
    match os.Stat path w with
    | (w, .ok true) => (w, none)
    | (w, .ok false) => (w, some (.pathError (str "mkdir") path .ENOTDIR))
    | (w, .error _) =>
      -- Slow path: make sure parent exists and then call Mkdir for path.
      match (if (os.parentOf path).length > 0 then os.MkdirAllLoop fuel (os.parentOf path) w
          else (w, none)) with
      | (w, some err) => (w, some err)
      | (w, none) =>
        -- Parent now exists; invoke Mkdir and use its result.
        match os.Mkdir path w with
        | (w, none) => (w, none)
        | (w, some err) =>
          -- Handle arguments like "foo/." by
          -- double-checking that directory doesn't exist.
          match os.Lstat path w with
          | (w, .ok true) => (w, none)
          | (w, _) => (w, some err)

/-- Go `os.MkdirAll`: creates the directory and any necessary parents; if the path is
already a directory it does nothing and returns nil. -/
def os.MkdirAll (path : GoString) (w : World) : World × Option GoError :=
  os.MkdirAllLoop (path.length + 1) path w

/-- Go `os.OpenFile` with the flags `O_CREATE|O_TRUNC` and write access, as `os.WriteFile`
and `os.Create` call it: the file is created if necessary and truncated. -/
def os.OpenFile (name : GoString) (w : World) : World × Option GoError :=
  match os.enter name w with
  | (w, some e) => (w, some (.pathError (str "open") name e))
  | (w, none) =>
    if w.fs.isDir name then (w, some (.pathError (str "open") name .EISDIR))
    else
      ({ w with fs := { w.fs with file := fun q => if q = name then some [] else w.fs.file q } },
        none)

/-- Go `(*os.File).Write` of the bytes `data` to the file `name`, just opened and truncated;
when the environment makes it fail, nothing is written. -/
def os.fileWrite (name data : GoString) (w : World) : World × Option GoError :=
  match w.nextFault with
  | (some e, w) => (w, some (.pathError (str "write") name e))
  | (none, w) =>
    ({ w with fs := { w.fs with file := fun q => if q = name then some data else w.fs.file q } },
      none)

/-- Go `(*os.File).Close`. -/
def os.fileClose (name : GoString) (w : World) : World × Option GoError :=
  match w.nextFault with
  | (some e, w) => (w, some (.pathError (str "close") name e))
  | (none, w) => (w, none)

/-- Go `os.WriteFile`: writes data to the named file, creating it if necessary, truncating
it otherwise; the file is closed whether the write fails or not, and the error of the write
comes first. -/
def os.WriteFile (name data : GoString) (w : World) : World × Option GoError :=
  match os.OpenFile name w with
  | (w, some err) => (w, some err)
  | (w, none) =>
    match os.fileWrite name data w with
    | (w, err) =>
      match os.fileClose name w with
      | (w, err1) => (w, if err1.isSome ∧ err.isNone then err1 else err)

/-- Go `os.Create`: creates or truncates the named file. -/
def os.Create (name : GoString) (w : World) : World × Option GoError :=
  os.OpenFile name w

/-! ## The program -/

/-- Go `Package`. -/
structure Package where
  Name : GoString
  Repo : GoString
  deriving DecidableEq, Repr

/-- Go `Config`. -/
structure Config where
  Host : GoString
  DefaultUser : GoString
  Packages : List Package
  deriving DecidableEq, Repr

/-- The page template `pkgTemplate` (parsed from the embedded `template.html.gotmpl`, which
is data of the program): the bytes its execution emits for a configuration and a package,
and the error it ends with, if any. -/
abbrev Template := Config → Package → GoString × Option GoError

/-- Lines 84–95 of `templatePkg`: the switch on `repo.Path` and the backfill of scheme and
host, on the parsed reference. -/
def normalizeURL (config : Config) (pkg : Package) (repo : url.URL) : url.URL :=
  let repo : url.URL :=
    if repo.Path = [] then { repo with Path := path.Join [config.DefaultUser, pkg.Name] }
    else if !strings.Contains repo.Path (str "/") then
      { repo with Path := path.Join [config.DefaultUser, pkg.Repo] }
    else repo
  let repo : url.URL := if repo.Scheme = [] then { repo with Scheme := str "https" } else repo
  let repo : url.URL := if repo.Host = [] then { repo with Host := str "github.com" } else repo
  repo

/-- Lines 80–95 of `templatePkg`: parse the repository reference and normalise it. -/
def normalizeRepo (config : Config) (pkg : Package) : Except GoError url.URL :=
  match url.Parse pkg.Repo with
  | .error (u, e) => .error (.urlError (str "parse") u e)
  | .ok repo => .ok (normalizeURL config pkg repo)

/-- Lines 98–112 of `templatePkg`: create `index.html` in the directory of the package
(whose repository reference has been normalised), log, execute the template on the file and
close it.  After `os.Create` the file is closed on every path: by the deferred `f.Close()`
when the execution of the template fails (its error is dropped), by the final
`return f.Close()` otherwise (the deferred call then finds the file closed). -/
def writePage (pkgTemplate : Template) (config : Config) (pkg : Package) (pkgPath : GoString)
    (w : World) : World × Option GoError :=
  let f := filepath.Join [pkgPath, str "index.html"]
  match os.Create f w with
  | (w, some err) => (w, some err)
  | (w, none) =>
    let w : World := { w with log := w.log ++ [(pkg.Name, pkg.Repo)] }
    match os.fileWrite f (pkgTemplate config pkg).1 w with
    | (w, some err) => ((os.fileClose f w).1, some err)
    | (w, none) =>
      match (pkgTemplate config pkg).2 with
      | some err => ((os.fileClose f w).1, some err)
      | none => os.fileClose f w

/-- Go `templatePkg`. -/
def templatePkg (pkgTemplate : Template) (config : Config) (pkg : Package) (gitignore : Bool)
    (w : World) : World × Option GoError :=
  let pkgPath := filepath.Join [str "public", pkg.Name]
  match os.MkdirAll pkgPath w with
  | (w, err) =>
  if err.isSome ∧ !(err.elim false os.IsExist) then (w, err)
  else
    match (if gitignore then
        os.WriteFile (filepath.Join [pkgPath, str ".gitignore"]) (str ".gitignore\nindex.html") w
      else (w, none)) with
    | (w, some err) => (w, some err)
    | (w, none) =>
      match normalizeRepo config pkg with
      | .error err => (w, some err)
      | .ok repo => writePage pkgTemplate config { pkg with Repo := repo.String } pkgPath w

/-- The loop of `run` (lines 59–64): call `templatePkg` on every package, collecting the
errors. -/
def runLoop (pkgTemplate : Template) (config : Config) (gitignore : Bool) :
    List Package → World → List GoError → World × List GoError
  | [], w, errs => (w, errs)
  | pkg :: rest, w, errs =>
    match templatePkg pkgTemplate config pkg gitignore w with
    | (w, some err) => runLoop pkgTemplate config gitignore rest w (errs ++ [err])
    | (w, none) => runLoop pkgTemplate config gitignore rest w errs

/-- Go `run`, from line 59 on: the flag `gitignore` and the configuration have been read
(flag parsing and YAML decoding are library code outside the program). -/
def run (pkgTemplate : Template) (config : Config) (gitignore : Bool) (w : World) :
    World × Option joinError :=
  let (w, errs) := runLoop pkgTemplate config gitignore config.Packages w []
  (w, errors.Join (errs.map some))

/-! ## Notions used in the statements -/

/-- The world in which `templatePkg` is called for the package of index `i`, when the
packages `pkgs` are processed in order starting in the world `w`: the world left by the
calls for the packages before it. -/
def worldBefore (pkgTemplate : Template) (config : Config) (gitignore : Bool)
    (pkgs : List Package) (w : World) (i : Nat) : World :=
  (pkgs.take i).foldl (fun w pkg => (templatePkg pkgTemplate config pkg gitignore w).1) w

/-- The error returned by the call of `templatePkg` for the package of index `i` (nil if
the call succeeds), when the packages `pkgs` are processed in order starting in the world
`w`. -/
def outcome (pkgTemplate : Template) (config : Config) (gitignore : Bool)
    (pkgs : List Package) (w : World) (i : Nat) : Option GoError :=
  (pkgs.get? i).bind fun pkg =>
    (templatePkg pkgTemplate config pkg gitignore
      (worldBefore pkgTemplate config gitignore pkgs w i)).2

/-- A single path element that `Clean` keeps as it is: non-empty, without `/`, and neither
`.` nor `..`. -/
def plainElem (e : GoString) : Prop :=
  e ≠ [] ∧ ch '/' ∉ e ∧ e ≠ str "." ∧ e ≠ str ".."

instance (e : GoString) : Decidable (plainElem e) := by
  unfold plainElem; infer_instance

/-- An ASCII letter, a digit, `-` or `_`. -/
def isWordByte (c : Byte) : Bool :=
  (ch 'a' ≤ c ∧ c ≤ ch 'z') ∨ (ch 'A' ≤ c ∧ c ≤ ch 'Z') ∨ (ch '0' ≤ c ∧ c ≤ ch '9') ∨
    c = ch '-' ∨ c = ch '_'

/-- The path of a `.gitignore` file, in whatever directory: `.gitignore` itself or a path
ending in `/.gitignore`. -/
def isGitignorePath (q : GoString) : Prop :=
  q = str ".gitignore" ∨ (str "/.gitignore").isSuffixOf q = true

/-- The directory `templatePkg` creates for a package. -/
def pkgDir (pkg : Package) : GoString := filepath.Join [str "public", pkg.Name]

/-- The `.gitignore` path `templatePkg` writes for a package. -/
def gitignorePath (pkg : Package) : GoString := filepath.Join [pkgDir pkg, str ".gitignore"]

/-- The `index.html` path `templatePkg` creates for a package. -/
def indexPath (pkg : Package) : GoString := filepath.Join [pkgDir pkg, str "index.html"]

/-- The content `templatePkg` writes to a `.gitignore`: the two lines `.gitignore` and
`index.html`. -/
def gitignoreContent : GoString := str ".gitignore" ++ [ch '\n'] ++ str "index.html"

/-- The default of the flag `-gitignore` (line 48 of `run`). -/
def gitignoreDefault : Bool := true

/-- The world after the first two steps of `templatePkg` (lines 69–78): the directory
creation and, when the flag is set, the write of `.gitignore`. -/
def worldAfterGitignore (pkg : Package) (gi : Bool) (w : World) : World :=
  if gi then
    (os.WriteFile (gitignorePath pkg) (str ".gitignore\nindex.html")
      (os.MkdirAll (pkgDir pkg) w).1).1
  else (os.MkdirAll (pkgDir pkg) w).1

/-- A world with an empty working directory, where no file operation is made to fail. -/
def emptyWorld : World :=
  { fs := { isDir := fun p => p = str ".", file := fun _ => none }, faults := [], log := [] }

/-- A page template that emits the package name, a space and the repository URL. -/
def sampleTemplate : Template := fun _ pkg => (pkg.Name ++ str " " ++ pkg.Repo, none)

/-- A byte that `unescape` accepts unescaped in the given mode: not `%`, and in a host or
zone not an ASCII byte that must be escaped there. -/
def url.rawOK (m : url.encoding) (c : Byte) : Prop :=
  c ≠ ch '%' ∧
    ¬ ((m = .encodeHost ∨ m = .encodeZone) ∧ c < 0x80 ∧ url.shouldEscape c .encodeHost = true)

/-- An escape `%ab` that `unescape` accepts in the given mode. -/
def url.escOK (m : url.encoding) (a b : Byte) : Prop :=
  url.ishex a = true ∧ url.ishex b = true ∧
    ¬ (m = .encodeHost ∧ url.unhex a < 8 ∧ [ch '%', a, b] ≠ str "%25") ∧
    ¬ (m = .encodeZone ∧ [ch '%', a, b] ≠ str "%25" ∧ url.unhex2 a b ≠ ch ' ' ∧
        url.shouldEscape (url.unhex2 a b) .encodeHost = true)

instance (m : url.encoding) (c : Byte) : Decidable (url.rawOK m c) := by
  unfold url.rawOK; infer_instance

instance (m : url.encoding) (a b : Byte) : Decidable (url.escOK m a b) := by
  unfold url.escOK; infer_instance

/-- A byte whose output by `escape` in the given mode is accepted again by `unescape` in
that mode. -/
def url.escByteOK (m : url.encoding) (c : Byte) : Prop :=
  (url.shouldEscape c m = false → url.rawOK m c) ∧
    (url.shouldEscape c m = true →
      url.escOK m (url.upperhex (c.val / 16)) (url.upperhex (c.val % 16)))

instance (m : url.encoding) (c : Byte) : Decidable (url.escByteOK m c) := by
  unfold url.escByteOK; infer_instance

/-- A byte `getScheme` accepts inside a scheme: a letter, a digit, `+`, `-` or `.`. -/
def url.isSchemeByte (c : Byte) : Bool :=
  (ch 'a' ≤ c ∧ c ≤ ch 'z') ∨ (ch 'A' ≤ c ∧ c ≤ ch 'Z') ∨ (ch '0' ≤ c ∧ c ≤ ch '9') ∨
    c = ch '+' ∨ c = ch '-' ∨ c = ch '.'

/-- A text `getScheme` accepts as a scheme: a letter followed by scheme bytes. -/
def url.isScheme (s : GoString) : Bool :=
  match s with
  | [] => false
  | c :: rest => ((ch 'a' ≤ c ∧ c ≤ ch 'z') ∨ (ch 'A' ≤ c ∧ c ≤ ch 'Z')) && rest.all url.isSchemeByte

/-- A scheme as `parse` stores it: accepted by `getScheme` and in lower case. -/
def url.validScheme (s : GoString) : Bool :=
  url.isScheme s && s.all (fun c => !(ch 'A' ≤ c ∧ c ≤ ch 'Z'))

/-- A control byte, as rejected by `stringContainsCTLByte`. -/
def url.isCTL (c : Byte) : Bool := c < ch ' ' ∨ c = 0x7f

/-- The validity, as an optional port, of what starts at the first colon of a host, if
there is a colon. -/
def url.portFrom (s : GoString) : Option Bool :=
  (strings.Index s [ch ':']).map fun i => url.validOptionalPort (s.drop i)

/-- The authority `String` writes for a URL with a host: the user information followed by
`@`, if any, and the escaped host. -/
def url.authOf (u : url.URL) : GoString :=
  (match u.User with
    | some ui => ui.String ++ str "@"
    | none => []) ++ url.escape u.Host .encodeHost

/-- The path `String` writes for a URL with a host: the escaped path, after a `/` if it
does not start with one. -/
def url.slashPath (u : url.URL) : GoString :=
  (if url.EscapedPath u ≠ [] ∧ (url.EscapedPath u).head? ≠ some (ch '/') then str "/" else [])
    ++ url.EscapedPath u

/-- The text of a URL with a scheme, from its parts as `String` writes them. -/
def url.assemble (scheme opq auth path : GoString) (forceQuery : Bool)
    (rawQuery frag : GoString) : GoString :=
  scheme ++ ch ':' ::
    ((if opq ≠ [] then opq else str "//" ++ auth ++ path) ++
      (if forceQuery = true ∨ rawQuery ≠ [] then ch '?' :: rawQuery else [])) ++
    (if frag ≠ [] then ch '#' :: frag else [])

/-- The user information as `parseAuthority` reads it back: without a password when none
is set. -/
def url.normUser (ui : url.Userinfo) : url.Userinfo :=
  if ui.passwordSet then ui else ⟨ui.username, [], false⟩

/-- The text `x` is well-formed for `unescape` in the given mode and decodes to `h`: it is
a sequence of accepted raw bytes and accepted escapes. -/
inductive url.Decodes (m : url.encoding) : GoString → GoString → Prop
  | nil : url.Decodes m [] []
  | raw (c : Byte) (x h : GoString) : url.rawOK m c → url.Decodes m x h →
      url.Decodes m (c :: x) (c :: h)
  | esc (a b : Byte) (x h : GoString) : url.escOK m a b → url.Decodes m x h →
      url.Decodes m (ch '%' :: a :: b :: x) (url.unhex2 a b :: h)

/-! ## Lemmas on `path.Clean` -/

theorem takeWhile_noSlash (e t : GoString) (he : ch '/' ∉ e)
    (ht : t = [] ∨ t.head? = some (ch '/')) :
    (e ++ t).takeWhile (· ≠ ch '/') = e ∧ (e ++ t).dropWhile (· ≠ ch '/') = t := by
  induction e with
  | nil =>
    rcases ht with rfl | ht
    · simp
    · cases t with
      | nil => simp
      | cons c t => simp at ht; subst ht; simp
  | cons c e ih =>
    simp only [List.mem_cons, not_or] at he
    have hc : c ≠ ch '/' := fun h => he.1 h.symm
    obtain ⟨h1, h2⟩ := ih he.2
    have hd : decide (c ≠ ch '/') = true := by simp [hc]
    constructor
    · rw [List.cons_append, List.takeWhile_cons]
      simp only [hd, if_true]
      rw [h1]
    · rw [List.cons_append, List.dropWhile_cons]
      simp only [hd, if_true]
      rw [h2]

theorem cleanLoop_elem (rooted : Bool) (fuel : Nat) (e t out : GoString) (dd : Nat)
    (he : plainElem e) (ht : t = [] ∨ t.head? = some (ch '/')) :
    path.cleanLoop rooted (fuel + 1) (e ++ t) out dd =
      path.cleanLoop rooted fuel t
        ((if (rooted ∧ out.length ≠ 1) ∨ (!rooted ∧ out.length ≠ 0) then out ++ [ch '/']
          else out) ++ e) dd := by
  obtain ⟨hne, hns, hd, hdd⟩ := he
  have htd := takeWhile_noSlash e t hns ht
  cases e with
  | nil => exact absurd rfl hne
  | cons c e =>
    have hc : c ≠ ch '/' := fun h => hns (by simp [h])
    have h2 : ¬ (c = ch '.' ∧ (e ++ t = [] ∨ (e ++ t).head? = some (ch '/'))) := by
      rintro ⟨rfl, h⟩
      cases e with
      | nil => exact hd (by decide)
      | cons d e =>
        simp at h
        exact hns (by simp [h])
    have h3 : ¬ (c = ch '.' ∧ (e ++ t).head? = some (ch '.') ∧
        ((e ++ t).tail = [] ∨ (e ++ t).tail.head? = some (ch '/'))) := by
      rintro ⟨rfl, h, h'⟩
      cases e with
      | nil =>
        rcases ht with rfl | ht
        · simp at h
        · simp [ht] at h; revert h; decide
      | cons d e =>
        simp at h
        subst h
        cases e with
        | nil => exact hdd (by decide)
        | cons d2 e =>
          simp at h'
          exact hns (by simp [h'])
    rw [List.cons_append] at htd ⊢
    rw [path.cleanLoop]
    simp only [hc, h2, h3, if_false]
    rw [htd.1, htd.2]

theorem ite_dot_ne_nil (out : GoString) : (if out.length = 0 then str "." else out) ≠ [] := by
  split
  · decide
  · intro h
    rename_i h1
    exact h1 (by rw [h]; rfl)

theorem Clean_ne_nil (p : GoString) : path.Clean p ≠ [] := by
  unfold path.Clean
  by_cases hp : p = []
  · rw [if_pos hp]; decide
  · rw [if_neg hp]
    exact ite_dot_ne_nil _

theorem joinBuf_two (a b : GoString) :
    path.joinBuf [] [a, b] = if a = [] then b else a ++ [ch '/'] ++ b := by
  cases a with
  | nil =>
    cases b <;> simp [path.joinBuf]
  | cons c a => simp [path.joinBuf]

theorem Join_two_ne_nil (a b : GoString) (h : a ≠ [] ∨ b ≠ []) : path.Join [a, b] ≠ [] := by
  unfold path.Join
  have : ([a, b].map List.length).sum ≠ 0 := by
    simp only [List.map_cons, List.map_nil, List.sum_cons, List.sum_nil, Nat.add_zero]
    rcases h with h | h
    · have := List.length_pos.mpr h; omega
    · have := List.length_pos.mpr h; omega
  rw [if_neg this]
  exact Clean_ne_nil _

theorem plainElem_head (e t : GoString) (he : plainElem e) :
    (e ++ t).head? ≠ some (ch '/') := by
  obtain ⟨hne, hns, _, _⟩ := he
  cases e with
  | nil => exact absurd rfl hne
  | cons c e =>
    simp only [List.cons_append, List.head?_cons, ne_eq, Option.some.injEq]
    intro h
    exact hns (by simp [h])

theorem cleanLoop_nil (rooted : Bool) (fuel : Nat) (out : GoString) (dd : Nat) :
    path.cleanLoop rooted fuel [] out dd = out := by
  cases fuel <;> simp [path.cleanLoop]

/-- Cleaning `a/b` for two plain elements gives `a/b`. -/
theorem Clean_two_plain (a b : GoString) (ha : plainElem a) (hb : plainElem b) :
    path.Clean (a ++ [ch '/'] ++ b) = a ++ [ch '/'] ++ b := by
  have hane : a ≠ [] := ha.1
  have hbne : b ≠ [] := hb.1
  have hal : a.length ≠ 0 := by
    have := List.length_pos.mpr hane; omega
  have hlen : (a ++ [ch '/'] ++ b).length = (a.length + b.length - 2) + 3 := by
    have := List.length_pos.mpr hane
    have := List.length_pos.mpr hbne
    simp; omega
  have hhead : (a ++ [ch '/'] ++ b).head? ≠ some (ch '/') := by
    rw [List.append_assoc]; exact plainElem_head _ _ ha
  have hne : a ++ [ch '/'] ++ b ≠ [] := by simp
  have h1 := cleanLoop_elem false (a.length + b.length - 2 + 2) a ([ch '/'] ++ b) [] 0 ha
    (by simp)
  have h2 := cleanLoop_elem false (a.length + b.length - 2) b [] a 0 hb (by simp)
  have h3 : path.cleanLoop false (a.length + b.length - 2 + 1 + 1) ([ch '/'] ++ b) ([] ++ a) 0
      = path.cleanLoop false (a.length + b.length - 2 + 1) b ([] ++ a) 0 := by
    rw [List.singleton_append, path.cleanLoop]; simp
  unfold path.Clean
  rw [if_neg hne]
  simp only [hhead, decide_False, Bool.false_eq_true, if_false]
  rw [hlen, List.append_assoc, h1]
  simp only [Bool.false_eq_true, false_and, Bool.not_false, List.length_nil, ne_eq,
    not_true_eq_false, and_false, or_self, if_false]
  rw [h3]
  simp only [List.nil_append, List.append_nil] at h2 ⊢
  rw [h2, cleanLoop_nil]
  simp [hal, hane]

theorem Join_two_plain (a b : GoString) (ha : plainElem a) (hb : plainElem b) :
    path.Join [a, b] = a ++ [ch '/'] ++ b := by
  have h := Join_two_ne_nil a b (Or.inl ha.1)
  unfold path.Join at h ⊢
  split
  · rename_i h0; rw [if_pos h0] at h; exact absurd rfl h
  · rw [joinBuf_two, if_neg ha.1]
    exact Clean_two_plain a b ha hb

/-! ## Lemmas on the normalisation step -/

theorem normalizeURL_eq (config : Config) (pkg : Package) (repo : url.URL) :
    normalizeURL config pkg repo =
      { repo with
        Scheme := if repo.Scheme = [] then str "https" else repo.Scheme
        Host := if repo.Host = [] then str "github.com" else repo.Host
        Path :=
          if repo.Path = [] then path.Join [config.DefaultUser, pkg.Name]
          else if strings.Contains repo.Path (str "/") = true then repo.Path
          else path.Join [config.DefaultUser, pkg.Repo] } := by
  unfold normalizeURL
  obtain ⟨sch, opq, usr, hst, pth, rpth, oh, fq, rq, fr, rfr⟩ := repo
  by_cases h1 : pth = [] <;> by_cases h2 : strings.Contains pth (str "/") = true <;>
    by_cases h3 : sch = [] <;> by_cases h4 : hst = [] <;> simp [h1, h2, h3, h4]

theorem normalizeURL_Path (config : Config) (pkg : Package) (repo : url.URL) :
    (normalizeURL config pkg repo).Path =
      if repo.Path = [] then path.Join [config.DefaultUser, pkg.Name]
      else if strings.Contains repo.Path (str "/") = true then repo.Path
      else path.Join [config.DefaultUser, pkg.Repo] := by
  rw [normalizeURL_eq]

theorem normalizeURL_Scheme (config : Config) (pkg : Package) (repo : url.URL) :
    (normalizeURL config pkg repo).Scheme =
      if repo.Scheme = [] then str "https" else repo.Scheme := by
  rw [normalizeURL_eq]

theorem normalizeURL_Host (config : Config) (pkg : Package) (repo : url.URL) :
    (normalizeURL config pkg repo).Host =
      if repo.Host = [] then str "github.com" else repo.Host := by
  rw [normalizeURL_eq]

theorem normalizeRepo_ok (config : Config) (pkg : Package) (repo : url.URL)
    (hparse : url.Parse pkg.Repo = .ok repo) :
    normalizeRepo config pkg = .ok (normalizeURL config pkg repo) := by
  simp [normalizeRepo, hparse]

theorem Parse_nil : url.Parse [] = .ok {} := by decide

/-! ## C2, C3, C4: the rules for the path -/

theorem Contains_slash_ne_nil (p : GoString) (h : strings.Contains p (str "/") = true) :
    p ≠ [] := by
  rintro rfl
  revert h
  decide

/-- C2 (as stated) fails: with an empty `defaultUser`, the empty reference of package `foo`
is given the path `foo`, not `/foo`. -/
theorem emptyPath_rule_counterexample :
    (url.Parse (str "")).map (·.Path) = .ok [] ∧
    (normalizeRepo ⟨str "example.com", str "", []⟩ ⟨str "foo", str ""⟩).map (·.Path)
      = .ok (str "foo") ∧
    str "foo" ≠ str "" ++ str "/" ++ str "foo" := by
  decide

/-- C2 (amended): when the parsed path is empty, the normalised path is
`path.Join(defaultUser, name)`; it is `defaultUser + "/" + name` whenever both are plain path
elements (non-empty, without `/`, neither `.` nor `..`). -/
theorem emptyPath_rule (config : Config) (pkg : Package) (repo : url.URL)
    (hparse : url.Parse pkg.Repo = .ok repo) (hpath : repo.Path = []) :
    normalizeRepo config pkg = .ok (normalizeURL config pkg repo) ∧
    (normalizeURL config pkg repo).Path = path.Join [config.DefaultUser, pkg.Name] ∧
    (plainElem config.DefaultUser → plainElem pkg.Name →
      (normalizeURL config pkg repo).Path = config.DefaultUser ++ str "/" ++ pkg.Name) := by
  have h1 : (normalizeURL config pkg repo).Path = path.Join [config.DefaultUser, pkg.Name] := by
    rw [normalizeURL_Path, if_pos hpath]
  refine ⟨normalizeRepo_ok _ _ _ hparse, h1, ?_⟩
  intro hd hn
  rw [h1]
  exact Join_two_plain _ _ hd hn

theorem emptyPath_rule_witness :
    (normalizeURL ⟨str "example.com", str "acme", []⟩ ⟨str "foo", str ""⟩ {}).Path
      = str "acme" ++ str "/" ++ str "foo" :=
  (emptyPath_rule ⟨str "example.com", str "acme", []⟩ ⟨str "foo", str ""⟩ {}
    (by decide) (by decide)).2.2 (by decide) (by decide)

/-- C3 (as stated) fails: with an empty `defaultUser`, the bare reference `myrepo` is given
the path `myrepo`, not `/myrepo`. -/
theorem bareName_rule_counterexample :
    (url.Parse (str "myrepo")).map (·.Path) = .ok (str "myrepo") ∧
    strings.Contains (str "myrepo") (str "/") = false ∧
    (normalizeRepo ⟨str "example.com", str "", []⟩ ⟨str "bar", str "myrepo"⟩).map (·.Path)
      = .ok (str "myrepo") ∧
    str "myrepo" ≠ str "" ++ str "/" ++ str "myrepo" := by
  decide

/-- C3 (amended): when the parsed path is non-empty and has no `/`, the normalised path is
`path.Join(defaultUser, <raw reference>)`, built from the whole raw string; it is
`defaultUser + "/" + <raw reference>` whenever both are plain path elements (non-empty,
without `/`, neither `.` nor `..`). -/
theorem bareName_rule (config : Config) (pkg : Package) (repo : url.URL)
    (hparse : url.Parse pkg.Repo = .ok repo) (hpath : repo.Path ≠ [])
    (hslash : strings.Contains repo.Path (str "/") = false) :
    normalizeRepo config pkg = .ok (normalizeURL config pkg repo) ∧
    (normalizeURL config pkg repo).Path = path.Join [config.DefaultUser, pkg.Repo] ∧
    (plainElem config.DefaultUser → plainElem pkg.Repo →
      (normalizeURL config pkg repo).Path = config.DefaultUser ++ str "/" ++ pkg.Repo) := by
  have h1 : (normalizeURL config pkg repo).Path = path.Join [config.DefaultUser, pkg.Repo] := by
    rw [normalizeURL_Path, if_neg hpath, if_neg (by simp [hslash])]
  refine ⟨normalizeRepo_ok _ _ _ hparse, h1, ?_⟩
  intro hd hn
  rw [h1]
  exact Join_two_plain _ _ hd hn

theorem bareName_rule_witness :
    (normalizeURL ⟨str "example.com", str "acme", []⟩ ⟨str "bar", str "myrepo"⟩
      { Path := str "myrepo" }).Path = str "acme" ++ str "/" ++ str "myrepo" :=
  (bareName_rule ⟨str "example.com", str "acme", []⟩ ⟨str "bar", str "myrepo"⟩
    { Path := str "myrepo" } (by decide) (by decide) (by decide)).2.2 (by decide) (by decide)

/-- C4 (as stated) fails: the reference `https://gitlab.com` contains `/` and parses, with
an empty path; normalisation replaces that path by `acme/baz`. -/
theorem qualifiedPath_rule_counterexample :
    strings.Contains (str "https://gitlab.com") (str "/") = true ∧
    (url.Parse (str "https://gitlab.com")).map (·.Path) = .ok [] ∧
    (normalizeRepo ⟨str "example.com", str "acme", []⟩
      ⟨str "baz", str "https://gitlab.com"⟩).map (·.Path) = .ok (str "acme/baz") := by
  decide

/-- C4 (amended): when the path parsed from the reference contains `/`, normalisation
leaves the path as parsed, whatever the package name and `defaultUser`. -/
theorem qualifiedPath_rule (config : Config) (pkg : Package) (repo : url.URL)
    (hparse : url.Parse pkg.Repo = .ok repo)
    (hslash : strings.Contains repo.Path (str "/") = true) :
    normalizeRepo config pkg = .ok (normalizeURL config pkg repo) ∧
    (normalizeURL config pkg repo).Path = repo.Path := by
  refine ⟨normalizeRepo_ok _ _ _ hparse, ?_⟩
  rw [normalizeURL_Path, if_neg (Contains_slash_ne_nil _ hslash), if_pos hslash]

theorem qualifiedPath_rule_witness :
    normalizeRepo ⟨str "example.com", str "acme", []⟩ ⟨str "baz", str "other/baz2"⟩ =
      .ok (normalizeURL ⟨str "example.com", str "acme", []⟩ ⟨str "baz", str "other/baz2"⟩
        { Path := str "other/baz2" }) ∧
    (normalizeURL ⟨str "example.com", str "acme", []⟩ ⟨str "baz", str "other/baz2"⟩
        { Path := str "other/baz2" }).Path = str "other/baz2" :=
  qualifiedPath_rule ⟨str "example.com", str "acme", []⟩ ⟨str "baz", str "other/baz2"⟩
    { Path := str "other/baz2" } (by decide) (by decide)

/-! ## Lemmas: the last element of a cleaned path -/

theorem dropWhile_slash_append (x e : GoString) :
    ∃ y, (x ++ ch '/' :: e).dropWhile (· ≠ ch '/') = y ++ ch '/' :: e ∧ y.length ≤ x.length := by
  induction x with
  | nil => exact ⟨[], by simp [List.dropWhile_cons], Nat.le_refl _⟩
  | cons c x ih =>
    by_cases hc : c = ch '/'
    · exact ⟨c :: x, by simp [List.dropWhile_cons, hc], Nat.le_refl _⟩
    · obtain ⟨y, hy, hl⟩ := ih
      refine ⟨y, ?_, Nat.le_succ_of_le hl⟩
      rw [List.cons_append, List.dropWhile_cons]
      have hd : decide (c ≠ ch '/') = true := by simp [hc]
      simp only [hd, if_true]
      exact hy

theorem cleanLoop_suffix (rooted : Bool) (e : GoString) (he : plainElem e) :
    ∀ (fuel : Nat) (p out : GoString) (dd : Nat), p.length ≤ fuel →
      (p = e ∨ ∃ x, p = x ++ ch '/' :: e) →
      e <:+ path.cleanLoop rooted fuel p out dd := by
  intro fuel
  induction fuel with
  | zero =>
    intro p out dd hlen hp
    have hp0 : p = [] := List.length_eq_zero.mp (Nat.le_zero.mp hlen)
    subst hp0
    rcases hp with h | ⟨x, h⟩
    · exact absurd h.symm he.1
    · simp at h
  | succ fuel ih =>
    intro p out dd hlen hp
    cases p with
    | nil =>
      rcases hp with h | ⟨x, h⟩
      · exact absurd h.symm he.1
      · simp at h
    | cons c rest =>
      have hrl : rest.length ≤ fuel := by simpa using hlen
      rw [path.cleanLoop]
      by_cases h1 : c = ch '/'
      · -- empty element
        simp only [h1, if_true]
        apply ih _ _ _ hrl
        rcases hp with h | ⟨x, h⟩
        · exact absurd (by rw [← h, h1]; simp) (plainElem_head e [] he)
        · cases x with
          | nil =>
            simp only [List.nil_append, List.cons.injEq] at h
            exact Or.inl h.2
          | cons d x =>
            simp only [List.cons_append, List.cons.injEq] at h
            exact Or.inr ⟨x, h.2⟩
      · simp only [h1, if_false]
        by_cases h2 : c = ch '.' ∧ (rest = [] ∨ rest.head? = some (ch '/'))
        · -- . element
          simp only [h2, if_true]
          apply ih _ _ _ hrl
          obtain ⟨hc, hr⟩ := h2
          rcases hp with h | ⟨x, h⟩
          · exfalso
            rcases hr with hr | hr
            · exact he.2.2.1 (by rw [← h, hc, hr]; decide)
            · cases rest with
              | nil => simp at hr
              | cons d rest =>
                simp at hr
                exact he.2.1 (by rw [← h, hr]; simp)
          · cases x with
            | nil =>
              simp only [List.nil_append, List.cons.injEq] at h
              exact absurd h.1 h1
            | cons d x =>
              simp only [List.cons_append, List.cons.injEq] at h
              exact Or.inr ⟨x, h.2⟩
        · rw [if_neg h2]
          by_cases h3 : c = ch '.' ∧ rest.head? = some (ch '.') ∧
              (rest.tail = [] ∨ rest.tail.head? = some (ch '/'))
          · -- .. element
            rw [if_pos h3]
            obtain ⟨hc, hr1, hr2⟩ := h3
            cases rest with
            | nil => simp at hr1
            | cons d rest2 =>
              simp only [List.head?_cons, Option.some.injEq] at hr1
              simp only [List.tail_cons] at hr2 ⊢
              have hrl2 : rest2.length ≤ fuel := by
                simp at hrl; omega
              have hp2 : rest2 = e ∨ ∃ x, rest2 = x ++ ch '/' :: e := by
                rcases hp with h | ⟨x, h⟩
                · exfalso
                  rcases hr2 with hr | hr
                  · exact he.2.2.2 (by rw [← h, hc, hr1, hr]; decide)
                  · cases rest2 with
                    | nil => simp at hr
                    | cons d2 rest3 =>
                      simp at hr
                      exact he.2.1 (by rw [← h, hr]; simp)
                · cases x with
                  | nil =>
                    simp only [List.nil_append, List.cons.injEq] at h
                    exact absurd h.1 h1
                  | cons d1 x =>
                    cases x with
                    | nil =>
                      simp only [List.cons_append, List.nil_append, List.cons.injEq] at h
                      exact absurd (hr1.symm.trans h.2.1) (by decide)
                    | cons d2 x =>
                      simp only [List.cons_append, List.cons.injEq] at h
                      exact Or.inr ⟨x, h.2.2⟩
              split
              · exact ih _ _ _ hrl2 hp2
              · split
                · exact ih _ _ _ hrl2 hp2
                · exact ih _ _ _ hrl2 hp2
          · -- real path element
            rw [if_neg h3]
            have hd : decide (c ≠ ch '/') = true := by simp [h1]
            rcases hp with h | ⟨x, h⟩
            · have htd := takeWhile_noSlash e [] he.2.1 (Or.inl rfl)
              rw [List.append_nil] at htd
              rw [h, htd.1, htd.2, cleanLoop_nil]
              exact List.suffix_append _ _
            · apply ih
              · rw [List.dropWhile_cons]
                simp only [hd, if_true]
                exact Nat.le_trans (List.Sublist.length_le (List.dropWhile_sublist _)) hrl
              · right
                rw [h]
                obtain ⟨y, hy, _⟩ := dropWhile_slash_append x e
                exact ⟨y, hy⟩

theorem Clean_suffix (d e : GoString) (he : plainElem e) (p : GoString)
    (hp : p = e ∨ p = d ++ ch '/' :: e) : e <:+ path.Clean p := by
  have hne : p ≠ [] := by
    rcases hp with h | h
    · rw [h]; exact he.1
    · rw [h]; simp
  have key : ∀ out : GoString, e <:+ out → e <:+ (if out.length = 0 then str "." else out) := by
    intro out h
    have : out.length ≠ 0 := by
      have h1 := List.IsSuffix.length_le h
      have h2 := List.length_pos.mpr he.1
      omega
    rw [if_neg this]
    exact h
  unfold path.Clean
  rw [if_neg hne]
  apply key
  split
  · rename_i hr
    simp only [decide_eq_true_eq] at hr
    apply cleanLoop_suffix _ e he _ _ _ _ (by simp)
    cases p with
    | nil => exact absurd rfl hne
    | cons c p =>
      simp only [List.head?_cons, Option.some.injEq] at hr
      simp only [List.tail_cons]
      rcases hp with h | h
      · exact absurd (by rw [← h]; simp [hr]) (plainElem_head e [] he)
      · cases d with
        | nil =>
          simp only [List.nil_append, List.cons.injEq] at h
          exact Or.inl h.2
        | cons d0 d =>
          simp only [List.cons_append, List.cons.injEq] at h
          exact Or.inr ⟨d, h.2⟩
  · apply cleanLoop_suffix _ e he _ _ _ _ (Nat.le_refl _)
    rcases hp with h | h
    · exact Or.inl h
    · exact Or.inr ⟨d, h⟩

theorem filepathJoin_suffix (d e : GoString) (he : plainElem e) :
    e <:+ filepath.Join [d, e] := by
  by_cases hd : d = []
  · subst hd
    simp only [filepath.Join, ne_eq, not_true_eq_false, if_false, he.1, not_false_eq_true,
      if_true, filepath.Clean, strings.Join]
    exact Clean_suffix [] e he e (Or.inl rfl)
  · simp only [filepath.Join, ne_eq, hd, not_false_eq_true, if_true, filepath.Clean,
      strings.Join]
    exact Clean_suffix d e he _ (Or.inr (by simp))

/-! ## Lemmas on the driver loop -/

theorem worldBefore_zero (tpl : Template) (config : Config) (gi : Bool) (pkgs : List Package)
    (w : World) : worldBefore tpl config gi pkgs w 0 = w := by
  simp [worldBefore]

theorem worldBefore_succ (tpl : Template) (config : Config) (gi : Bool) (pkg : Package)
    (rest : List Package) (w : World) (i : Nat) :
    worldBefore tpl config gi (pkg :: rest) w (i + 1) =
      worldBefore tpl config gi rest (templatePkg tpl config pkg gi w).1 i := by
  simp [worldBefore]

theorem outcome_zero (tpl : Template) (config : Config) (gi : Bool) (pkg : Package)
    (rest : List Package) (w : World) :
    outcome tpl config gi (pkg :: rest) w 0 = (templatePkg tpl config pkg gi w).2 := by
  simp [outcome, worldBefore]

theorem outcome_succ (tpl : Template) (config : Config) (gi : Bool) (pkg : Package)
    (rest : List Package) (w : World) (i : Nat) :
    outcome tpl config gi (pkg :: rest) w (i + 1) =
      outcome tpl config gi rest (templatePkg tpl config pkg gi w).1 i := by
  simp [outcome, worldBefore]

theorem range_filterMap_cons (tpl : Template) (config : Config) (gi : Bool) (pkg : Package)
    (rest : List Package) (w : World) :
    (List.range (pkg :: rest).length).filterMap (outcome tpl config gi (pkg :: rest) w) =
      (templatePkg tpl config pkg gi w).2.toList ++
        (List.range rest.length).filterMap
          (outcome tpl config gi rest (templatePkg tpl config pkg gi w).1) := by
  rw [List.length_cons, List.range_succ_eq_map, List.filterMap_cons, outcome_zero,
    List.filterMap_map]
  have : (outcome tpl config gi (pkg :: rest) w ∘ Nat.succ) =
      outcome tpl config gi rest (templatePkg tpl config pkg gi w).1 := by
    funext i
    exact outcome_succ tpl config gi pkg rest w i
  rw [this]
  cases (templatePkg tpl config pkg gi w).2 <;> rfl

theorem runLoop_eq (tpl : Template) (config : Config) (gi : Bool) (pkgs : List Package)
    (w : World) (errs : List GoError) :
    runLoop tpl config gi pkgs w errs =
      (worldBefore tpl config gi pkgs w pkgs.length,
        errs ++ (List.range pkgs.length).filterMap (outcome tpl config gi pkgs w)) := by
  induction pkgs generalizing w errs with
  | nil => simp [runLoop, worldBefore]
  | cons pkg rest ih =>
    rw [runLoop, range_filterMap_cons, List.length_cons, worldBefore_succ]
    cases h : templatePkg tpl config pkg gi w with
    | mk w1 r =>
      cases r with
      | none => simp [ih]
      | some err => simp [ih]

theorem errorsJoin_some (errs : List GoError) :
    errors.Join (errs.map some) = if errs = [] then none else some ⟨errs⟩ := by
  unfold errors.Join
  have h1 : ((errs.map some).filter Option.isSome).length = errs.length := by
    induction errs with
    | nil => rfl
    | cons e es ih => simp [List.filter_cons, ih]
  have h2 : (errs.map some).filterMap id = errs := by
    induction errs with
    | nil => rfl
    | cons e es ih => simp [List.filterMap_cons, ih]
  simp only [h1, h2]
  cases errs <;> simp

theorem run_eq (tpl : Template) (config : Config) (gi : Bool) (w : World) :
    run tpl config gi w =
      (worldBefore tpl config gi config.Packages w config.Packages.length,
        if (List.range config.Packages.length).filterMap
            (outcome tpl config gi config.Packages w) = [] then none
        else some ⟨(List.range config.Packages.length).filterMap
            (outcome tpl config gi config.Packages w)⟩) := by
  unfold run
  rw [runLoop_eq]
  simp only [List.nil_append, errorsJoin_some]

theorem range_filterMap_nil {β : Type} (n : Nat) (f : Nat → Option β) :
    (List.range n).filterMap f = [] ↔ ∀ i, i < n → f i = none := by
  rw [List.filterMap_eq_nil_iff]
  simp only [List.mem_range]

/-- The error of the call for a package of the list is among the errors of the calls. -/
theorem outcome_mem (tpl : Template) (config : Config) (gi : Bool) (pkgs : List Package)
    (w : World) (i : Nat) (err : GoError) (hi : i < pkgs.length)
    (h : outcome tpl config gi pkgs w i = some err) :
    err ∈ (List.range pkgs.length).filterMap (outcome tpl config gi pkgs w) :=
  List.mem_filterMap.mpr ⟨i, List.mem_range.mpr hi, h⟩

/-! ## C1: error aggregation in `run` -/

/-- C1: `run` calls `templatePkg` once for every package, in declaration order, each call in
the world left by the calls before it, whatever those calls returned: the world `run` ends in
is the one left by the call for the last package.  It returns nil exactly when every call
returned nil, and otherwise the aggregate wraps the error of every failing call, in
declaration order. -/
theorem run_aggregates_all_errors (tpl : Template) (config : Config) (gi : Bool) (w : World) :
    (run tpl config gi w).1 =
      worldBefore tpl config gi config.Packages w config.Packages.length ∧
    (∀ i pkg, config.Packages.get? i = some pkg →
      worldBefore tpl config gi config.Packages w (i + 1) =
        (templatePkg tpl config pkg gi (worldBefore tpl config gi config.Packages w i)).1 ∧
      outcome tpl config gi config.Packages w i =
        (templatePkg tpl config pkg gi (worldBefore tpl config gi config.Packages w i)).2) ∧
    ((run tpl config gi w).2 = none ↔
      ∀ i, i < config.Packages.length → outcome tpl config gi config.Packages w i = none) ∧
    (∀ agg, (run tpl config gi w).2 = some agg →
      agg.errs = (List.range config.Packages.length).filterMap
        (outcome tpl config gi config.Packages w)) := by
  rw [run_eq]
  refine ⟨rfl, ?_, ?_, ?_⟩
  · intro i pkg hi
    constructor
    · unfold worldBefore
      have hlt : i < config.Packages.length := (List.get?_eq_some.mp hi).1
      have hget : config.Packages[i] = pkg := (List.get?_eq_some.mp hi).2
      rw [List.take_succ, List.foldl_append]
      simp [List.getElem?_eq_getElem hlt, hget]
    · unfold outcome
      rw [hi]
      rfl
  · simp only
    by_cases h : (List.range config.Packages.length).filterMap
        (outcome tpl config gi config.Packages w) = []
    · rw [if_pos h]
      exact ⟨fun _ => (range_filterMap_nil _ _).mp h, fun _ => rfl⟩
    · rw [if_neg h]
      exact ⟨fun h1 => absurd h1 (by simp), fun h1 => absurd ((range_filterMap_nil _ _).mpr h1) h⟩
  · intro agg h
    simp only at h
    split at h
    · exact absurd h (by simp)
    · simp only [Option.some.injEq] at h
      rw [← h]

set_option maxRecDepth 100000 in
theorem run_aggregates_all_errors_witness :
    (run sampleTemplate
      ⟨str "example.com", str "acme", [⟨str "bad", [1]⟩, ⟨str "ok", str ""⟩]⟩ true
      emptyWorld).1.fs.file (str "public/ok/index.html")
      = some (str "ok https://github.com/acme/ok") ∧
    (run sampleTemplate
      ⟨str "example.com", str "acme", [⟨str "bad", [1]⟩, ⟨str "ok", str ""⟩]⟩ true
      emptyWorld).2 = some ⟨[.urlError (str "parse") [1] .invalidControlChar]⟩ := by
  have h := run_aggregates_all_errors sampleTemplate
    ⟨str "example.com", str "acme", [⟨str "bad", [1]⟩, ⟨str "ok", str ""⟩]⟩ true emptyWorld
  refine ⟨?_, ?_⟩
  · rw [h.1]
    decide
  · decide

/-! ## Lemmas on the file operations -/

theorem enter_fs (p : GoString) (w : World) : (os.enter p w).1.fs = w.fs := by
  unfold os.enter World.nextFault
  split
  · rfl
  · cases w.faults.head?.join with
    | some e => rfl
    | none => simp only; split <;> rfl

theorem enter_log (p : GoString) (w : World) : (os.enter p w).1.log = w.log := by
  unfold os.enter World.nextFault
  split
  · rfl
  · cases w.faults.head?.join with
    | some e => rfl
    | none => simp only; split <;> rfl

theorem Stat_fs (p : GoString) (w : World) : (os.Stat p w).1.fs = w.fs := by
  have h := enter_fs p w
  unfold os.Stat
  rcases he : os.enter p w with ⟨w1, e⟩
  rw [he] at h
  cases e with
  | some e => exact h
  | none => simp only; split <;> [exact h; (split <;> exact h)]

theorem Stat_log (p : GoString) (w : World) : (os.Stat p w).1.log = w.log := by
  have h := enter_log p w
  unfold os.Stat
  rcases he : os.enter p w with ⟨w1, e⟩
  rw [he] at h
  cases e with
  | some e => exact h
  | none => simp only; split <;> [exact h; (split <;> exact h)]

theorem Stat_dir (p : GoString) (w : World) (h : (os.Stat p w).2 = .ok true) :
    w.fs.isDir p = true := by
  have hf := enter_fs p w
  unfold os.Stat at h
  rcases he : os.enter p w with ⟨w1, e⟩
  rw [he] at h hf
  cases e with
  | some e => exact absurd h (by simp)
  | none =>
    simp only at h hf
    split at h
    · rename_i hd
      rw [← hf]; exact hd
    · split at h <;> exact absurd h (by simp)

theorem Lstat_fs (p : GoString) (w : World) : (os.Lstat p w).1.fs = w.fs := by
  have h := enter_fs p w
  unfold os.Lstat
  rcases he : os.enter p w with ⟨w1, e⟩
  rw [he] at h
  cases e with
  | some e => exact h
  | none => simp only; split <;> [exact h; (split <;> exact h)]

theorem Lstat_log (p : GoString) (w : World) : (os.Lstat p w).1.log = w.log := by
  have h := enter_log p w
  unfold os.Lstat
  rcases he : os.enter p w with ⟨w1, e⟩
  rw [he] at h
  cases e with
  | some e => exact h
  | none => simp only; split <;> [exact h; (split <;> exact h)]

theorem Lstat_dir (p : GoString) (w : World) (h : (os.Lstat p w).2 = .ok true) :
    w.fs.isDir p = true := by
  have hf := enter_fs p w
  unfold os.Lstat at h
  rcases he : os.enter p w with ⟨w1, e⟩
  rw [he] at h hf
  cases e with
  | some e => exact absurd h (by simp)
  | none =>
    simp only at h hf
    split at h
    · rename_i hd
      rw [← hf]; exact hd
    · split at h <;> exact absurd h (by simp)

theorem Mkdir_file (p : GoString) (w : World) : (os.Mkdir p w).1.fs.file = w.fs.file := by
  have h := enter_fs p w
  unfold os.Mkdir
  rcases he : os.enter p w with ⟨w1, e⟩
  rw [he] at h
  cases e with
  | some e => simp only; rw [h]
  | none => simp only; split <;> simp only <;> rw [h]

theorem Mkdir_log (p : GoString) (w : World) : (os.Mkdir p w).1.log = w.log := by
  have h := enter_log p w
  unfold os.Mkdir
  rcases he : os.enter p w with ⟨w1, e⟩
  rw [he] at h
  cases e with
  | some e => exact h
  | none => simp only; split <;> exact h

theorem Mkdir_mono (p : GoString) (w : World) (q : GoString) (hq : w.fs.isDir q = true) :
    (os.Mkdir p w).1.fs.isDir q = true := by
  have h := enter_fs p w
  unfold os.Mkdir
  rcases he : os.enter p w with ⟨w1, e⟩
  rw [he] at h
  simp only at h
  cases e with
  | some e => simp only; rw [h]; exact hq
  | none =>
    simp only
    split
    · simp only; rw [h]; exact hq
    · simp only [h, hq, or_true, decide_True]

theorem Mkdir_ok (p : GoString) (w : World) (hok : (os.Mkdir p w).2 = none) :
    (os.Mkdir p w).1.fs.isDir p = true := by
  unfold os.Mkdir at hok ⊢
  rcases he : os.enter p w with ⟨w1, e⟩
  rw [he] at hok
  cases e with
  | some e => exact absurd hok (by simp)
  | none =>
    simp only at hok ⊢
    split
    · rename_i hd
      rw [if_pos hd] at hok
      exact absurd hok (by simp)
    · simp

theorem parentOf_length (p : GoString) (h : (os.parentOf p).length > 0) :
    (os.parentOf p).length < p.length := by
  unfold os.parentOf at h ⊢
  have h1 := (List.dropWhile_suffix (l := p.reverse) (· = ch '/')).length_le
  have h2 := (List.dropWhile_suffix (l := p.reverse.dropWhile (· = ch '/'))
    (· ≠ ch '/')).length_le
  simp only [List.length_reverse, List.length_drop] at h h1 h2 ⊢
  omega

theorem MkdirAllLoop_file (fuel : Nat) (p : GoString) (w : World) :
    (os.MkdirAllLoop fuel p w).1.fs.file = w.fs.file := by
  induction fuel generalizing p w with
  | zero => rfl
  | succ fuel ih =>
    rw [os.MkdirAllLoop]
    have hs := Stat_fs p w
    rcases hst : os.Stat p w with ⟨w1, r⟩
    rw [hst] at hs
    simp only at hs
    rcases r with e | b
    · simp only
      have hp : (if (os.parentOf p).length > 0 then os.MkdirAllLoop fuel (os.parentOf p) w1
          else (w1, none)).1.fs.file = w1.fs.file := by
        split
        · exact ih _ _
        · rfl
      rcases hpr : (if (os.parentOf p).length > 0 then os.MkdirAllLoop fuel (os.parentOf p) w1
          else (w1, none)) with ⟨w2, e2⟩
      rw [hpr] at hp
      simp only at hp
      cases e2 with
      | some err => simp only; rw [hp, hs]
      | none =>
        simp only
        have hm := Mkdir_file p w2
        rcases hmk : os.Mkdir p w2 with ⟨w3, e3⟩
        rw [hmk] at hm
        simp only at hm
        cases e3 with
        | none => simp only; rw [hm, hp, hs]
        | some err =>
          simp only
          have hl := Lstat_fs p w3
          rcases hls : os.Lstat p w3 with ⟨w4, r4⟩
          rw [hls] at hl
          simp only at hl
          rcases r4 with e4 | b4
          · simp only; rw [hl, hm, hp, hs]
          · cases b4 <;> simp only <;> rw [hl, hm, hp, hs]
    · cases b <;> simp only <;> rw [hs]

theorem MkdirAllLoop_log (fuel : Nat) (p : GoString) (w : World) :
    (os.MkdirAllLoop fuel p w).1.log = w.log := by
  induction fuel generalizing p w with
  | zero => rfl
  | succ fuel ih =>
    rw [os.MkdirAllLoop]
    have hs := Stat_log p w
    rcases hst : os.Stat p w with ⟨w1, r⟩
    rw [hst] at hs
    simp only at hs
    rcases r with e | b
    · simp only
      have hp : (if (os.parentOf p).length > 0 then os.MkdirAllLoop fuel (os.parentOf p) w1
          else (w1, none)).1.log = w1.log := by
        split
        · exact ih _ _
        · rfl
      rcases hpr : (if (os.parentOf p).length > 0 then os.MkdirAllLoop fuel (os.parentOf p) w1
          else (w1, none)) with ⟨w2, e2⟩
      rw [hpr] at hp
      simp only at hp
      cases e2 with
      | some err => simp only; rw [hp, hs]
      | none =>
        simp only
        have hm := Mkdir_log p w2
        rcases hmk : os.Mkdir p w2 with ⟨w3, e3⟩
        rw [hmk] at hm
        simp only at hm
        cases e3 with
        | none => simp only; rw [hm, hp, hs]
        | some err =>
          simp only
          have hl := Lstat_log p w3
          rcases hls : os.Lstat p w3 with ⟨w4, r4⟩
          rw [hls] at hl
          simp only at hl
          rcases r4 with e4 | b4
          · simp only; rw [hl, hm, hp, hs]
          · cases b4 <;> simp only <;> rw [hl, hm, hp, hs]
    · cases b <;> simp only <;> rw [hs]

/-- When `os.MkdirAll` returns nil the path is a directory. -/
theorem MkdirAllLoop_ok (fuel : Nat) (p : GoString) (w : World)
    (hok : (os.MkdirAllLoop (fuel + 1) p w).2 = none) :
    (os.MkdirAllLoop (fuel + 1) p w).1.fs.isDir p = true := by
  rw [os.MkdirAllLoop] at hok ⊢
  have hs := Stat_fs p w
  have hd := Stat_dir p w
  rcases hst : os.Stat p w with ⟨w1, r⟩
  rw [hst] at hs hd hok
  simp only at hs hd
  rcases r with e | b
  · simp only at hok ⊢
    rcases hpr : (if (os.parentOf p).length > 0 then os.MkdirAllLoop fuel (os.parentOf p) w1
        else (w1, none)) with ⟨w2, e2⟩
    rw [hpr] at hok
    cases e2 with
    | some err => exact absurd hok (by simp)
    | none =>
      simp only at hok ⊢
      have hm := Mkdir_ok p w2
      rcases hmk : os.Mkdir p w2 with ⟨w3, e3⟩
      rw [hmk] at hm hok
      simp only at hm
      cases e3 with
      | none => exact hm rfl
      | some err =>
        simp only at hok ⊢
        have hl := Lstat_fs p w3
        have hld := Lstat_dir p w3
        rcases hls : os.Lstat p w3 with ⟨w4, r4⟩
        rw [hls] at hl hld hok
        simp only at hl hld
        rcases r4 with e4 | b4
        · exact absurd hok (by simp)
        · cases b4 with
          | false => exact absurd hok (by simp)
          | true => simp only; rw [hl]; exact hld rfl
  · cases b with
    | false => exact absurd hok (by simp)
    | true => simp only; rw [hs]; exact hd rfl

/-- The recursion of `os.MkdirAll` ends before its bound: any larger bound gives the same
result. -/
theorem MkdirAllLoop_fuel (n : Nat) :
    ∀ (m : Nat) (p : GoString) (w : World), p.length < n → p.length < m →
      os.MkdirAllLoop n p w = os.MkdirAllLoop m p w := by
  induction n with
  | zero => intro m p w h; omega
  | succ n ih =>
    intro m p w hn hm
    cases m with
    | zero => omega
    | succ m =>
      rw [os.MkdirAllLoop, os.MkdirAllLoop]
      have hrec : ∀ w1, (if (os.parentOf p).length > 0 then os.MkdirAllLoop n (os.parentOf p) w1
          else (w1, none)) = (if (os.parentOf p).length > 0 then
            os.MkdirAllLoop m (os.parentOf p) w1 else (w1, none)) := by
        intro w1
        split
        · rename_i hp
          have := parentOf_length p hp
          exact ih m _ w1 (by omega) (by omega)
        · rfl
      simp only [hrec]

theorem MkdirAll_file (p : GoString) (w : World) : (os.MkdirAll p w).1.fs.file = w.fs.file :=
  MkdirAllLoop_file _ p w

theorem MkdirAll_log (p : GoString) (w : World) : (os.MkdirAll p w).1.log = w.log :=
  MkdirAllLoop_log _ p w

theorem MkdirAll_ok_isDir (p : GoString) (w : World) (h : (os.MkdirAll p w).2 = none) :
    (os.MkdirAll p w).1.fs.isDir p = true :=
  MkdirAllLoop_ok _ p w h

theorem OpenFile_file_ne (name : GoString) (w : World) (q : GoString) (hq : q ≠ name) :
    (os.OpenFile name w).1.fs.file q = w.fs.file q := by
  have h := enter_fs name w
  unfold os.OpenFile
  rcases he : os.enter name w with ⟨w1, e⟩
  rw [he] at h
  simp only at h
  cases e with
  | some e => simp only; rw [h]
  | none =>
    simp only
    split
    · simp only; rw [h]
    · simp only [hq, if_false, h]

theorem OpenFile_isDir (name : GoString) (w : World) :
    (os.OpenFile name w).1.fs.isDir = w.fs.isDir := by
  have h := enter_fs name w
  unfold os.OpenFile
  rcases he : os.enter name w with ⟨w1, e⟩
  rw [he] at h
  simp only at h
  cases e with
  | some e => simp only; rw [h]
  | none => simp only; split <;> simp only <;> rw [h]

theorem OpenFile_log (name : GoString) (w : World) : (os.OpenFile name w).1.log = w.log := by
  have h := enter_log name w
  unfold os.OpenFile
  rcases he : os.enter name w with ⟨w1, e⟩
  rw [he] at h
  cases e with
  | some e => exact h
  | none => simp only; split <;> exact h

theorem fileWrite_file_ne (name data : GoString) (w : World) (q : GoString) (hq : q ≠ name) :
    (os.fileWrite name data w).1.fs.file q = w.fs.file q := by
  unfold os.fileWrite World.nextFault
  cases w.faults.head?.join with
  | some e => rfl
  | none => simp [hq]

theorem fileWrite_isDir (name data : GoString) (w : World) :
    (os.fileWrite name data w).1.fs.isDir = w.fs.isDir := by
  unfold os.fileWrite World.nextFault
  cases w.faults.head?.join <;> rfl

theorem fileWrite_log (name data : GoString) (w : World) :
    (os.fileWrite name data w).1.log = w.log := by
  unfold os.fileWrite World.nextFault
  cases w.faults.head?.join <;> rfl

theorem fileWrite_ok (name data : GoString) (w : World) (h : (os.fileWrite name data w).2 = none) :
    (os.fileWrite name data w).1.fs.file name = some data := by
  unfold os.fileWrite World.nextFault at h ⊢
  cases hf : w.faults.head?.join with
  | some e => rw [hf] at h; exact absurd h (by simp)
  | none => simp

theorem fileClose_fs (name : GoString) (w : World) : (os.fileClose name w).1.fs = w.fs := by
  unfold os.fileClose World.nextFault
  cases w.faults.head?.join <;> rfl

theorem fileClose_log (name : GoString) (w : World) : (os.fileClose name w).1.log = w.log := by
  unfold os.fileClose World.nextFault
  cases w.faults.head?.join <;> rfl

/-- The world and the error of `os.WriteFile`, from those of its three steps. -/
theorem WriteFile_eq (name data : GoString) (w : World) :
    os.WriteFile name data w =
      if (os.OpenFile name w).2.isSome then os.OpenFile name w
      else
        ((os.fileClose name (os.fileWrite name data (os.OpenFile name w).1).1).1,
          if (os.fileClose name (os.fileWrite name data (os.OpenFile name w).1).1).2.isSome ∧
              (os.fileWrite name data (os.OpenFile name w).1).2.isNone then
            (os.fileClose name (os.fileWrite name data (os.OpenFile name w).1).1).2
          else (os.fileWrite name data (os.OpenFile name w).1).2) := by
  unfold os.WriteFile
  rcases os.OpenFile name w with ⟨w1, e1⟩
  cases e1 <;> rfl

theorem WriteFile_file_ne (name data : GoString) (w : World) (q : GoString) (hq : q ≠ name) :
    (os.WriteFile name data w).1.fs.file q = w.fs.file q := by
  rw [WriteFile_eq]
  split
  · exact OpenFile_file_ne name w q hq
  · simp only
    rw [fileClose_fs, fileWrite_file_ne _ _ _ _ hq, OpenFile_file_ne name w q hq]

theorem WriteFile_isDir (name data : GoString) (w : World) :
    (os.WriteFile name data w).1.fs.isDir = w.fs.isDir := by
  rw [WriteFile_eq]
  split
  · exact OpenFile_isDir name w
  · simp only
    rw [fileClose_fs, fileWrite_isDir, OpenFile_isDir]

theorem WriteFile_log (name data : GoString) (w : World) :
    (os.WriteFile name data w).1.log = w.log := by
  rw [WriteFile_eq]
  split
  · exact OpenFile_log name w
  · simp only
    rw [fileClose_log, fileWrite_log, OpenFile_log]

theorem WriteFile_ok (name data : GoString) (w : World)
    (h : (os.WriteFile name data w).2 = none) :
    (os.WriteFile name data w).1.fs.file name = some data := by
  rw [WriteFile_eq] at h ⊢
  split
  · rename_i ho
    rw [if_pos ho] at h
    rw [h] at ho
    exact absurd ho (by simp)
  · rename_i ho
    rw [if_neg ho] at h
    simp only at h ⊢
    rw [fileClose_fs]
    apply fileWrite_ok
    cases hw : (os.fileWrite name data (os.OpenFile name w).1).2 with
    | none => rfl
    | some err =>
      rw [hw] at h
      simp at h

theorem Create_file_ne (name : GoString) (w : World) (q : GoString) (hq : q ≠ name) :
    (os.Create name w).1.fs.file q = w.fs.file q :=
  OpenFile_file_ne name w q hq

/-- The effect of the part of `templatePkg` after the parse (lines 98–112) on the files
other than `index.html`. -/
theorem writePage_file_ne (tpl : Template) (config : Config) (pkg : Package) (d : GoString)
    (w : World) (q : GoString) (hq : q ≠ filepath.Join [d, str "index.html"]) :
    (writePage tpl config pkg d w).1.fs.file q = w.fs.file q := by
  unfold writePage
  simp only
  have hc := Create_file_ne (filepath.Join [d, str "index.html"]) w q hq
  rcases hcr : os.Create (filepath.Join [d, str "index.html"]) w with ⟨w1, e1⟩
  rw [hcr] at hc
  cases e1 with
  | some err => exact hc
  | none =>
    simp only
    have hw := fileWrite_file_ne (filepath.Join [d, str "index.html"]) (tpl config pkg).1
      { w1 with log := w1.log ++ [(pkg.Name, pkg.Repo)] } q hq
    rcases hwr : os.fileWrite (filepath.Join [d, str "index.html"]) (tpl config pkg).1
      { w1 with log := w1.log ++ [(pkg.Name, pkg.Repo)] } with ⟨w2, e2⟩
    rw [hwr] at hw
    simp only at hw hc
    cases e2 with
    | some err => simp only; rw [fileClose_fs]; exact hw.trans hc
    | none =>
      simp only
      cases (tpl config pkg).2 with
      | some err => simp only; rw [fileClose_fs]; exact hw.trans hc
      | none =>
        simp only
        rw [fileClose_fs]
        exact hw.trans hc

/-! ## Lemmas on `templatePkg` -/

theorem templatePkg_cases (tpl : Template) (config : Config) (pkg : Package) (gi : Bool)
    (w : World) :
    (∃ err, (os.MkdirAll (pkgDir pkg) w).2 = some err ∧ os.IsExist err = false ∧
      templatePkg tpl config pkg gi w = ((os.MkdirAll (pkgDir pkg) w).1, some err)) ∨
    (∃ err, gi = true ∧
      (os.WriteFile (gitignorePath pkg) (str ".gitignore\nindex.html")
        (os.MkdirAll (pkgDir pkg) w).1).2 = some err ∧
      templatePkg tpl config pkg gi w = (worldAfterGitignore pkg gi w, some err)) ∨
    ((gi = true → (os.WriteFile (gitignorePath pkg) (str ".gitignore\nindex.html")
        (os.MkdirAll (pkgDir pkg) w).1).2 = none) ∧
      templatePkg tpl config pkg gi w =
        match normalizeRepo config pkg with
        | .error err => (worldAfterGitignore pkg gi w, some err)
        | .ok repo =>
          writePage tpl config { pkg with Repo := repo.String } (pkgDir pkg)
            (worldAfterGitignore pkg gi w)) := by
  unfold templatePkg worldAfterGitignore gitignorePath pkgDir
  rcases h1 : os.MkdirAll (filepath.Join [str "public", pkg.Name]) w with ⟨w1, e1⟩
  simp only [h1]
  by_cases hf : e1.isSome = true ∧ (!e1.elim false os.IsExist) = true
  · left
    rw [if_pos hf]
    cases e1 with
    | none => simp at hf
    | some err => exact ⟨err, rfl, by simpa using hf, rfl⟩
  · right
    rw [if_neg hf]
    cases gi with
    | false =>
      right
      refine ⟨by simp, ?_⟩
      simp only [Bool.false_eq_true, if_false]
    | true =>
      simp only [if_true]
      rcases h2 : os.WriteFile (filepath.Join [filepath.Join [str "public", pkg.Name],
        str ".gitignore"]) (str ".gitignore\nindex.html") w1 with ⟨w2, e2⟩
      cases e2 with
      | some err => left; exact ⟨err, trivial, rfl, rfl⟩
      | none =>
        right
        refine ⟨fun _ => rfl, ?_⟩
        simp only

theorem worldAfterGitignore_file_ne (pkg : Package) (gi : Bool) (w : World) (q : GoString)
    (hq : gi = true → q ≠ gitignorePath pkg) :
    (worldAfterGitignore pkg gi w).fs.file q = w.fs.file q := by
  unfold worldAfterGitignore
  cases gi with
  | false => simp only [Bool.false_eq_true, if_false]; rw [MkdirAll_file]
  | true =>
    simp only [if_true]
    rw [WriteFile_file_ne _ _ _ _ (hq rfl), MkdirAll_file]

theorem worldAfterGitignore_log (pkg : Package) (gi : Bool) (w : World) :
    (worldAfterGitignore pkg gi w).log = w.log := by
  unfold worldAfterGitignore
  cases gi with
  | false => simp only [Bool.false_eq_true, if_false]; rw [MkdirAll_log]
  | true => simp only [if_true]; rw [WriteFile_log, MkdirAll_log]

theorem gitignore_suffix (q : GoString) (h : isGitignorePath q) : str ".gitignore" <:+ q := by
  rcases h with h | h
  · rw [h]
  · rw [List.isSuffixOf_iff_suffix] at h
    exact List.IsSuffix.trans ⟨[ch '/'], by decide⟩ h

theorem indexPath_suffix (pkg : Package) : str "index.html" <:+ indexPath pkg :=
  filepathJoin_suffix _ _ (by decide)

theorem suffix_same_length {a b q : GoString} (ha : a <:+ q) (hb : b <:+ q)
    (hl : a.length = b.length) : a = b := by
  rw [List.suffix_iff_eq_drop] at ha hb
  rw [ha, hb, hl]

theorem indexPath_not_gitignore (pkg : Package) : ¬ isGitignorePath (indexPath pkg) := by
  intro h
  have := suffix_same_length (gitignore_suffix _ h) (indexPath_suffix pkg) (by decide)
  revert this
  decide

theorem indexPath_ne_gitignorePath (pkg : Package) : gitignorePath pkg ≠ indexPath pkg := by
  intro h
  have h1 : str ".gitignore" <:+ indexPath pkg := by
    rw [← h]
    exact filepathJoin_suffix _ _ (by decide)
  have := suffix_same_length h1 (indexPath_suffix pkg) (by decide)
  revert this
  decide

/-- The files other than `index.html` and (when the flag is set) the package's `.gitignore`
are left as they were. -/
theorem templatePkg_file_frame (tpl : Template) (config : Config) (pkg : Package) (gi : Bool)
    (w : World) (q : GoString) (hq1 : q ≠ indexPath pkg)
    (hq2 : gi = true → q ≠ gitignorePath pkg) :
    (templatePkg tpl config pkg gi w).1.fs.file q = w.fs.file q := by
  have hw := worldAfterGitignore_file_ne pkg gi w q hq2
  rcases templatePkg_cases tpl config pkg gi w with ⟨err, _, _, h⟩ | ⟨err, _, _, h⟩ | ⟨_, h⟩
  · rw [h]; simp only; rw [MkdirAll_file]
  · rw [h]; exact hw
  · rw [h]
    cases normalizeRepo config pkg with
    | error err => exact hw
    | ok repo =>
      simp only
      rw [writePage_file_ne tpl config _ (pkgDir pkg) _ q hq1]
      exact hw

theorem MkdirAllLoop_err (fuel : Nat) (p : GoString) (w : World) (err : GoError)
    (h : (os.MkdirAllLoop fuel p w).2 = some err) :
    ∃ q en, err = .pathError (str "mkdir") q en := by
  induction fuel generalizing p w err with
  | zero => exact absurd h (by simp [os.MkdirAllLoop])
  | succ fuel ih =>
    rw [os.MkdirAllLoop] at h
    rcases hst : os.Stat p w with ⟨w1, r⟩
    rw [hst] at h
    rcases r with e | b
    · simp only at h
      have hp : ∀ err, (if (os.parentOf p).length > 0 then
          os.MkdirAllLoop fuel (os.parentOf p) w1 else (w1, none)).2 = some err →
          ∃ q en, err = .pathError (str "mkdir") q en := by
        intro err
        split
        · exact ih _ _ err
        · intro h0; exact absurd h0 (by simp)
      rcases hpr : (if (os.parentOf p).length > 0 then os.MkdirAllLoop fuel (os.parentOf p) w1
          else (w1, none)) with ⟨w2, e2⟩
      rw [hpr] at h hp
      cases e2 with
      | some err2 =>
        simp only at h
        rw [← Option.some.inj h]
        exact hp err2 rfl
      | none =>
        simp only at h
        have hm : ∀ err, (os.Mkdir p w2).2 = some err →
            ∃ q en, err = .pathError (str "mkdir") q en := by
          intro err
          unfold os.Mkdir
          rcases os.enter p w2 with ⟨w3, e3⟩
          cases e3 with
          | some e3 => intro h0; exact ⟨p, e3, (Option.some.inj h0).symm⟩
          | none =>
            simp only
            split
            · intro h0; exact ⟨p, .EEXIST, (Option.some.inj h0).symm⟩
            · intro h0; exact absurd h0 (by simp)
        rcases hmk : os.Mkdir p w2 with ⟨w3, e3⟩
        rw [hmk] at h hm
        cases e3 with
        | none => exact absurd h (by simp)
        | some err3 =>
          simp only at h
          rcases hls : os.Lstat p w3 with ⟨w4, r4⟩
          rw [hls] at h
          rcases r4 with e4 | b4
          · simp only at h
            rw [← Option.some.inj h]
            exact hm err3 rfl
          · cases b4 with
            | true => exact absurd h (by simp)
            | false =>
              simp only at h
              rw [← Option.some.inj h]
              exact hm err3 rfl
    · cases b with
      | true => exact absurd h (by simp)
      | false => exact ⟨p, .ENOTDIR, (Option.some.inj h).symm⟩

theorem MkdirAll_err (p : GoString) (w : World) (err : GoError)
    (h : (os.MkdirAll p w).2 = some err) : ∃ q en, err = .pathError (str "mkdir") q en :=
  MkdirAllLoop_err _ p w err h

theorem OpenFile_err (name : GoString) (w : World) (err : GoError)
    (h : (os.OpenFile name w).2 = some err) : ∃ en, err = .pathError (str "open") name en := by
  unfold os.OpenFile at h
  rcases he : os.enter name w with ⟨w1, e1⟩
  rw [he] at h
  cases e1 with
  | some e1 => exact ⟨e1, (Option.some.inj h).symm⟩
  | none =>
    simp only at h
    split at h
    · exact ⟨.EISDIR, (Option.some.inj h).symm⟩
    · exact absurd h (by simp)

theorem WriteFile_err (name data : GoString) (w : World) (err : GoError)
    (h : (os.WriteFile name data w).2 = some err) : ∃ op en, err = .pathError op name en := by
  rw [WriteFile_eq] at h
  split at h
  · obtain ⟨en, hen⟩ := OpenFile_err name w err h
    exact ⟨_, en, hen⟩
  · simp only at h
    have hw : ∀ w1 err, (os.fileWrite name data w1).2 = some err →
        ∃ op en, err = .pathError op name en := by
      intro w1 err
      unfold os.fileWrite World.nextFault
      cases w1.faults.head?.join with
      | some e => intro h0; exact ⟨_, e, (Option.some.inj h0).symm⟩
      | none => intro h0; exact absurd h0 (by simp)
    have hc : ∀ w1 err, (os.fileClose name w1).2 = some err →
        ∃ op en, err = .pathError op name en := by
      intro w1 err
      unfold os.fileClose World.nextFault
      cases w1.faults.head?.join with
      | some e => intro h0; exact ⟨_, e, (Option.some.inj h0).symm⟩
      | none => intro h0; exact absurd h0 (by simp)
    split at h
    · exact hc _ _ h
    · exact hw _ _ h

/-- What `templatePkg` does for a package whose reference does not parse. -/
theorem templatePkg_parse_fail (tpl : Template) (config : Config) (pkg : Package) (gi : Bool)
    (w : World) (u : GoString) (e : url.ParseErr) (hfail : url.Parse pkg.Repo = .error (u, e)) :
    (∃ err, (os.MkdirAll (pkgDir pkg) w).2 = some err ∧ os.IsExist err = false ∧
      templatePkg tpl config pkg gi w = ((os.MkdirAll (pkgDir pkg) w).1, some err)) ∨
    (∃ err, gi = true ∧
      (os.WriteFile (gitignorePath pkg) (str ".gitignore\nindex.html")
        (os.MkdirAll (pkgDir pkg) w).1).2 = some err ∧
      templatePkg tpl config pkg gi w = (worldAfterGitignore pkg gi w, some err)) ∨
    ((gi = true → (os.WriteFile (gitignorePath pkg) (str ".gitignore\nindex.html")
        (os.MkdirAll (pkgDir pkg) w).1).2 = none) ∧
      ((os.MkdirAll (pkgDir pkg) w).2 = none ∨
        ∃ err, (os.MkdirAll (pkgDir pkg) w).2 = some err ∧ os.IsExist err = true) ∧
      templatePkg tpl config pkg gi w =
        (worldAfterGitignore pkg gi w, some (.urlError (str "parse") u e))) := by
  have hn : normalizeRepo config pkg = .error (.urlError (str "parse") u e) := by
    simp [normalizeRepo, hfail]
  rcases templatePkg_cases tpl config pkg gi w with h | h | ⟨h1, h⟩
  · exact Or.inl h
  · exact Or.inr (Or.inl h)
  · refine Or.inr (Or.inr ⟨h1, ?_, by rw [h, hn]⟩)
    -- the directory creation did not stop the call
    cases hm : (os.MkdirAll (pkgDir pkg) w).2 with
    | none => exact Or.inl rfl
    | some err =>
      right
      refine ⟨err, rfl, ?_⟩
      by_contra hex
      have hex2 : os.IsExist err = false := by simpa using hex
      -- then the call returns the error of the directory creation, which is not a parse error
      have hstop : templatePkg tpl config pkg gi w = ((os.MkdirAll (pkgDir pkg) w).1, some err) := by
        unfold templatePkg
        unfold pkgDir at hm
        rcases h1' : os.MkdirAll (filepath.Join [str "public", pkg.Name]) w with ⟨w1, e1⟩
        rw [h1'] at hm
        simp only at hm
        subst hm
        simp only [pkgDir, h1']
        rw [if_pos ⟨rfl, by simp [hex2]⟩]
      rw [h, hn] at hstop
      obtain ⟨q, en, hq⟩ := MkdirAll_err _ _ _ hm
      rw [hq] at hstop
      exact absurd (congrArg Prod.snd hstop) (by simp)

/-! ## C9: the `.gitignore` file -/

theorem cleanLoop_plain_tail (es : List GoString) (hes : ∀ e ∈ es, plainElem e) :
    ∀ (out : GoString) (fuel dd : Nat), out ≠ [] →
      ((es.map (fun e => ch '/' :: e)).flatten).length ≤ fuel →
      path.cleanLoop false fuel ((es.map (fun e => ch '/' :: e)).flatten) out dd =
        out ++ (es.map (fun e => ch '/' :: e)).flatten := by
  induction es with
  | nil => intro out fuel dd _ _; simp [cleanLoop_nil]
  | cons e es ih =>
    intro out fuel dd hout hfuel
    have he := hes e (List.mem_cons_self _ _)
    have hes2 : ∀ x ∈ es, plainElem x := fun x hx => hes x (List.mem_cons_of_mem _ hx)
    have hel := List.length_pos.mpr he.1
    simp only [List.map_cons, List.flatten_cons, List.cons_append, List.length_cons,
      List.length_append] at hfuel ⊢
    obtain ⟨f, rfl⟩ : ∃ f, fuel = f + 2 := ⟨fuel - 2, by omega⟩
    have ht : (es.map (fun e => ch '/' :: e)).flatten = [] ∨
        ((es.map (fun e => ch '/' :: e)).flatten).head? = some (ch '/') := by
      cases es with
      | nil => left; rfl
      | cons e2 es => right; simp
    rw [path.cleanLoop]
    simp only [if_true]
    rw [cleanLoop_elem false f e _ out dd he ht]
    have hol : out.length ≠ 0 := by
      have := List.length_pos.mpr hout; omega
    simp only [Bool.false_eq_true, false_and, Bool.not_false, true_and, false_or, hol, ne_eq,
      not_false_eq_true, if_true]
    rw [ih hes2 _ f dd (by simp) (by omega)]
    simp

/-- Cleaning a relative path made of plain elements gives the path itself. -/
theorem Clean_plain_path (e0 : GoString) (es : List GoString) (h0 : plainElem e0)
    (hes : ∀ e ∈ es, plainElem e) :
    path.Clean (e0 ++ (es.map (fun e => ch '/' :: e)).flatten) =
      e0 ++ (es.map (fun e => ch '/' :: e)).flatten := by
  have hel := List.length_pos.mpr h0.1
  have hne : e0 ++ (es.map (fun e => ch '/' :: e)).flatten ≠ [] := by
    simp [h0.1]
  have hhead := plainElem_head e0 ((es.map (fun e => ch '/' :: e)).flatten) h0
  have ht : (es.map (fun e => ch '/' :: e)).flatten = [] ∨
      ((es.map (fun e => ch '/' :: e)).flatten).head? = some (ch '/') := by
    cases es with
    | nil => left; rfl
    | cons e2 es => right; simp
  unfold path.Clean
  rw [if_neg hne]
  simp only [hhead, decide_False, Bool.false_eq_true, if_false]
  obtain ⟨f, hf⟩ : ∃ f, (e0 ++ (es.map (fun e => ch '/' :: e)).flatten).length = f + 1 :=
    ⟨(e0 ++ (es.map (fun e => ch '/' :: e)).flatten).length - 1, by
      simp only [List.length_append]; omega⟩
  rw [hf, cleanLoop_elem false f e0 _ [] 0 h0 ht]
  simp only [Bool.false_eq_true, false_and, Bool.not_false, List.length_nil, ne_eq,
    not_true_eq_false, and_false, or_self, if_false, List.nil_append]
  rw [cleanLoop_plain_tail es hes e0 f 0 h0.1 (by
    simp only [List.length_append] at hf; omega)]
  have : (e0 ++ (es.map (fun e => ch '/' :: e)).flatten).length ≠ 0 := by
    rw [hf]; omega
  rw [if_neg this]

theorem gitignorePath_plain (pkg : Package) (h : plainElem pkg.Name) :
    pkgDir pkg = str "public/" ++ pkg.Name ∧
    gitignorePath pkg = str "public/" ++ pkg.Name ++ str "/.gitignore" ∧
    indexPath pkg = str "public/" ++ pkg.Name ++ str "/index.html" := by
  have h1 : pkgDir pkg = str "public/" ++ pkg.Name := by
    have := Clean_plain_path (str "public") [pkg.Name] (by decide) (by simpa using h)
    simp only [List.map_cons, List.map_nil, List.flatten_cons, List.flatten_nil,
      List.append_nil] at this
    unfold pkgDir
    simp only [filepath.Join, filepath.Clean, strings.Join]
    rw [if_pos (by decide)]
    have e1 : str "public" ++ [ch '/'] ++ pkg.Name = str "public" ++ ch '/' :: pkg.Name := by
      simp
    have e2 : str "public/" ++ pkg.Name = str "public" ++ ch '/' :: pkg.Name := by
      have : str "public/" = str "public" ++ [ch '/'] := by decide
      rw [this]; simp
    rw [e1, e2]
    exact this
  have hne : pkgDir pkg ≠ [] := by
    rw [h1]; intro h0
    exact h.1 (List.append_eq_nil.mp h0).2
  have key : ∀ e : GoString, plainElem e →
      filepath.Join [pkgDir pkg, e] = str "public/" ++ pkg.Name ++ ch '/' :: e := by
    intro e he
    have := Clean_plain_path (str "public") [pkg.Name, e] (by decide) (by
      intro x hx
      simp only [List.mem_cons, List.mem_singleton, List.not_mem_nil, or_false] at hx
      rcases hx with rfl | rfl
      · exact h
      · exact he)
    simp only [List.map_cons, List.map_nil, List.flatten_cons, List.flatten_nil,
      List.append_nil] at this
    simp only [filepath.Join, filepath.Clean, strings.Join]
    rw [if_pos hne, h1]
    have e2 : str "public/" = str "public" ++ [ch '/'] := by decide
    rw [e2]
    simp only [List.append_assoc, List.singleton_append, List.cons_append] at this ⊢
    exact this
  refine ⟨h1, ?_, ?_⟩
  · unfold gitignorePath
    rw [key _ (by decide)]
    have : str "/.gitignore" = ch '/' :: str ".gitignore" := by decide
    rw [this]
  · unfold indexPath
    rw [key _ (by decide)]
    have : str "/index.html" = ch '/' :: str "index.html" := by decide
    rw [this]

/-- C9: with the flag off, `templatePkg` leaves every `.gitignore` file, in whatever
directory, as it was (none is created or modified).  With the flag on (the default), when
the directory creation and the write of `.gitignore` succeed (in particular when the whole
call succeeds) the package's `.gitignore` holds exactly the two lines `.gitignore` and
`index.html` afterwards; for a plain package name that file is `public/<name>/.gitignore`. -/
theorem gitignore_emission (tpl : Template) (config : Config) (pkg : Package) (w : World) :
    gitignoreDefault = true ∧
    (∀ q, isGitignorePath q →
      (templatePkg tpl config pkg false w).1.fs.file q = w.fs.file q) ∧
    ((templatePkg tpl config pkg true w).2 = none →
      (templatePkg tpl config pkg true w).1.fs.file (gitignorePath pkg)
        = some gitignoreContent) ∧
    (((os.MkdirAll (pkgDir pkg) w).2 = none ∨
        ∃ err, (os.MkdirAll (pkgDir pkg) w).2 = some err ∧ os.IsExist err = true) →
      (os.WriteFile (gitignorePath pkg) gitignoreContent (os.MkdirAll (pkgDir pkg) w).1).2
        = none →
      (templatePkg tpl config pkg true w).1.fs.file (gitignorePath pkg)
        = some gitignoreContent) ∧
    (plainElem pkg.Name →
      gitignorePath pkg = str "public/" ++ pkg.Name ++ str "/.gitignore") := by
  have hc : gitignoreContent = str ".gitignore\nindex.html" := by decide
  have hC : (os.WriteFile (gitignorePath pkg) (str ".gitignore\nindex.html")
        (os.MkdirAll (pkgDir pkg) w).1).2 = none →
      (templatePkg tpl config pkg true w =
        match normalizeRepo config pkg with
        | .error err => (worldAfterGitignore pkg true w, some err)
        | .ok repo =>
          writePage tpl config { pkg with Repo := repo.String } (pkgDir pkg)
            (worldAfterGitignore pkg true w)) →
      (templatePkg tpl config pkg true w).1.fs.file (gitignorePath pkg)
        = some gitignoreContent := by
    intro hw h
    have hafter : (worldAfterGitignore pkg true w).fs.file (gitignorePath pkg)
        = some gitignoreContent := by
      unfold worldAfterGitignore
      simp only [if_true]
      rw [WriteFile_ok _ _ _ hw, hc]
    rw [h]
    cases normalizeRepo config pkg with
    | error err => exact hafter
    | ok repo =>
      simp only
      rw [writePage_file_ne tpl config _ (pkgDir pkg) _ (gitignorePath pkg)
        (indexPath_ne_gitignorePath pkg)]
      exact hafter
  refine ⟨rfl, ?_, ?_, ?_, ?_⟩
  · intro q hq
    apply templatePkg_file_frame
    · intro h
      rw [h] at hq
      exact indexPath_not_gitignore pkg hq
    · intro h; exact absurd h (by simp)
  · intro hok
    rcases templatePkg_cases tpl config pkg true w with ⟨err, _, _, h⟩ | ⟨err, _, _, h⟩ | ⟨hw, h⟩
    · rw [h] at hok; exact absurd hok (by simp)
    · rw [h] at hok; exact absurd hok (by simp)
    · exact hC (hw rfl) h
  · intro hm hw
    rw [hc] at hw
    rcases templatePkg_cases tpl config pkg true w with ⟨err, h0, h1, _⟩ | ⟨err, _, h0, _⟩ | ⟨_, h⟩
    · rcases hm with hm | ⟨err2, hm, hex⟩
      · rw [hm] at h0; exact absurd h0 (by simp)
      · rw [hm] at h0
        rw [Option.some.inj h0] at hex
        rw [hex] at h1
        exact absurd h1 (by simp)
    · rw [hw] at h0; exact absurd h0 (by simp)
    · exact hC hw h
  · intro hp
    exact (gitignorePath_plain pkg hp).2.1

theorem gitignore_emission_witness :
    (templatePkg sampleTemplate ⟨str "example.com", str "acme", []⟩ ⟨str "foo", str ""⟩ true
      emptyWorld).1.fs.file (gitignorePath ⟨str "foo", str ""⟩) = some gitignoreContent ∧
    gitignorePath ⟨str "foo", str ""⟩ = str "public/" ++ str "foo" ++ str "/.gitignore" ∧
    (templatePkg sampleTemplate ⟨str "example.com", str "acme", []⟩ ⟨str "foo", str ""⟩ false
      emptyWorld).1.fs.file (str "public/foo/.gitignore")
      = emptyWorld.fs.file (str "public/foo/.gitignore") :=
  ⟨(gitignore_emission sampleTemplate ⟨str "example.com", str "acme", []⟩ ⟨str "foo", str ""⟩
      emptyWorld).2.2.1 (by decide),
    (gitignore_emission sampleTemplate ⟨str "example.com", str "acme", []⟩ ⟨str "foo", str ""⟩
      emptyWorld).2.2.2.2 (by decide),
    (gitignore_emission sampleTemplate ⟨str "example.com", str "acme", []⟩ ⟨str "foo", str ""⟩
      emptyWorld).2.1 _ (Or.inr (by decide))⟩

/-! ## C8: what a parse failure reports -/

set_option maxRecDepth 100000 in
/-- C8 (as stated) fails: for the package `foo` whose reference is the control character
0x01, the aggregate error of `run` has the message
`parse "\x01": net/url: invalid control character in URL`, in which `foo` does not occur. -/
theorem failure_names_package_counterexample :
    url.Parse [1] = .error ([1], .invalidControlChar) ∧
    (run sampleTemplate ⟨str "example.com", str "acme", [⟨str "foo", [1]⟩]⟩ true
      emptyWorld).2.bind joinError.Error
      = some (str "parse \"\\x01\": net/url: invalid control character in URL") ∧
    strings.Contains (str "parse \"\\x01\": net/url: invalid control character in URL")
      (str "foo") = false := by
  decide

/-- C8 (amended): when a package's reference does not parse, `templatePkg` fails for that
package in every world, and the aggregate error of `run` is not nil and wraps the error of
the call for that package.  That error is the `*url.Error` of the parse (operation `parse`,
the text that failed to parse, the cause: the package name is not part of it) whenever the
directory creation and the `.gitignore` write go through; otherwise it is the error returned
by `os.MkdirAll` (one that is not an already-exists error) or by `os.WriteFile`. -/
theorem parse_failure_reported (tpl : Template) (config : Config) (gi : Bool) (w : World)
    (pkg : Package) (u : GoString) (e : url.ParseErr) (hmem : pkg ∈ config.Packages)
    (hfail : url.Parse pkg.Repo = .error (u, e)) :
    (∀ w1, ∃ err, (templatePkg tpl config pkg gi w1).2 = some err ∧
      (err = .urlError (str "parse") u e ∨
        ((os.MkdirAll (pkgDir pkg) w1).2 = some err ∧ os.IsExist err = false) ∨
        (gi = true ∧ (os.WriteFile (gitignorePath pkg) gitignoreContent
          (os.MkdirAll (pkgDir pkg) w1).1).2 = some err))) ∧
    (∀ w1, ((os.MkdirAll (pkgDir pkg) w1).2 = none ∨
        ∃ err, (os.MkdirAll (pkgDir pkg) w1).2 = some err ∧ os.IsExist err = true) →
      (gi = true → (os.WriteFile (gitignorePath pkg) gitignoreContent
        (os.MkdirAll (pkgDir pkg) w1).1).2 = none) →
      (templatePkg tpl config pkg gi w1).2 = some (.urlError (str "parse") u e)) ∧
    (∃ agg, (run tpl config gi w).2 = some agg ∧
      ∃ i err, config.Packages.get? i = some pkg ∧
        (templatePkg tpl config pkg gi
          (worldBefore tpl config gi config.Packages w i)).2 = some err ∧
        err ∈ agg.errs) := by
  have hc : gitignoreContent = str ".gitignore\nindex.html" := by decide
  have hform : ∀ w1, ∃ err, (templatePkg tpl config pkg gi w1).2 = some err ∧
      (err = .urlError (str "parse") u e ∨
        ((os.MkdirAll (pkgDir pkg) w1).2 = some err ∧ os.IsExist err = false) ∨
        (gi = true ∧ (os.WriteFile (gitignorePath pkg) gitignoreContent
          (os.MkdirAll (pkgDir pkg) w1).1).2 = some err)) := by
    intro w1
    rcases templatePkg_parse_fail tpl config pkg gi w1 u e hfail with
      ⟨err, h0, h1, h⟩ | ⟨err, hg, h0, h⟩ | ⟨_, _, h⟩
    · exact ⟨err, by rw [h], Or.inr (Or.inl ⟨h0, h1⟩)⟩
    · exact ⟨err, by rw [h], Or.inr (Or.inr ⟨hg, by rw [hc]; exact h0⟩)⟩
    · exact ⟨_, by rw [h], Or.inl rfl⟩
  refine ⟨hform, ?_, ?_⟩
  · intro w1 hm hw
    rcases templatePkg_parse_fail tpl config pkg gi w1 u e hfail with
      ⟨err, h0, h1, h⟩ | ⟨err, hg, h0, h⟩ | ⟨_, _, h⟩
    · rcases hm with hm | ⟨err2, hm, hex⟩
      · rw [hm] at h0; exact absurd h0 (by simp)
      · rw [hm] at h0
        rw [Option.some.inj h0] at hex
        rw [hex] at h1
        exact absurd h1 (by simp)
    · have := hw hg
      rw [hc, h0] at this
      exact absurd this (by simp)
    · rw [h]
  · obtain ⟨i, hi⟩ := List.mem_iff_get?.mp hmem
    obtain ⟨err, h1, _⟩ := hform (worldBefore tpl config gi config.Packages w i)
    have hlt : i < config.Packages.length := (List.get?_eq_some.mp hi).1
    have hout : outcome tpl config gi config.Packages w i = some err := by
      unfold outcome
      rw [hi]
      exact h1
    have hin := outcome_mem tpl config gi config.Packages w i err hlt hout
    have hne : (List.range config.Packages.length).filterMap
        (outcome tpl config gi config.Packages w) ≠ [] := List.ne_nil_of_mem hin
    refine ⟨⟨(List.range config.Packages.length).filterMap
      (outcome tpl config gi config.Packages w)⟩, ?_, i, err, hi, h1, hin⟩
    rw [run_eq]
    simp only
    rw [if_neg hne]

set_option maxRecDepth 100000 in
theorem parse_failure_reported_witness :
    (templatePkg sampleTemplate ⟨str "example.com", str "acme", [⟨str "foo", [1]⟩]⟩
      ⟨str "foo", [1]⟩ true emptyWorld).2 = some (.urlError (str "parse") [1] .invalidControlChar) ∧
    ∃ agg, (run sampleTemplate ⟨str "example.com", str "acme", [⟨str "foo", [1]⟩]⟩ true
        emptyWorld).2 = some agg ∧
      ∃ i err, [(⟨str "foo", [1]⟩ : Package)].get? i = some ⟨str "foo", [1]⟩ ∧
        (templatePkg sampleTemplate ⟨str "example.com", str "acme", [⟨str "foo", [1]⟩]⟩
          ⟨str "foo", [1]⟩ true
          (worldBefore sampleTemplate ⟨str "example.com", str "acme", [⟨str "foo", [1]⟩]⟩ true
            [⟨str "foo", [1]⟩] emptyWorld i)).2 = some err ∧
        err ∈ agg.errs :=
  ⟨(parse_failure_reported sampleTemplate ⟨str "example.com", str "acme", [⟨str "foo", [1]⟩]⟩
      true emptyWorld ⟨str "foo", [1]⟩ [1] .invalidControlChar (by decide) (by decide)).2.1
      emptyWorld (Or.inl (by decide)) (fun _ => by decide),
    (parse_failure_reported sampleTemplate ⟨str "example.com", str "acme", [⟨str "foo", [1]⟩]⟩
      true emptyWorld ⟨str "foo", [1]⟩ [1] .invalidControlChar (by decide) (by decide)).2.2⟩

/-! ## C10: the order of the steps -/

set_option maxRecDepth 100000 in
/-- C10 (as stated) fails: in an empty working directory, for the package `foo` whose
reference is the control character 0x01 (which does not parse), `templatePkg` creates the
directory `public/foo` whatever the flag, and with the flag on it also creates
`public/foo/.gitignore`. -/
theorem parse_failure_leaves_fs_counterexample :
    url.Parse [1] = .error ([1], .invalidControlChar) ∧
    emptyWorld.fs.isDir (str "public/foo") = false ∧
    (templatePkg sampleTemplate ⟨str "example.com", str "acme", []⟩ ⟨str "foo", [1]⟩ false
      emptyWorld).1.fs.isDir (str "public/foo") = true ∧
    (templatePkg sampleTemplate ⟨str "example.com", str "acme", []⟩ ⟨str "foo", [1]⟩ true
      emptyWorld).1.fs.isDir (str "public/foo") = true ∧
    emptyWorld.fs.file (str "public/foo/.gitignore") = none ∧
    (templatePkg sampleTemplate ⟨str "example.com", str "acme", []⟩ ⟨str "foo", [1]⟩ true
      emptyWorld).1.fs.file (str "public/foo/.gitignore") = some gitignoreContent := by
  decide

/-- C10 (amended): the directory and the `.gitignore` come before the parse.  For a package
whose reference does not parse, `templatePkg` returns an error, creates or modifies no
regular file other than the package's `.gitignore` (and not even that one with the flag
off), so no `index.html`, and logs nothing; but the package directory is created whenever
`os.MkdirAll` succeeds, and with the flag on the `.gitignore` has been written when the
error returned is the one of the parse, which is the case whenever the directory creation
and the write go through. -/
theorem parse_failure_effects (tpl : Template) (config : Config) (pkg : Package) (gi : Bool)
    (w : World) (u : GoString) (e : url.ParseErr) (hfail : url.Parse pkg.Repo = .error (u, e)) :
    (templatePkg tpl config pkg gi w).2 ≠ none ∧
    (∀ q, q ≠ gitignorePath pkg →
      (templatePkg tpl config pkg gi w).1.fs.file q = w.fs.file q) ∧
    (gi = false → ∀ q, (templatePkg tpl config pkg gi w).1.fs.file q = w.fs.file q) ∧
    (templatePkg tpl config pkg gi w).1.fs.file (indexPath pkg) = w.fs.file (indexPath pkg) ∧
    (templatePkg tpl config pkg gi w).1.log = w.log ∧
    ((os.MkdirAll (pkgDir pkg) w).2 = none →
      (templatePkg tpl config pkg gi w).1.fs.isDir (pkgDir pkg) = true) ∧
    (gi = true → (templatePkg tpl config pkg gi w).2 = some (.urlError (str "parse") u e) →
      (templatePkg tpl config pkg gi w).1.fs.file (gitignorePath pkg) = some gitignoreContent) ∧
    (((os.MkdirAll (pkgDir pkg) w).2 = none ∨
        ∃ err, (os.MkdirAll (pkgDir pkg) w).2 = some err ∧ os.IsExist err = true) →
      (gi = true → (os.WriteFile (gitignorePath pkg) gitignoreContent
        (os.MkdirAll (pkgDir pkg) w).1).2 = none) →
      (templatePkg tpl config pkg gi w).2 = some (.urlError (str "parse") u e)) := by
  have hc : gitignoreContent = str ".gitignore\nindex.html" := by decide
  have hdir : (os.MkdirAll (pkgDir pkg) w).2 = none →
      (worldAfterGitignore pkg gi w).fs.isDir (pkgDir pkg) = true := by
    intro h
    unfold worldAfterGitignore
    cases gi with
    | false => simp only [Bool.false_eq_true, if_false]; exact MkdirAll_ok_isDir _ _ h
    | true => simp only [if_true]; rw [WriteFile_isDir]; exact MkdirAll_ok_isDir _ _ h
  -- the three ways the call can end
  have key : (∃ err, (os.MkdirAll (pkgDir pkg) w).2 = some err ∧ os.IsExist err = false ∧
        (templatePkg tpl config pkg gi w).1 = (os.MkdirAll (pkgDir pkg) w).1 ∧
        (templatePkg tpl config pkg gi w).2 = some err) ∨
      (∃ err, gi = true ∧
        (os.WriteFile (gitignorePath pkg) (str ".gitignore\nindex.html")
          (os.MkdirAll (pkgDir pkg) w).1).2 = some err ∧
        (templatePkg tpl config pkg gi w).1 = worldAfterGitignore pkg gi w ∧
        (templatePkg tpl config pkg gi w).2 = some err) ∨
      ((gi = true → (os.WriteFile (gitignorePath pkg) (str ".gitignore\nindex.html")
          (os.MkdirAll (pkgDir pkg) w).1).2 = none) ∧
        (templatePkg tpl config pkg gi w).1 = worldAfterGitignore pkg gi w ∧
        (templatePkg tpl config pkg gi w).2 = some (.urlError (str "parse") u e)) := by
    rcases templatePkg_parse_fail tpl config pkg gi w u e hfail with
      ⟨err, h0, h1, h⟩ | ⟨err, hg, h0, h⟩ | ⟨hw, _, h⟩
    · exact Or.inl ⟨err, h0, h1, by rw [h], by rw [h]⟩
    · exact Or.inr (Or.inl ⟨err, hg, h0, by rw [h], by rw [h]⟩)
    · exact Or.inr (Or.inr ⟨hw, by rw [h], by rw [h]⟩)
  generalize templatePkg tpl config pkg gi w = res at key ⊢
  have hframe : ∀ q, (gi = true → q ≠ gitignorePath pkg) → res.1.fs.file q = w.fs.file q := by
    intro q hq
    rcases key with ⟨err, _, _, h, _⟩ | ⟨err, _, _, h, _⟩ | ⟨_, h, _⟩
    · rw [h, MkdirAll_file]
    · rw [h]; exact worldAfterGitignore_file_ne pkg gi w q hq
    · rw [h]; exact worldAfterGitignore_file_ne pkg gi w q hq
  refine ⟨?_, ?_, ?_, ?_, ?_, ?_, ?_, ?_⟩
  · rcases key with ⟨err, _, _, _, h⟩ | ⟨err, _, _, _, h⟩ | ⟨_, _, h⟩ <;> rw [h] <;> simp
  · intro q hq
    exact hframe q (fun _ => hq)
  · intro hgi q
    exact hframe q (fun h => by rw [hgi] at h; exact absurd h (by simp))
  · exact hframe _ (fun _ => (indexPath_ne_gitignorePath pkg).symm)
  · rcases key with ⟨err, _, _, h, _⟩ | ⟨err, _, _, h, _⟩ | ⟨_, h, _⟩
    · rw [h, MkdirAll_log]
    · rw [h, worldAfterGitignore_log]
    · rw [h, worldAfterGitignore_log]
  · intro hm
    rcases key with ⟨err, h0, _, _, _⟩ | ⟨err, _, _, h, _⟩ | ⟨_, h, _⟩
    · rw [hm] at h0; exact absurd h0 (by simp)
    · rw [h]; exact hdir hm
    · rw [h]; exact hdir hm
  · intro hgi hres
    rcases key with ⟨err, h0, _, _, h⟩ | ⟨err, _, h0, _, h⟩ | ⟨hw, h, _⟩
    · rw [h] at hres
      obtain ⟨q, en, hq⟩ := MkdirAll_err _ _ _ h0
      rw [hq] at hres
      exact absurd hres (by simp)
    · rw [h] at hres
      obtain ⟨op, en, hq⟩ := WriteFile_err _ _ _ _ h0
      rw [hq] at hres
      exact absurd hres (by simp)
    · rw [h]
      unfold worldAfterGitignore
      rw [if_pos hgi, WriteFile_ok _ _ _ (hw hgi), hc]
  · intro hm hw
    rcases key with ⟨err, h0, h1, _, h⟩ | ⟨err, hg, h0, _, h⟩ | ⟨_, _, h⟩
    · rcases hm with hm | ⟨err2, hm, hex⟩
      · rw [hm] at h0; exact absurd h0 (by simp)
      · rw [hm] at h0
        rw [Option.some.inj h0] at hex
        rw [hex] at h1
        exact absurd h1 (by simp)
    · have := hw hg
      rw [hc, h0] at this
      exact absurd this (by simp)
    · exact h

set_option maxRecDepth 100000 in
theorem parse_failure_effects_witness :
    (templatePkg sampleTemplate ⟨str "example.com", str "acme", []⟩ ⟨str "foo", [1]⟩ true
      emptyWorld).2 = some (.urlError (str "parse") [1] .invalidControlChar) ∧
    (templatePkg sampleTemplate ⟨str "example.com", str "acme", []⟩ ⟨str "foo", [1]⟩ true
      emptyWorld).1.fs.file (gitignorePath ⟨str "foo", [1]⟩) = some gitignoreContent ∧
    (templatePkg sampleTemplate ⟨str "example.com", str "acme", []⟩ ⟨str "foo", [1]⟩ true
      emptyWorld).1.fs.file (indexPath ⟨str "foo", [1]⟩)
      = emptyWorld.fs.file (indexPath ⟨str "foo", [1]⟩) :=
  ⟨(parse_failure_effects sampleTemplate ⟨str "example.com", str "acme", []⟩ ⟨str "foo", [1]⟩
      true emptyWorld [1] .invalidControlChar (by decide)).2.2.2.2.2.2.2
      (Or.inl (by decide)) (fun _ => by decide),
    (parse_failure_effects sampleTemplate ⟨str "example.com", str "acme", []⟩ ⟨str "foo", [1]⟩
      true emptyWorld [1] .invalidControlChar (by decide)).2.2.2.2.2.2.1 rfl (by decide),
    (parse_failure_effects sampleTemplate ⟨str "example.com", str "acme", []⟩ ⟨str "foo", [1]⟩
      true emptyWorld [1] .invalidControlChar (by decide)).2.2.2.1⟩

/-! ## Lemmas on `strings` with a one-byte separator -/

theorem isPrefixOf_singleton (c : Byte) (s : GoString) :
    List.isPrefixOf [c] s = decide (s.head? = some c) := by
  cases s with
  | nil => rfl
  | cons d s =>
    simp only [List.isPrefixOf, List.head?_cons, Option.some.injEq, Bool.and_true]
    by_cases h : c = d
    · subst h; simp
    · have h2 : ¬ d = c := fun e => h e.symm
      simp [h, h2]

theorem Index_byte_none (s : GoString) (c : Byte) (h : c ∉ s) : strings.Index s [c] = none := by
  induction s with
  | nil => simp [strings.Index]
  | cons d s ih =>
    simp only [List.mem_cons, not_or] at h
    rw [strings.Index, isPrefixOf_singleton]
    have hdc : ¬ d = c := fun e => h.1 e.symm
    simp [hdc, ih h.2]

theorem Index_byte_append (a b : GoString) (c : Byte) (h : c ∉ a) :
    strings.Index (a ++ c :: b) [c] = some a.length := by
  induction a with
  | nil => simp [strings.Index, isPrefixOf_singleton]
  | cons d a ih =>
    simp only [List.mem_cons, not_or] at h
    rw [List.cons_append, strings.Index, isPrefixOf_singleton]
    have hdc : ¬ d = c := fun e => h.1 e.symm
    simp [hdc, ih h.2]

theorem Cut_byte_none (s : GoString) (c : Byte) (h : c ∉ s) :
    strings.Cut s [c] = (s, [], false) := by
  simp [strings.Cut, Index_byte_none s c h]

theorem Cut_byte_append (a b : GoString) (c : Byte) (h : c ∉ a) :
    strings.Cut (a ++ c :: b) [c] = (a, b, true) := by
  simp [strings.Cut, Index_byte_append a b c h]

theorem Contains_byte (s : GoString) (c : Byte) :
    strings.Contains s [c] = decide (c ∈ s) := by
  by_cases h : c ∈ s
  · obtain ⟨a, b, rfl, ha⟩ := List.eq_append_cons_of_mem h
    simp [strings.Contains, Index_byte_append a b c ha]
  · simp [strings.Contains, Index_byte_none s c h, h]

theorem LastIndex_byte_none (s : GoString) (c : Byte) (h : c ∉ s) :
    strings.LastIndex s [c] = none := by
  induction s with
  | nil => simp [strings.LastIndex]
  | cons d s ih =>
    simp only [List.mem_cons, not_or] at h
    rw [strings.LastIndex, ih h.2, isPrefixOf_singleton]
    have hdc : ¬ d = c := fun e => h.1 e.symm
    simp [hdc]

theorem LastIndex_byte_append (a b : GoString) (c : Byte) (h : c ∉ b) :
    strings.LastIndex (a ++ c :: b) [c] = some a.length := by
  induction a with
  | nil =>
    rw [List.nil_append, strings.LastIndex, LastIndex_byte_none b c h, isPrefixOf_singleton]
    simp
  | cons d a ih =>
    rw [List.cons_append, strings.LastIndex, ih]
    simp

theorem HasPrefix_byte (s : GoString) (c : Byte) :
    strings.HasPrefix s [c] = decide (s.head? = some c) := by
  unfold strings.HasPrefix
  exact isPrefixOf_singleton c s

theorem HasSuffix_byte_mem (s : GoString) (c : Byte) (h : strings.HasSuffix s [c] = true) :
    c ∈ s := by
  unfold strings.HasSuffix at h
  rw [List.isSuffixOf_iff_suffix] at h
  obtain ⟨t, rfl⟩ := h
  simp

/-! ## Lemmas on `escape` and `unescape` -/

theorem escapeByte_of_not_shouldEscape (m : url.encoding) (c : Byte)
    (h : url.shouldEscape c m = false) : url.escapeByte m c = [c] := by
  have h2 : ¬ (c = ch ' ' ∧ m = .encodeQueryComponent) := by
    rintro ⟨rfl, rfl⟩
    revert h
    decide
  simp [url.escapeByte, h, h2]

theorem escape_eq_flatten (s : GoString) (m : url.encoding) :
    url.escape s m = (s.map (url.escapeByte m)).flatten := by
  unfold url.escape
  simp only
  split
  · rename_i h
    obtain ⟨h1, h2⟩ := h
    have hall : ∀ c ∈ s, url.shouldEscape c m = false := by
      intro c hc
      by_contra hne
      have hs : url.shouldEscape c m = true := by simpa using hne
      by_cases hq : c = ch ' ' ∧ m = .encodeQueryComponent
      · have := List.length_pos_of_mem (List.mem_filter.mpr ⟨hc, by
            obtain ⟨rfl, rfl⟩ := hq
            decide⟩ :
          c ∈ s.filter (fun c => url.shouldEscape c m &&
            decide (c = ch ' ' ∧ m = .encodeQueryComponent)))
        omega
      · have := List.length_pos_of_mem (List.mem_filter.mpr ⟨hc, by simp [hs, hq]⟩ :
          c ∈ s.filter (fun c => url.shouldEscape c m &&
            !decide (c = ch ' ' ∧ m = .encodeQueryComponent)))
        omega
    clear h1 h2
    induction s with
    | nil => rfl
    | cons c s ih =>
      rw [List.map_cons, List.flatten_cons,
        escapeByte_of_not_shouldEscape m c (hall c (List.mem_cons_self _ _)),
        ← ih (fun d hd => hall d (List.mem_cons_of_mem _ hd))]
      rfl
  · rfl

theorem escape_nil (m : url.encoding) : url.escape [] m = [] := by
  rw [escape_eq_flatten]; rfl

theorem escape_append (a b : GoString) (m : url.encoding) :
    url.escape (a ++ b) m = url.escape a m ++ url.escape b m := by
  simp [escape_eq_flatten]

theorem escape_cons (c : Byte) (s : GoString) (m : url.encoding) :
    url.escape (c :: s) m = url.escapeByte m c ++ url.escape s m := by
  simp [escape_eq_flatten]

theorem escape_id (s : GoString) (m : url.encoding)
    (h : ∀ c ∈ s, url.shouldEscape c m = false) : url.escape s m = s := by
  induction s with
  | nil => exact escape_nil m
  | cons c s ih =>
    rw [escape_cons, escapeByte_of_not_shouldEscape m c (h c (List.mem_cons_self _ _)),
      ih (fun d hd => h d (List.mem_cons_of_mem _ hd))]
    rfl

/-! ## `unescape` as a decoding relation -/

theorem unescapeScan_cons_raw (m : url.encoding) (c : Byte) (x : GoString) (n : Nat)
    (hp : Bool) (h : url.rawOK m c) :
    url.unescapeScan m (c :: x) n hp =
      url.unescapeScan m x n (if c = ch '+' then decide (m = .encodeQueryComponent) else hp) := by
  obtain ⟨h1, h2⟩ := h
  conv_lhs => rw [url.unescapeScan.eq_def]
  simp only [h1, if_false]
  by_cases hplus : c = ch '+'
  · simp [hplus]
  · simp only [hplus, if_false]
    rw [if_neg h2]

theorem unescapeScan_cons_esc (m : url.encoding) (a b : Byte) (x : GoString) (n : Nat)
    (hp : Bool) (h : url.escOK m a b) :
    url.unescapeScan m (ch '%' :: a :: b :: x) n hp = url.unescapeScan m x (n + 1) hp := by
  obtain ⟨h1, h2, h3, h4⟩ := h
  conv_lhs => rw [url.unescapeScan.eq_def]
  simp only [if_true, h1, h2, Bool.not_true, Bool.or_self, Bool.false_eq_true, if_false]
  rw [if_neg h3, if_neg h4]

theorem unescapeBuild_cons_raw (m : url.encoding) (c : Byte) (x : GoString)
    (hm : m ≠ .encodeQueryComponent) (h : c ≠ ch '%') :
    url.unescapeBuild m (c :: x) = c :: url.unescapeBuild m x := by
  conv_lhs => rw [url.unescapeBuild.eq_def]
  simp only [h, if_false]
  by_cases hplus : c = ch '+'
  · simp [hplus, hm]
  · simp [hplus]

theorem unescapeBuild_cons_esc (m : url.encoding) (a b : Byte) (x : GoString) :
    url.unescapeBuild m (ch '%' :: a :: b :: x) = url.unhex2 a b :: url.unescapeBuild m x := by
  conv_lhs => rw [url.unescapeBuild.eq_def]
  simp

/-- A successful scan: the text decodes to what the second pass builds, the flag stays
false, and the count of escapes grows only if there is a `%`. -/
theorem unescapeScan_ok (m : url.encoding) (hm : m ≠ .encodeQueryComponent) :
    ∀ (k : Nat) (x : GoString) (n : Nat) (r : Nat × Bool), x.length ≤ k →
      url.unescapeScan m x n false = .ok r →
      url.Decodes m x (url.unescapeBuild m x) ∧ r.2 = false ∧ n ≤ r.1 ∧
        (r.1 = n → url.unescapeBuild m x = x) := by
  intro k
  induction k with
  | zero =>
    intro x n r hk h
    have hx : x = [] := List.length_eq_zero.mp (Nat.le_zero.mp hk)
    subst hx
    simp only [url.unescapeScan, Except.ok.injEq] at h
    subst h
    exact ⟨.nil, rfl, Nat.le_refl _, fun _ => rfl⟩
  | succ k ih =>
    intro x n r hk h
    cases x with
    | nil =>
      simp only [url.unescapeScan, Except.ok.injEq] at h
      subst h
      exact ⟨.nil, rfl, Nat.le_refl _, fun _ => rfl⟩
    | cons c x =>
      by_cases hc : c = ch '%'
      · subst hc
        rw [url.unescapeScan.eq_def] at h
        simp only [if_true] at h
        cases x with
        | nil => simp at h
        | cons a x =>
          cases x with
          | nil => simp at h
          | cons b x =>
            simp only at h
            split at h
            · exact absurd h (by simp)
            · rename_i h1
              split at h
              · exact absurd h (by simp)
              · rename_i h2
                split at h
                · exact absurd h (by simp)
                · rename_i h3
                  have hesc : url.escOK m a b := by
                    have h1' : url.ishex a = true ∧ url.ishex b = true := by
                      cases ha : url.ishex a <;> cases hb : url.ishex b <;> simp [ha, hb] at h1 ⊢
                    exact ⟨h1'.1, h1'.2, h2, h3⟩
                  obtain ⟨d, hf, hn, _⟩ := ih x (n + 1) r (by simp at hk; omega) h
                  rw [unescapeBuild_cons_esc]
                  refine ⟨.esc a b x _ hesc d, hf, by omega, ?_⟩
                  intro he; omega
      · by_cases hraw : url.rawOK m c
        · rw [unescapeScan_cons_raw m c x n false hraw] at h
          have hflag : (if c = ch '+' then decide (m = .encodeQueryComponent) else false)
              = false := by
            split <;> simp [hm]
          rw [hflag] at h
          obtain ⟨d, hf, hn, he⟩ := ih x n r (by simp at hk; omega) h
          rw [unescapeBuild_cons_raw m c x hm hc]
          exact ⟨.raw c x _ hraw d, hf, hn, fun e => by rw [he e]⟩
        · exfalso
          rw [url.unescapeScan.eq_def] at h
          simp only [hc, if_false] at h
          have hnp : c ≠ ch '+' := by
            intro hp
            apply hraw
            refine ⟨hc, ?_⟩
            rw [hp]
            intro hcontra
            exact absurd hcontra.2.2 (by decide)
          simp only [hnp, if_false] at h
          have : (m = .encodeHost ∨ m = .encodeZone) ∧ c < 0x80 ∧
              url.shouldEscape c .encodeHost = true := by
            by_contra hcon
            exact hraw ⟨hc, hcon⟩
          rw [if_pos this] at h
          exact absurd h (by simp)

theorem Decodes_scan (m : url.encoding) (hm : m ≠ .encodeQueryComponent) (x h : GoString)
    (d : url.Decodes m x h) :
    url.unescapeBuild m x = h ∧ ∀ n, ∃ r, url.unescapeScan m x n false = .ok r := by
  induction d with
  | nil => exact ⟨rfl, fun n => ⟨_, rfl⟩⟩
  | raw c x h hc _ ih =>
    refine ⟨by rw [unescapeBuild_cons_raw m c x hm hc.1, ih.1], fun n => ?_⟩
    rw [unescapeScan_cons_raw m c x n false hc]
    have hflag : (if c = ch '+' then decide (m = .encodeQueryComponent) else false)
        = false := by
      split <;> simp [hm]
    rw [hflag]
    exact ih.2 n
  | esc a b x h hab _ ih =>
    refine ⟨by rw [unescapeBuild_cons_esc, ih.1], fun n => ?_⟩
    rw [unescapeScan_cons_esc m a b x n false hab]
    exact ih.2 (n + 1)

/-- Outside query components, `unescape` succeeds with `h` exactly on the texts that decode
to `h`. -/
theorem unescape_iff (m : url.encoding) (hm : m ≠ .encodeQueryComponent) (x h : GoString) :
    url.unescape x m = .ok h ↔ url.Decodes m x h := by
  constructor
  · intro hu
    unfold url.unescape at hu
    cases hs : url.unescapeScan m x 0 false with
    | error e => rw [hs] at hu; exact absurd hu (by simp)
    | ok r =>
      rw [hs] at hu
      obtain ⟨d, hf, _, he⟩ := unescapeScan_ok m hm x.length x 0 r (Nat.le_refl _) hs
      obtain ⟨n, hp⟩ := r
      simp only at hu hf he
      subst hf
      split at hu
      · rename_i h0
        rw [he h0.1] at d
        rw [← Except.ok.inj hu]
        exact d
      · rw [← Except.ok.inj hu]
        exact d
  · intro d
    obtain ⟨hb, hsc⟩ := Decodes_scan m hm x h d
    obtain ⟨r, hr⟩ := hsc 0
    obtain ⟨_, hf, _, he⟩ := unescapeScan_ok m hm x.length x 0 r (Nat.le_refl _) hr
    unfold url.unescape
    rw [hr]
    obtain ⟨n, hp⟩ := r
    simp only at hf he ⊢
    subst hf
    split
    · rename_i h0
      rw [← hb, he h0.1]
    · rw [hb]

/-! ## `escape` followed by `unescape` -/

set_option maxRecDepth 100000 in
theorem upperhex_roundtrip : ∀ c : Byte,
    url.unhex2 (url.upperhex (c.val / 16)) (url.upperhex (c.val % 16)) = c := by
  decide

set_option maxRecDepth 100000 in
theorem escByteOK_path : ∀ c : Byte, url.escByteOK .encodePath c := by
  decide

set_option maxRecDepth 100000 in
theorem escByteOK_fragment : ∀ c : Byte, url.escByteOK .encodeFragment c := by
  decide

set_option maxRecDepth 100000 in
theorem escByteOK_userPassword : ∀ c : Byte, url.escByteOK .encodeUserPassword c := by
  decide

set_option maxRecDepth 100000 in
theorem escByteOK_host_of : ∀ c : Byte, (c = ch '%' ∨ (128 : Byte) ≤ c ∨ url.rawOK .encodeHost c) →
    url.escByteOK .encodeHost c := by
  decide

theorem escapeByte_of_shouldEscape (m : url.encoding) (hm : m ≠ .encodeQueryComponent)
    (c : Byte) (h : url.shouldEscape c m = true) :
    url.escapeByte m c = [ch '%', url.upperhex (c.val / 16), url.upperhex (c.val % 16)] := by
  simp [url.escapeByte, h, hm]

theorem Decodes_escape (m : url.encoding) (hm : m ≠ .encodeQueryComponent) (h : GoString)
    (hb : ∀ c ∈ h, url.escByteOK m c) : url.Decodes m (url.escape h m) h := by
  induction h with
  | nil => rw [escape_nil]; exact .nil
  | cons c h ih =>
    have ih2 := ih (fun d hd => hb d (List.mem_cons_of_mem _ hd))
    have hc := hb c (List.mem_cons_self _ _)
    rw [escape_cons]
    cases hs : url.shouldEscape c m with
    | false =>
      rw [escapeByte_of_not_shouldEscape m c hs]
      exact .raw c _ _ (hc.1 hs) ih2
    | true =>
      rw [escapeByte_of_shouldEscape m hm c hs]
      have := url.Decodes.esc _ _ _ _ (hc.2 hs) ih2
      rw [upperhex_roundtrip] at this
      exact this

theorem unescape_escape_path (h : GoString) :
    url.unescape (url.escape h .encodePath) .encodePath = .ok h :=
  (unescape_iff _ (by decide) _ _).mpr
    (Decodes_escape _ (by decide) h (fun c _ => escByteOK_path c))

theorem unescape_escape_fragment (h : GoString) :
    url.unescape (url.escape h .encodeFragment) .encodeFragment = .ok h :=
  (unescape_iff _ (by decide) _ _).mpr
    (Decodes_escape _ (by decide) h (fun c _ => escByteOK_fragment c))

theorem unescape_escape_userPassword (h : GoString) :
    url.unescape (url.escape h .encodeUserPassword) .encodeUserPassword = .ok h :=
  (unescape_iff _ (by decide) _ _).mpr
    (Decodes_escape _ (by decide) h (fun c _ => escByteOK_userPassword c))

set_option maxRecDepth 100000 in
theorem unhex_lt : ∀ a : Byte, url.ishex a = true → (url.unhex a).val < 16 := by
  decide

theorem nibbles_high : ∀ p q : Fin 16, 8 ≤ p.val →
    (128 : Byte) ≤ Fin.ofNat (p.val * 16 % 256 ||| q.val) := by
  decide

theorem escOK_host_value (a b : Byte) (h : url.escOK .encodeHost a b) :
    url.unhex2 a b = ch '%' ∨ (128 : Byte) ≤ url.unhex2 a b := by
  obtain ⟨ha, hb, h3, _⟩ := h
  by_cases ht : [ch '%', a, b] = str "%25"
  · left
    have : a = ch '2' ∧ b = ch '5' := by
      have h1 : str "%25" = [ch '%', ch '2', ch '5'] := by decide
      rw [h1] at ht
      simpa using ht
    rw [this.1, this.2]
    decide
  · right
    have h8 : ¬ url.unhex a < 8 := fun h => h3 ⟨rfl, h, ht⟩
    have h8' : 8 ≤ (url.unhex a).val := by
      have : ¬ (url.unhex a).val < (8 : Byte).val := fun h => h8 h
      simpa using this
    have := nibbles_high ⟨(url.unhex a).val, unhex_lt a ha⟩ ⟨(url.unhex b).val, unhex_lt b hb⟩ h8'
    exact this

theorem Decodes_host_bytes (x h : GoString) (d : url.Decodes .encodeHost x h) :
    ∀ c ∈ h, url.escByteOK .encodeHost c := by
  induction d with
  | nil => intro c hc; simp at hc
  | raw c x h hc _ ih =>
    intro d hd
    rcases List.mem_cons.mp hd with rfl | hd
    · exact escByteOK_host_of _ (Or.inr (Or.inr hc))
    · exact ih d hd
  | esc a b x h hab _ ih =>
    intro d hd
    rcases List.mem_cons.mp hd with rfl | hd
    · rcases escOK_host_value a b hab with hv | hv
      · exact escByteOK_host_of _ (Or.inl hv)
      · exact escByteOK_host_of _ (Or.inr (Or.inl hv))
    · exact ih d hd

/-! ## The escaped path and fragment, and parsing them back -/

theorem escape_bytes (m : url.encoding) (P : Byte → Prop)
    (hP : ∀ c : Byte, ∀ d ∈ url.escapeByte m c, P d) (h : GoString) :
    ∀ d ∈ url.escape h m, P d := by
  intro d hd
  rw [escape_eq_flatten] at hd
  simp only [List.mem_flatten, List.mem_map] at hd
  obtain ⟨l, ⟨c, _, rfl⟩, hdl⟩ := hd
  exact hP c d hdl

theorem Decodes_nil_left (m : url.encoding) (h : GoString) (d : url.Decodes m [] h) : h = [] := by
  cases d; rfl

theorem Decodes_nil_right (m : url.encoding) (x : GoString) (d : url.Decodes m x []) :
    x = [] := by
  cases d; rfl

theorem EscapedPath_spec (u : url.URL) :
    url.Decodes .encodePath (url.EscapedPath u) u.Path ∧
    (url.validEncoded (url.EscapedPath u) .encodePath = true ∨
      url.EscapedPath u = url.escape u.Path .encodePath) := by
  unfold url.EscapedPath
  split
  · rename_i h
    exact ⟨(unescape_iff _ (by decide) _ _).mp h.2.2, Or.inl h.2.1⟩
  · split
    · rename_i h
      rw [h]
      exact ⟨by
        have : str "*" = [ch '*'] := by decide
        rw [this]
        exact .raw _ _ _ (by decide) .nil, Or.inl (by decide)⟩
    · exact ⟨Decodes_escape _ (by decide) _ (fun c _ => escByteOK_path c), Or.inr rfl⟩

theorem EscapedFragment_spec (u : url.URL) :
    url.Decodes .encodeFragment (url.EscapedFragment u) u.Fragment ∧
    (url.validEncoded (url.EscapedFragment u) .encodeFragment = true ∨
      url.EscapedFragment u = url.escape u.Fragment .encodeFragment) := by
  unfold url.EscapedFragment
  split
  · rename_i h
    exact ⟨(unescape_iff _ (by decide) _ _).mp h.2.2, Or.inl h.2.1⟩
  · exact ⟨Decodes_escape _ (by decide) _ (fun c _ => escByteOK_fragment c), Or.inr rfl⟩

/-- Setting a path from a text `p` that decodes to `P`, and that is a valid encoding or the
default one: the escaped path of the result is `p` again. -/
theorem setPath_roundtrip (u0 : url.URL) (p P : GoString)
    (hd : url.Decodes .encodePath p P)
    (hv : url.validEncoded p .encodePath = true ∨ p = url.escape P .encodePath)
    (hstar : P ≠ str "*") :
    ∃ u1, url.setPath u0 p = .ok u1 ∧ u1.Path = P ∧ url.EscapedPath u1 = p ∧
      u1 = { u0 with Path := P, RawPath := u1.RawPath } := by
  have hu : url.unescape p .encodePath = .ok P := (unescape_iff _ (by decide) _ _).mpr hd
  unfold url.setPath
  rw [hu]
  simp only
  by_cases he : p = url.escape P .encodePath
  · rw [if_pos he]
    refine ⟨_, rfl, rfl, ?_, rfl⟩
    unfold url.EscapedPath
    simp only [ne_eq, not_true_eq_false, false_and, if_false, hstar, he]
  · rw [if_neg he]
    refine ⟨_, rfl, rfl, ?_, rfl⟩
    have hpne : p ≠ [] := by
      intro h0
      subst h0
      have := Decodes_nil_left _ _ hd
      subst this
      exact he (escape_nil _).symm
    have hval : url.validEncoded p .encodePath = true := by
      rcases hv with h | h
      · exact h
      · exact absurd h he
    unfold url.EscapedPath
    simp only [ne_eq, hpne, not_false_eq_true, hval, hu, and_self, if_true]

theorem setFragment_roundtrip (u0 : url.URL) (f F : GoString)
    (hd : url.Decodes .encodeFragment f F)
    (hv : url.validEncoded f .encodeFragment = true ∨ f = url.escape F .encodeFragment) :
    ∃ u1, url.setFragment u0 f = .ok u1 ∧ u1.Fragment = F ∧ url.EscapedFragment u1 = f ∧
      u1 = { u0 with Fragment := F, RawFragment := u1.RawFragment } := by
  have hu : url.unescape f .encodeFragment = .ok F := (unescape_iff _ (by decide) _ _).mpr hd
  unfold url.setFragment
  rw [hu]
  simp only
  by_cases he : f = url.escape F .encodeFragment
  · rw [if_pos he]
    refine ⟨_, rfl, rfl, ?_, rfl⟩
    unfold url.EscapedFragment
    simp only [ne_eq, not_true_eq_false, false_and, if_false, he]
  · rw [if_neg he]
    refine ⟨_, rfl, rfl, ?_, rfl⟩
    have hpne : f ≠ [] := by
      intro h0
      subst h0
      have := Decodes_nil_left _ _ hd
      subst this
      exact he (escape_nil _).symm
    have hval : url.validEncoded f .encodeFragment = true := by
      rcases hv with h | h
      · exact h
      · exact absurd h he
    unfold url.EscapedFragment
    simp only [ne_eq, hpne, not_false_eq_true, hval, hu, and_self, if_true]

/-! ## Schemes -/

theorem isScheme_append (pre : GoString) (c : Byte) (hpre : url.isScheme pre = true)
    (hc : url.isSchemeByte c = true) : url.isScheme (pre ++ [c]) = true := by
  cases pre with
  | nil => simp [url.isScheme] at hpre
  | cons d pre =>
    simp only [url.isScheme, Bool.and_eq_true, List.cons_append, List.all_append,
      List.all_cons, List.all_nil, Bool.and_true] at hpre ⊢
    exact ⟨hpre.1, hpre.2, hc⟩

theorem getSchemeLoop_spec (raw : GoString) :
    ∀ (suf pre : GoString) (i : Nat) (sch rest : GoString), raw = pre ++ suf → pre.length = i →
      (pre = [] ∨ url.isScheme pre = true) →
      url.getSchemeLoop raw i suf = .ok (sch, rest) →
      (sch = [] ∧ rest = raw) ∨
        (url.isScheme sch = true ∧ ∃ t, raw = sch ++ ch ':' :: t ∧ rest = t) := by
  intro suf
  induction suf with
  | nil =>
    intro pre i sch rest _ _ _ h
    simp only [url.getSchemeLoop, Except.ok.injEq, Prod.mk.injEq] at h
    exact Or.inl ⟨h.1.symm, h.2.symm⟩
  | cons c suf ih =>
    intro pre i sch rest hraw hlen hpre h
    have hraw2 : raw = (pre ++ [c]) ++ suf := by simp [hraw]
    have hlen2 : (pre ++ [c]).length = i + 1 := by simp [hlen]
    rw [url.getSchemeLoop.eq_def] at h
    simp only at h
    split at h
    · rename_i halpha
      refine ih (pre ++ [c]) (i + 1) sch rest hraw2 hlen2 (Or.inr ?_) h
      rcases hpre with rfl | hp
      · simp only [List.nil_append, url.isScheme, List.all_nil, Bool.and_true]
        simpa using halpha
      · exact isScheme_append pre c hp (by
          simp only [url.isSchemeByte]
          rcases halpha with h1 | h1 <;> simp [h1])
    · rename_i halpha
      split at h
      · rename_i hdig
        split at h
        · simp only [Except.ok.injEq, Prod.mk.injEq] at h
          exact Or.inl ⟨h.1.symm, h.2.symm⟩
        · rename_i hi
          refine ih (pre ++ [c]) (i + 1) sch rest hraw2 hlen2 (Or.inr ?_) h
          rcases hpre with rfl | hp
          · exact absurd hlen.symm hi
          · exact isScheme_append pre c hp (by
              simp only [url.isSchemeByte]
              rcases hdig with h1 | h1 | h1 | h1 <;> simp [h1])
      · split at h
        · rename_i hcolon
          split at h
          · exact absurd h (by simp)
          · rename_i hi
            simp only [Except.ok.injEq, Prod.mk.injEq] at h
            right
            rcases hpre with rfl | hp
            · exact absurd hlen.symm hi
            · have h1 : raw.take i = pre := by
                rw [hraw, ← hlen]; simp
              have h2 : raw.drop (i + 1) = suf := by
                rw [hraw, ← hlen]; simp
              rw [← h.1, ← h.2, h1, h2]
              exact ⟨hp, suf, by rw [hraw, hcolon], rfl⟩
        · simp only [Except.ok.injEq, Prod.mk.injEq] at h
          exact Or.inl ⟨h.1.symm, h.2.symm⟩

theorem getScheme_spec (raw sch rest : GoString) (h : url.getScheme raw = .ok (sch, rest)) :
    (sch = [] ∧ rest = raw) ∨
      (url.isScheme sch = true ∧ raw = sch ++ ch ':' :: rest) := by
  rcases getSchemeLoop_spec raw raw [] 0 sch rest rfl rfl (Or.inl rfl) h with h1 | ⟨h1, t, h2, h3⟩
  · exact Or.inl h1
  · exact Or.inr ⟨h1, by rw [h3]; exact h2⟩

set_option maxRecDepth 100000 in
theorem schemeByte_lower : ∀ c : Byte,
    (((ch 'a' ≤ c ∧ c ≤ ch 'z') ∨ (ch 'A' ≤ c ∧ c ≤ ch 'Z')) →
      let d := if ch 'A' ≤ c ∧ c ≤ ch 'Z' then c + 32 else c
      ((ch 'a' ≤ d ∧ d ≤ ch 'z') ∨ (ch 'A' ≤ d ∧ d ≤ ch 'Z'))) ∧
    (url.isSchemeByte c = true →
      let d := if ch 'A' ≤ c ∧ c ≤ ch 'Z' then c + 32 else c
      url.isSchemeByte d = true ∧ ¬ (ch 'A' ≤ d ∧ d ≤ ch 'Z')) := by
  decide

theorem validScheme_ToLower (s : GoString) (h : url.isScheme s = true) :
    url.validScheme (strings.ToLower s) = true := by
  cases s with
  | nil => simp [url.isScheme] at h
  | cons c s =>
    simp only [url.isScheme, Bool.and_eq_true, decide_eq_true_eq, List.all_eq_true] at h
    have hc : url.isSchemeByte c = true := by
      simp only [url.isSchemeByte]
      rcases h.1 with h1 | h1 <;> simp [h1]
    simp only [url.validScheme, strings.ToLower, List.map_cons, url.isScheme, Bool.and_eq_true,
      decide_eq_true_eq, List.all_eq_true, List.mem_map, forall_exists_index, and_imp,
      forall_apply_eq_imp_iff₂, List.all_cons, Bool.not_eq_true', decide_eq_false_iff_not,
      List.mem_cons, forall_eq_or_imp]
    refine ⟨⟨(schemeByte_lower c).1 h.1, fun d hd => ((schemeByte_lower d).2 (h.2 d hd)).1⟩,
      ((schemeByte_lower c).2 hc).2, fun d hd => ?_⟩
    have := ((schemeByte_lower d).2 (h.2 d hd)).2
    simpa using this

theorem getSchemeLoop_valid (raw t : GoString) :
    ∀ (s2 pre : GoString), url.isScheme (pre ++ s2) = true →
      (∀ c ∈ s2, url.isSchemeByte c = true) → raw = pre ++ s2 ++ ch ':' :: t →
      url.getSchemeLoop raw pre.length (s2 ++ ch ':' :: t) = .ok (pre ++ s2, t) := by
  intro s2
  induction s2 with
  | nil =>
    intro pre hs _ hraw
    simp only [List.append_nil] at hs hraw ⊢
    have hne : pre.length ≠ 0 := by
      cases pre with
      | nil => simp [url.isScheme] at hs
      | cons d pre => simp
    rw [List.nil_append, url.getSchemeLoop.eq_def]
    simp only
    rw [if_neg (by decide), if_neg (by decide), if_pos trivial, if_neg hne, hraw]
    simp
  | cons c s2 ih =>
    intro pre hs hall hraw
    have hs2 : url.isScheme ((pre ++ [c]) ++ s2) = true := by simpa using hs
    have hraw2 : raw = (pre ++ [c]) ++ s2 ++ ch ':' :: t := by simpa using hraw
    have key := ih (pre ++ [c]) hs2 (fun d hd => hall d (List.mem_cons_of_mem _ hd)) hraw2
    simp only [List.length_append, List.length_singleton, List.append_assoc,
      List.singleton_append] at key
    rw [List.cons_append, url.getSchemeLoop.eq_def]
    simp only
    split
    · exact key
    · rename_i halpha
      have hcb := hall c (List.mem_cons_self _ _)
      have hdig : (ch '0' ≤ c ∧ c ≤ ch '9') ∨ c = ch '+' ∨ c = ch '-' ∨ c = ch '.' := by
        simp only [url.isSchemeByte, Bool.decide_or, Bool.decide_and, Bool.or_eq_true,
          Bool.and_eq_true, decide_eq_true_eq] at hcb
        rcases hcb with h | h | h
        · exact absurd (Or.inl h) halpha
        · exact absurd (Or.inr h) halpha
        · exact h
      rw [if_pos hdig]
      have hne : pre.length ≠ 0 := by
        cases pre with
        | nil =>
          simp only [List.nil_append, url.isScheme, Bool.and_eq_true, decide_eq_true_eq] at hs
          exact absurd hs.1 halpha
        | cons d pre => simp
      rw [if_neg hne]
      exact key

theorem getScheme_valid (S t : GoString) (h : url.validScheme S = true) :
    url.getScheme (S ++ ch ':' :: t) = .ok (S, t) := by
  simp only [url.validScheme, Bool.and_eq_true] at h
  have hall : ∀ c ∈ S, url.isSchemeByte c = true := by
    cases S with
    | nil => simp
    | cons c S =>
      have h1 := h.1
      simp only [url.isScheme, Bool.and_eq_true, decide_eq_true_eq, List.all_eq_true] at h1
      intro d hd
      rcases List.mem_cons.mp hd with rfl | hd
      · simp only [url.isSchemeByte]
        rcases h1.1 with h2 | h2 <;> simp [h2]
      · exact h1.2 d hd
  have := getSchemeLoop_valid (S ++ ch ':' :: t) t S [] (by simpa using h.1) hall (by simp)
  simpa [url.getScheme] using this

theorem ToLower_valid (S : GoString) (h : url.validScheme S = true) : strings.ToLower S = S := by
  simp only [url.validScheme, Bool.and_eq_true, List.all_eq_true, Bool.not_eq_true',
    decide_eq_false_iff_not] at h
  unfold strings.ToLower
  have : ∀ l : GoString, (∀ c ∈ l, ¬ (ch 'A' ≤ c ∧ c ≤ ch 'Z')) →
      l.map (fun c => if ch 'A' ≤ c ∧ c ≤ ch 'Z' then c + 32 else c) = l := by
    intro l hl
    induction l with
    | nil => rfl
    | cons c l ih =>
      rw [List.map_cons, if_neg (hl c (List.mem_cons_self _ _)),
        ih (fun d hd => hl d (List.mem_cons_of_mem _ hd))]
  exact this S h.2

/-! ## Lemmas on `strings.Cut` -/

theorem Cut_byte_spec (s : GoString) (c : Byte) :
    (c ∉ s ∧ strings.Cut s [c] = (s, [], false)) ∨
      (∃ a b, s = a ++ c :: b ∧ c ∉ a ∧ strings.Cut s [c] = (a, b, true)) := by
  by_cases h : c ∈ s
  · obtain ⟨a, b, rfl, ha⟩ := List.eq_append_cons_of_mem h
    exact Or.inr ⟨a, b, rfl, ha, Cut_byte_append a b c ha⟩
  · exact Or.inl ⟨h, Cut_byte_none s c h⟩

theorem Index_byte_spec (s : GoString) (c : Byte) :
    (c ∉ s ∧ strings.Index s [c] = none) ∨
      (∃ a b, s = a ++ c :: b ∧ c ∉ a ∧ strings.Index s [c] = some a.length) := by
  by_cases h : c ∈ s
  · obtain ⟨a, b, rfl, ha⟩ := List.eq_append_cons_of_mem h
    exact Or.inr ⟨a, b, rfl, ha, Index_byte_append a b c ha⟩
  · exact Or.inl ⟨h, Index_byte_none s c h⟩

theorem forceQuery_spec (s : GoString)
    (h : (strings.HasSuffix s (str "?") && decide (strings.CountByte s (ch '?') = 1)) = true) :
    ∃ a, s = a ++ [ch '?'] ∧ ch '?' ∉ a ∧ s.take (s.length - 1) = a := by
  simp only [Bool.and_eq_true, decide_eq_true_eq] at h
  obtain ⟨h1, h2⟩ := h
  unfold strings.HasSuffix at h1
  rw [List.isSuffixOf_iff_suffix] at h1
  obtain ⟨a, rfl⟩ := h1
  have hq : str "?" = [ch '?'] := by decide
  rw [hq] at h2 ⊢
  refine ⟨a, rfl, ?_, by simp⟩
  unfold strings.CountByte at h2
  rw [List.count_append] at h2
  simp only [List.count_singleton_self] at h2
  exact List.count_eq_zero.mp (by omega)

theorem setPath_fields (u R : url.URL) (p : GoString) (h : url.setPath u p = .ok R) :
    R.Scheme = u.Scheme ∧ R.Opaque = u.Opaque ∧ R.User = u.User ∧ R.Host = u.Host ∧
    R.ForceQuery = u.ForceQuery ∧ R.RawQuery = u.RawQuery := by
  unfold url.setPath at h
  split at h
  · exact absurd h (by simp)
  · split at h <;> (simp only [Except.ok.injEq] at h; subst h; simp)

/-- The body of `parse` once the scheme and the query have been split off. -/
theorem parse_eq (pre sch rest0 rest rq : GoString) (fq : Bool)
    (hctl : url.stringContainsCTLByte pre = false) (hstar : pre ≠ str "*")
    (hg : url.getScheme pre = .ok (sch, rest0))
    (hfq : (strings.HasSuffix rest0 (str "?") && decide (strings.CountByte rest0 (ch '?') = 1))
      = fq)
    (hrest : (if fq = true then rest0.take (rest0.length - 1)
      else (strings.Cut rest0 (str "?")).1) = rest)
    (hrq : (if fq = true then [] else (strings.Cut rest0 (str "?")).2.1) = rq) :
    url.parse pre =
      if !strings.HasPrefix rest (str "/") ∧ strings.ToLower sch ≠ [] then
        .ok { Scheme := strings.ToLower sch, ForceQuery := fq, RawQuery := rq, Opaque := rest }
      else if !strings.HasPrefix rest (str "/") ∧
          strings.Contains (strings.Cut rest (str "/")).1 (str ":") then
        .error .firstSegmentColon
      else if (strings.ToLower sch ≠ [] ∨ !strings.HasPrefix rest (str "///")) ∧
          strings.HasPrefix rest (str "//") then
        match url.parseAuthority
            (match strings.Index (rest.drop 2) (str "/") with
              | some i => (rest.drop 2).take i
              | none => rest.drop 2) with
        | .error e => .error e
        | .ok (user, host) =>
          url.setPath { Scheme := strings.ToLower sch, ForceQuery := fq, RawQuery := rq,
                        User := user, Host := host }
            (match strings.Index (rest.drop 2) (str "/") with
              | some i => (rest.drop 2).drop i
              | none => [])
      else if strings.ToLower sch ≠ [] ∧ strings.HasPrefix rest (str "/") then
        url.setPath { Scheme := strings.ToLower sch, ForceQuery := fq, RawQuery := rq,
                      OmitHost := true } rest
      else
        url.setPath { Scheme := strings.ToLower sch, ForceQuery := fq, RawQuery := rq } rest := by
  unfold url.parse
  rw [if_neg (by simp [hctl]), if_neg hstar, hg]
  simp only
  rw [hfq, hrest, hrq]

theorem parseAuthority_host (a : GoString) (user : Option url.Userinfo) (host : GoString)
    (h : url.parseAuthority a = .ok (user, host)) : ∃ x, url.parseHost x = .ok host := by
  unfold url.parseAuthority at h
  simp only at h
  split at h
  · exact absurd h (by simp)
  · rename_i host1 hh
    have hhost : host = host1 := by
      split at h
      · simp only [Except.ok.injEq, Prod.mk.injEq] at h
        exact h.2.symm
      · split at h
        · exact absurd h (by simp)
        · split at h
          · split at h
            · exact absurd h (by simp)
            · simp only [Except.ok.injEq, Prod.mk.injEq] at h
              exact h.2.symm
          · split at h
            · exact absurd h (by simp)
            · split at h
              · exact absurd h (by simp)
              · simp only [Except.ok.injEq, Prod.mk.injEq] at h
                exact h.2.symm
    rw [hhost]
    split at hh
    · exact ⟨_, hh⟩
    · exact ⟨_, hh⟩

theorem parse_facts (pre : GoString) (R : url.URL) (h : url.parse pre = .ok R) :
    url.stringContainsCTLByte pre = false ∧
    (R.Scheme = [] ∨ url.validScheme R.Scheme = true) ∧
    (∀ c ∈ R.Opaque, c ∈ pre ∧ c ≠ ch '?') ∧ R.Opaque.head? ≠ some (ch '/') ∧
    (∀ c ∈ R.RawQuery, c ∈ pre) ∧ (R.ForceQuery = true → R.RawQuery = []) ∧
    (R.Host = [] ∨ ∃ x, url.parseHost x = .ok R.Host) ∧ (R.Opaque ≠ [] → R.Scheme ≠ []) := by
  have hctl : url.stringContainsCTLByte pre = false := by
    unfold url.parse at h
    split at h
    · exact absurd h (by simp)
    · rename_i hc; simpa using hc
  refine ⟨hctl, ?_⟩
  by_cases hstar : pre = str "*"
  · unfold url.parse at h
    rw [if_neg (by simp [hctl]), if_pos hstar] at h
    simp only [Except.ok.injEq] at h
    subst h
    simp
  cases hg : url.getScheme pre with
  | error e =>
    unfold url.parse at h
    rw [if_neg (by simp [hctl]), if_neg hstar, hg] at h
    exact absurd h (by simp)
  | ok r =>
    obtain ⟨sch, rest0⟩ := r
    rw [parse_eq pre sch rest0 _ _ _ hctl hstar hg rfl rfl rfl] at h
    -- facts on the scheme and the split of the query
    have hsch : strings.ToLower sch = [] ∨ url.validScheme (strings.ToLower sch) = true := by
      rcases getScheme_spec pre sch rest0 hg with ⟨h1, _⟩ | ⟨h1, _⟩
      · left; rw [h1]; rfl
      · right; exact validScheme_ToLower sch h1
    have hrest0 : ∀ c ∈ rest0, c ∈ pre := by
      rcases getScheme_spec pre sch rest0 hg with ⟨_, h1⟩ | ⟨_, h1⟩
      · intro c hc; rw [← h1]; exact hc
      · intro c hc; rw [h1]; simp [hc]
    generalize hfq : (strings.HasSuffix rest0 (str "?") &&
      decide (strings.CountByte rest0 (ch '?') = 1)) = fq at h
    have hq : str "?" = [ch '?'] := by decide
    have hrest : ∀ c ∈ (if fq = true then rest0.take (rest0.length - 1)
        else (strings.Cut rest0 (str "?")).1), c ∈ pre ∧ c ≠ ch '?' := by
      intro c hc
      cases fq with
      | true =>
        simp only [if_true] at hc
        obtain ⟨a, ha, hna, hta⟩ := forceQuery_spec rest0 hfq
        rw [hta] at hc
        exact ⟨hrest0 c (by rw [ha]; simp [hc]), fun e => hna (e ▸ hc)⟩
      | false =>
        simp only [Bool.false_eq_true, if_false] at hc
        rw [hq] at hc
        rcases Cut_byte_spec rest0 (ch '?') with ⟨h1, h2⟩ | ⟨a, b, h1, h2, h3⟩
        · rw [h2] at hc
          exact ⟨hrest0 c hc, fun e => h1 (e ▸ hc)⟩
        · rw [h3] at hc
          exact ⟨hrest0 c (by rw [h1]; simp [hc]), fun e => h2 (e ▸ hc)⟩
    have hrq : ∀ c ∈ (if fq = true then [] else (strings.Cut rest0 (str "?")).2.1), c ∈ pre := by
      intro c hc
      cases fq with
      | true => simp at hc
      | false =>
        simp only [Bool.false_eq_true, if_false] at hc
        rw [hq] at hc
        rcases Cut_byte_spec rest0 (ch '?') with ⟨h1, h2⟩ | ⟨a, b, h1, h2, h3⟩
        · rw [h2] at hc; simp at hc
        · rw [h3] at hc
          exact hrest0 c (by rw [h1]; simp [hc])
    have hfrq : fq = true → (if fq = true then [] else (strings.Cut rest0 (str "?")).2.1) = [] := by
      intro h1; rw [if_pos h1]
    generalize (if fq = true then rest0.take (rest0.length - 1)
        else (strings.Cut rest0 (str "?")).1) = rest at h hrest
    generalize (if fq = true then [] else (strings.Cut rest0 (str "?")).2.1) = rq at h hrq hfrq
    have hsp : ∀ (u : url.URL) (p : GoString), url.setPath u p = .ok R →
        u.Scheme = strings.ToLower sch → u.Opaque = [] → u.RawQuery = rq → u.ForceQuery = fq →
        (u.Host = [] ∨ ∃ x, url.parseHost x = .ok u.Host) →
        (R.Scheme = [] ∨ url.validScheme R.Scheme = true) ∧
        (∀ c ∈ R.Opaque, c ∈ pre ∧ c ≠ ch '?') ∧ R.Opaque.head? ≠ some (ch '/') ∧
        (∀ c ∈ R.RawQuery, c ∈ pre) ∧ (R.ForceQuery = true → R.RawQuery = []) ∧
        (R.Host = [] ∨ ∃ x, url.parseHost x = .ok R.Host) ∧ (R.Opaque ≠ [] → R.Scheme ≠ []) := by
      intro u p hu h1 h2 h3 h4 h5
      obtain ⟨f1, f2, _, f4, f5, f6⟩ := setPath_fields u R p hu
      rw [f1, f2, f4, f5, f6, h1, h2, h3, h4]
      exact ⟨hsch, by simp, by simp, hrq, hfrq, h5, by simp⟩
    split at h
    · rename_i hop
      simp only [Except.ok.injEq] at h
      subst h
      refine ⟨hsch, hrest, ?_, hrq, hfrq, Or.inl rfl, fun _ => hop.2⟩
      simp only
      have := hop.1
      rw [(by decide : str "/" = [ch '/']), HasPrefix_byte] at this
      simpa using this
    · split at h
      · exact absurd h (by simp)
      · split at h
        · split at h
          · exact absurd h (by simp)
          · rename_i user host hpa
            exact hsp _ _ h rfl rfl rfl rfl (Or.inr (parseAuthority_host _ _ _ hpa))
        · split at h
          · exact hsp _ _ h rfl rfl rfl rfl (Or.inl rfl)
          · exact hsp _ _ h rfl rfl rfl rfl (Or.inl rfl)

theorem setFragment_fields (u R : url.URL) (f : GoString) (h : url.setFragment u f = .ok R) :
    R.Scheme = u.Scheme ∧ R.Opaque = u.Opaque ∧ R.User = u.User ∧ R.Host = u.Host ∧
    R.ForceQuery = u.ForceQuery ∧ R.RawQuery = u.RawQuery ∧ R.Path = u.Path ∧
    R.RawPath = u.RawPath ∧ R.OmitHost = u.OmitHost := by
  unfold url.setFragment at h
  split at h
  · exact absurd h (by simp)
  · split at h <;> (simp only [Except.ok.injEq] at h; subst h; simp)

theorem CTL_of_mem (s : GoString) (h : url.stringContainsCTLByte s = false) :
    ∀ c ∈ s, url.isCTL c = false := by
  intro c hc
  unfold url.stringContainsCTLByte at h
  rw [List.any_eq_false] at h
  have := h c hc
  simpa [url.isCTL] using this

/-- What a successful `url.Parse` guarantees about the fields that `String` writes out
verbatim. -/
theorem Parse_facts (raw : GoString) (R : url.URL) (h : url.Parse raw = .ok R) :
    (R.Scheme = [] ∨ url.validScheme R.Scheme = true) ∧
    (∀ c ∈ R.Opaque, url.isCTL c = false ∧ c ≠ ch '?' ∧ c ≠ ch '#') ∧
    R.Opaque.head? ≠ some (ch '/') ∧
    (∀ c ∈ R.RawQuery, url.isCTL c = false ∧ c ≠ ch '#') ∧
    (R.ForceQuery = true → R.RawQuery = []) ∧
    (R.Host = [] ∨ ∃ x, url.parseHost x = .ok R.Host) ∧ (R.Opaque ≠ [] → R.Scheme ≠ []) := by
  have hq : str "#" = [ch '#'] := by decide
  unfold url.Parse at h
  rw [hq] at h
  have key : ∀ pre R0, url.parse pre = .ok R0 → ch '#' ∉ pre →
      R.Scheme = R0.Scheme → R.Opaque = R0.Opaque → R.RawQuery = R0.RawQuery →
      R.ForceQuery = R0.ForceQuery → R.Host = R0.Host →
      (R.Scheme = [] ∨ url.validScheme R.Scheme = true) ∧
      (∀ c ∈ R.Opaque, url.isCTL c = false ∧ c ≠ ch '?' ∧ c ≠ ch '#') ∧
      R.Opaque.head? ≠ some (ch '/') ∧
      (∀ c ∈ R.RawQuery, url.isCTL c = false ∧ c ≠ ch '#') ∧
      (R.ForceQuery = true → R.RawQuery = []) ∧
      (R.Host = [] ∨ ∃ x, url.parseHost x = .ok R.Host) ∧ (R.Opaque ≠ [] → R.Scheme ≠ []) := by
    intro pre R0 hp hpre e1 e2 e3 e4 e5
    obtain ⟨hctl, f1, f2, f3, f4, f5, f6, f7⟩ := parse_facts pre R0 hp
    have hc := CTL_of_mem pre hctl
    rw [e1, e2, e3, e4, e5]
    refine ⟨f1, ?_, f3, ?_, f5, f6, f7⟩
    · intro c hcm
      exact ⟨hc c (f2 c hcm).1, (f2 c hcm).2, fun e => hpre (e ▸ (f2 c hcm).1)⟩
    · intro c hcm
      exact ⟨hc c (f4 c hcm), fun e => hpre (e ▸ f4 c hcm)⟩
  rcases Cut_byte_spec raw (ch '#') with ⟨h1, h2⟩ | ⟨a, b, h1, h2, h3⟩
  · rw [h2] at h
    simp only at h
    cases hp : url.parse raw with
    | error e => rw [hp] at h; exact absurd h (by simp)
    | ok R0 =>
      rw [hp] at h
      simp only [if_true, Except.ok.injEq] at h
      subst h
      exact key raw _ hp h1 rfl rfl rfl rfl rfl
  · rw [h3] at h
    simp only at h
    cases hp : url.parse a with
    | error e => rw [hp] at h; exact absurd h (by simp)
    | ok R0 =>
      rw [hp] at h
      simp only at h
      split at h
      · simp only [Except.ok.injEq] at h
        subst h
        exact key a _ hp h2 rfl rfl rfl rfl rfl
      · cases hf : url.setFragment R0 b with
        | error e => rw [hf] at h; exact absurd h (by simp)
        | ok R1 =>
          rw [hf] at h
          simp only [Except.ok.injEq] at h
          subst h
          obtain ⟨g1, g2, _, g4, g5, g6, _⟩ := setFragment_fields R0 _ b hf
          exact key a R0 hp h2 g1 g2 g6 g5 g4

/-! ## The text of a normalised URL -/

theorem Decodes_ne_nil (m : url.encoding) (x h : GoString) (d : url.Decodes m x h)
    (hh : h ≠ []) : x ≠ [] := by
  intro hx
  subst hx
  exact hh (Decodes_nil_left m h d)

theorem String_assemble (u : url.URL) (hS : u.Scheme ≠ []) (hH : u.Host ≠ []) :
    u.String = url.assemble u.Scheme u.Opaque (url.authOf u) (url.slashPath u) u.ForceQuery
      u.RawQuery (if u.Fragment ≠ [] then url.EscapedFragment u else []) := by
  have hc : str ":" = [ch ':'] := by decide
  have hq : str "?" = [ch '?'] := by decide
  have hf : str "#" = [ch '#'] := by decide
  have hfrag : u.Fragment ≠ [] → url.EscapedFragment u ≠ [] := fun h =>
    Decodes_ne_nil _ _ _ (EscapedFragment_spec u).1 h
  unfold url.URL.String url.assemble url.authOf url.slashPath
  simp only [hS, hH, ne_eq, not_false_eq_true, if_true, true_or, or_true, and_false, if_false,
    hc, hq, hf, false_and, List.length_append, List.length_cons]
  have hlen : ∀ (a b : GoString) (n : Nat), ¬ ((a ++ b).length + n + 1 = 0 ∧ True) := by
    intro a b n h; omega
  by_cases hQ : u.ForceQuery = true ∨ ¬ u.RawQuery = []
  · by_cases hO : u.Opaque = []
    · by_cases hF : u.Fragment = []
      · by_cases hP : url.EscapedPath u = [] <;>
          by_cases hP2 : (url.EscapedPath u).head? = some (ch '/') <;>
          cases hU : u.User <;> simp [hO, hF, hP, hP2, hQ, str]
      · have := hfrag hF
        by_cases hP : url.EscapedPath u = [] <;>
          by_cases hP2 : (url.EscapedPath u).head? = some (ch '/') <;>
          cases hU : u.User <;> simp [hO, hF, hP, hP2, hQ, this, str]
    · by_cases hF : u.Fragment = []
      · simp [hO, hF, hQ]
      · have := hfrag hF
        simp [hO, hF, hQ, this]
  · by_cases hO : u.Opaque = []
    · by_cases hF : u.Fragment = []
      · by_cases hP : url.EscapedPath u = [] <;>
          by_cases hP2 : (url.EscapedPath u).head? = some (ch '/') <;>
          cases hU : u.User <;> simp [hO, hF, hP, hP2, hQ, str]
      · have := hfrag hF
        by_cases hP : url.EscapedPath u = [] <;>
          by_cases hP2 : (url.EscapedPath u).head? = some (ch '/') <;>
          cases hU : u.User <;> simp [hO, hF, hP, hP2, hQ, this, str]
    · by_cases hF : u.Fragment = []
      · simp [hO, hF, hQ]
      · have := hfrag hF
        simp [hO, hF, hQ, this]

/-! ## Parsing the authority back -/

theorem escapeByte_mem (m : url.encoding) (hm : m ≠ .encodeQueryComponent) (c d : Byte)
    (h : d ∈ url.escapeByte m c) :
    (d = c ∧ url.shouldEscape c m = false) ∨ d = ch '%' ∨ ∃ k : Fin 16, d = url.upperhex k.val := by
  cases hs : url.shouldEscape c m with
  | false =>
    rw [escapeByte_of_not_shouldEscape m c hs] at h
    exact Or.inl ⟨by simpa using h, rfl⟩
  | true =>
    rw [escapeByte_of_shouldEscape m hm c hs] at h
    simp only [List.mem_cons, List.mem_singleton, List.not_mem_nil, or_false] at h
    rcases h with h | h | h
    · exact Or.inr (Or.inl h)
    · exact Or.inr (Or.inr ⟨⟨c.val / 16, by have := c.isLt; omega⟩, h⟩)
    · exact Or.inr (Or.inr ⟨⟨c.val % 16, by omega⟩, h⟩)

/-- A property of the bytes `escape` can emit in a mode holds of every byte of its output. -/
theorem escape_forall (m : url.encoding) (hm : m ≠ .encodeQueryComponent) (P : Byte → Prop)
    (h1 : ∀ c, url.shouldEscape c m = false → P c) (h2 : P (ch '%'))
    (h3 : ∀ k : Fin 16, P (url.upperhex k.val)) (h : GoString) :
    ∀ d ∈ url.escape h m, P d := by
  apply escape_bytes
  intro c d hd
  rcases escapeByte_mem m hm c d hd with ⟨rfl, hs⟩ | rfl | ⟨k, rfl⟩
  · exact h1 _ hs
  · exact h2
  · exact h3 k

set_option maxRecDepth 100000 in
theorem host_raw_bytes : ∀ c : Byte, url.shouldEscape c .encodeHost = false →
    c ≠ ch '@' ∧ c ≠ ch '/' ∧ c ≠ ch '?' ∧ c ≠ ch '#' ∧ url.isCTL c = false := by
  decide

set_option maxRecDepth 100000 in
theorem user_raw_bytes : ∀ c : Byte, url.shouldEscape c .encodeUserPassword = false →
    c ≠ ch '@' ∧ c ≠ ch ':' ∧ c ≠ ch '/' ∧ c ≠ ch '?' ∧ c ≠ ch '#' ∧ url.isCTL c = false ∧
      url.validUserinfo [c] = true := by
  decide

theorem hex_bytes : ∀ k : Fin 16,
    url.upperhex k.val ≠ ch '@' ∧ url.upperhex k.val ≠ ch ':' ∧ url.upperhex k.val ≠ ch '/' ∧
    url.upperhex k.val ≠ ch '?' ∧ url.upperhex k.val ≠ ch '#' ∧
    url.isCTL (url.upperhex k.val) = false ∧ url.validUserinfo [url.upperhex k.val] = true := by
  decide

theorem escape_host_bytes (h : GoString) : ∀ d ∈ url.escape h .encodeHost,
    d ≠ ch '@' ∧ d ≠ ch '/' ∧ d ≠ ch '?' ∧ d ≠ ch '#' ∧ url.isCTL d = false :=
  escape_forall .encodeHost (by decide) _ host_raw_bytes (by decide)
    (fun k => ⟨(hex_bytes k).1, (hex_bytes k).2.2.1, (hex_bytes k).2.2.2.1,
      (hex_bytes k).2.2.2.2.1, (hex_bytes k).2.2.2.2.2.1⟩) h

theorem escape_user_bytes (h : GoString) : ∀ d ∈ url.escape h .encodeUserPassword,
    d ≠ ch '@' ∧ d ≠ ch ':' ∧ d ≠ ch '/' ∧ d ≠ ch '?' ∧ d ≠ ch '#' ∧ url.isCTL d = false ∧
      url.validUserinfo [d] = true :=
  escape_forall .encodeUserPassword (by decide) _ user_raw_bytes (by decide) hex_bytes h

theorem validUserinfo_of_bytes (s : GoString) (h : ∀ d ∈ s, url.validUserinfo [d] = true) :
    url.validUserinfo s = true := by
  unfold url.validUserinfo at h ⊢
  rw [List.all_eq_true]
  intro d hd
  have := h d hd
  simpa using this

theorem Userinfo_String_bytes (ui : url.Userinfo) : ∀ d ∈ ui.String,
    d ≠ ch '@' ∧ d ≠ ch '/' ∧ d ≠ ch '?' ∧ d ≠ ch '#' ∧ url.isCTL d = false ∧
      url.validUserinfo [d] = true := by
  intro d hd
  unfold url.Userinfo.String at hd
  have hb := escape_user_bytes
  rcases List.mem_append.mp hd with h | h
  · obtain ⟨h1, _, h3, h4, h5, h6, h7⟩ := hb _ d h
    exact ⟨h1, h3, h4, h5, h6, h7⟩
  · split at h
    · rcases List.mem_append.mp h with h | h
      · have : d = ch ':' := by
          have hc : str ":" = [ch ':'] := by decide
          rw [hc] at h
          simpa using h
        subst this
        decide
      · obtain ⟨h1, _, h3, h4, h5, h6, h7⟩ := hb _ d h
        exact ⟨h1, h3, h4, h5, h6, h7⟩
    · simp at h

/-! ## Hosts: lemmas on `strings.Index` and on decoding -/

theorem Index_some_isPrefix (sep : GoString) :
    ∀ (s : GoString) (z : Nat), strings.Index s sep = some z →
      sep.isPrefixOf (s.drop z) = true := by
  intro s
  induction s with
  | nil =>
    intro z h
    simp only [strings.Index] at h
    split at h
    · rename_i h0; subst h0; simp
    · exact absurd h (by simp)
  | cons c s ih =>
    intro z h
    rw [strings.Index] at h
    split at h
    · rename_i hp
      simp only [Option.some.injEq] at h
      subst h
      simpa using hp
    · cases hi : strings.Index s sep with
      | none => rw [hi] at h; exact absurd h (by simp)
      | some j =>
        rw [hi] at h
        simp only [Option.map_some', Option.some.injEq] at h
        subst h
        simpa using ih j hi

theorem Index_none_of_noOcc (sep : GoString) (hsep : sep ≠ []) :
    ∀ (s : GoString), (∀ k, sep.isPrefixOf (s.drop k) = false) → strings.Index s sep = none := by
  intro s
  induction s with
  | nil => intro _; simp [strings.Index, hsep]
  | cons c s ih =>
    intro h
    rw [strings.Index]
    have h0 := h 0
    simp only [List.drop_zero] at h0
    rw [h0]
    simp only [Bool.false_eq_true, if_false, Option.map_eq_none']
    exact ih (fun k => by simpa using h (k + 1))

set_option maxRecDepth 100000 in
theorem hexByte_facts : ∀ a : Byte, url.ishex a = true →
    a ≠ ch '%' ∧ a ≠ ch ':' ∧ a ≠ ch ']' ∧ a ≠ ch '[' := by
  decide

set_option maxRecDepth 100000 in
theorem highByte_facts : ∀ v : Byte, (v = ch '%' ∨ (128 : Byte) ≤ v) →
    v ≠ ch ':' ∧ v ≠ ch ']' ∧ v ≠ ch '[' ∧ url.validOptionalPort [ch ':', v] = false := by
  decide

theorem Decodes_host_noOcc (e h : GoString) (d : url.Decodes .encodeHost e h)
    (hp : ch '%' ∉ h) : ∀ k, (str "%25").isPrefixOf (e.drop k) = false := by
  have h25 : str "%25" = [ch '%', ch '2', ch '5'] := by decide
  rw [h25]
  induction d with
  | nil => intro k; simp
  | raw c x h hc _ ih =>
    intro k
    simp only [List.mem_cons, not_or] at hp
    cases k with
    | zero =>
      have : (ch '%' == c) = false := by
        simp only [beq_eq_false_iff_ne, ne_eq]
        exact fun e => hc.1 e.symm
      simp [List.isPrefixOf, this]
    | succ k => simpa using ih hp.2 k
  | esc a b x h hab _ ih =>
    intro k
    simp only [List.mem_cons, not_or] at hp
    have ha := (hexByte_facts a hab.1).1
    have hb := (hexByte_facts b hab.2.1).1
    cases k with
    | zero =>
      by_contra hc
      have hc2 : a = ch '2' ∧ b = ch '5' := by
        simp only [List.drop_zero, List.isPrefixOf, beq_self_eq_true, Bool.true_and,
          Bool.and_true, Bool.not_eq_false, Bool.and_eq_true, beq_iff_eq] at hc
        exact ⟨hc.1.symm, hc.2.symm⟩
      apply hp.1
      rw [hc2.1, hc2.2]
      decide
    | succ k =>
      cases k with
      | zero =>
        have : (ch '%' == a) = false := by
          simp only [beq_eq_false_iff_ne, ne_eq]
          exact fun e => ha e.symm
        simp [List.isPrefixOf, this]
      | succ k =>
        cases k with
        | zero =>
          have : (ch '%' == b) = false := by
            simp only [beq_eq_false_iff_ne, ne_eq]
            exact fun e => hb e.symm
          simp [List.isPrefixOf, this]
        | succ k => simpa using ih hp.2 k

theorem validOptionalPort_cons (c : Byte) (s : GoString) :
    url.validOptionalPort (c :: s) =
      (decide (c = ch ':') && url.validOptionalPort (ch ':' :: s)) := by
  unfold url.validOptionalPort
  simp only [Bool.decide_and, Bool.decide_eq_true, decide_True, Bool.true_and]

theorem validOptionalPort_colon_cons (c : Byte) (s : GoString) :
    url.validOptionalPort (ch ':' :: c :: s) =
      (url.validOptionalPort [ch ':', c] && url.validOptionalPort (ch ':' :: s)) := by
  unfold url.validOptionalPort
  simp only [List.all_cons, List.all_nil, Bool.and_true, Bool.decide_and, Bool.decide_eq_true,
    decide_True, Bool.true_and]

theorem Index_some_le (sep : GoString) :
    ∀ (s : GoString) (z : Nat), strings.Index s sep = some z → z ≤ s.length := by
  intro s
  induction s with
  | nil =>
    intro z h
    simp only [strings.Index] at h
    split at h
    · simp only [Option.some.injEq] at h; omega
    · exact absurd h (by simp)
  | cons c s ih =>
    intro z h
    rw [strings.Index] at h
    split at h
    · simp only [Option.some.injEq] at h; omega
    · cases hi : strings.Index s sep with
      | none => rw [hi] at h; exact absurd h (by simp)
      | some j =>
        rw [hi] at h
        simp only [Option.map_some', Option.some.injEq] at h
        have := ih j hi
        simp only [List.length_cons]
        omega

theorem Index_some_min (sep : GoString) :
    ∀ (s : GoString) (z : Nat), strings.Index s sep = some z →
      ∀ k, k < z → sep.isPrefixOf (s.drop k) = false := by
  intro s
  induction s with
  | nil =>
    intro z h k hk
    simp only [strings.Index] at h
    split at h
    · simp only [Option.some.injEq] at h; omega
    · exact absurd h (by simp)
  | cons c s ih =>
    intro z h k hk
    rw [strings.Index] at h
    split at h
    · simp only [Option.some.injEq] at h; omega
    · rename_i hp
      cases hi : strings.Index s sep with
      | none => rw [hi] at h; exact absurd h (by simp)
      | some j =>
        rw [hi] at h
        simp only [Option.map_some', Option.some.injEq] at h
        cases k with
        | zero => simpa only [List.drop_zero, Bool.not_eq_true] using hp
        | succ k => simpa using ih j hi k (by omega)

theorem Index_none_noOcc (sep : GoString) :
    ∀ (s : GoString), strings.Index s sep = none →
      ∀ k, sep.isPrefixOf (s.drop k) = false := by
  intro s
  induction s with
  | nil =>
    intro h k
    simp only [strings.Index] at h
    split at h
    · exact absurd h (by simp)
    · rename_i hs
      cases sep with
      | nil => exact absurd rfl hs
      | cons d sep => simp [List.isPrefixOf]
  | cons c s ih =>
    intro h k
    rw [strings.Index] at h
    split at h
    · exact absurd h (by simp)
    · rename_i hp
      have hi : strings.Index s sep = none := by simpa using h
      cases k with
      | zero => simpa only [List.drop_zero, Bool.not_eq_true] using hp
      | succ k => simpa using ih hi k

theorem Index_eq_some (sep : GoString) :
    ∀ (s : GoString) (n : Nat), (∀ k, k < n → sep.isPrefixOf (s.drop k) = false) →
      sep.isPrefixOf (s.drop n) = true → n ≤ s.length → strings.Index s sep = some n := by
  intro s
  induction s with
  | nil =>
    intro n _ hp hn
    have : n = 0 := by simpa using hn
    subst this
    cases sep with
    | nil => simp [strings.Index]
    | cons d sep => simp [List.isPrefixOf] at hp
  | cons c s ih =>
    intro n hmin hp hn
    rw [strings.Index]
    cases n with
    | zero =>
      simp only [List.drop_zero] at hp
      rw [if_pos hp]
    | succ n =>
      have h0 := hmin 0 (by omega)
      simp only [List.drop_zero] at h0
      rw [h0]
      simp only [Bool.false_eq_true, if_false]
      rw [ih n (fun k hk => by simpa using hmin (k + 1) (by omega)) (by simpa using hp)
        (by simpa using hn)]
      rfl

theorem LastIndex_byte_some (s : GoString) (c : Byte) (i : Nat)
    (h : strings.LastIndex s [c] = some i) :
    ∃ a b, s = a ++ c :: b ∧ c ∉ b ∧ i = a.length := by
  by_cases hc : c ∈ s
  · have hr : c ∈ s.reverse := List.mem_reverse.mpr hc
    obtain ⟨a, b, hab, ha⟩ := List.eq_append_cons_of_mem hr
    have hs : s = b.reverse ++ c :: a.reverse := by
      have := congrArg List.reverse hab
      simpa using this
    have hna : c ∉ a.reverse := fun h => ha (List.mem_reverse.mp h)
    refine ⟨b.reverse, a.reverse, hs, hna, ?_⟩
    rw [hs, LastIndex_byte_append _ _ _ hna] at h
    simpa using h.symm
  · rw [LastIndex_byte_none s c hc] at h
    exact absurd h (by simp)

theorem Decodes_host_noOcc_append (e h t : GoString) (d : url.Decodes .encodeHost e h)
    (hp : ch '%' ∉ h) :
    ∀ k, k < e.length → (str "%25").isPrefixOf ((e ++ t).drop k) = false := by
  have h25 : str "%25" = [ch '%', ch '2', ch '5'] := by decide
  rw [h25]
  induction d with
  | nil => intro k hk; simp at hk
  | raw c x h hc _ ih =>
    intro k hk
    simp only [List.mem_cons, not_or] at hp
    cases k with
    | zero =>
      have : (ch '%' == c) = false := by
        simp only [beq_eq_false_iff_ne, ne_eq]
        exact fun e => hc.1 e.symm
      simp [List.isPrefixOf, this]
    | succ k => simpa using ih hp.2 k (by simpa using hk)
  | esc a b x h hab _ ih =>
    intro k hk
    simp only [List.mem_cons, not_or] at hp
    have ha := (hexByte_facts a hab.1).1
    have hb := (hexByte_facts b hab.2.1).1
    cases k with
    | zero =>
      by_contra hc
      have hc2 : a = ch '2' ∧ b = ch '5' := by
        simp only [List.cons_append, List.drop_zero, List.isPrefixOf, beq_self_eq_true,
          Bool.true_and, Bool.and_true, Bool.not_eq_false, Bool.and_eq_true, beq_iff_eq] at hc
        exact ⟨hc.1.symm, hc.2.symm⟩
      apply hp.1
      rw [hc2.1, hc2.2]
      decide
    | succ k =>
      cases k with
      | zero =>
        have : (ch '%' == a) = false := by
          simp only [beq_eq_false_iff_ne, ne_eq]
          exact fun e => ha e.symm
        simp [List.isPrefixOf, this]
      | succ k =>
        cases k with
        | zero =>
          have : (ch '%' == b) = false := by
            simp only [beq_eq_false_iff_ne, ne_eq]
            exact fun e => hb e.symm
          simp [List.isPrefixOf, this]
        | succ k =>
          simp only [List.length_cons] at hk
          simpa using ih hp.2 k (by omega)

/-- A host text without `%25` decodes to a host without `%`. -/
theorem Decodes_host_percent (e h : GoString) (d : url.Decodes .encodeHost e h)
    (hno : ∀ k, (str "%25").isPrefixOf (e.drop k) = false) : ch '%' ∉ h := by
  induction d with
  | nil => simp
  | raw c x h hc _ ih =>
    intro hm
    rcases List.mem_cons.mp hm with e | hm
    · exact hc.1 e.symm
    · exact ih (fun k => by simpa using hno (k + 1)) hm
  | esc a b x h hab _ ih =>
    intro hm
    have h0 := hno 0
    have ht : [ch '%', a, b] ≠ str "%25" := by
      intro e
      have h1 : str "%25" = [ch '%', ch '2', ch '5'] := by decide
      rw [h1] at e h0
      have : a = ch '2' ∧ b = ch '5' := by simpa using e
      rw [this.1, this.2] at h0
      simp [List.isPrefixOf] at h0
    rcases List.mem_cons.mp hm with e | hm
    · rcases escOK_host_value a b hab with hv | hv
      · obtain ⟨ha, hb, h3, _⟩ := hab
        have h8 : ¬ url.unhex a < 8 := fun h => h3 ⟨rfl, h, ht⟩
        have h8' : 8 ≤ (url.unhex a).val := by
          have : ¬ (url.unhex a).val < (8 : Byte).val := fun h => h8 h
          simpa using this
        have := nibbles_high ⟨(url.unhex a).val, unhex_lt a ha⟩
          ⟨(url.unhex b).val, unhex_lt b hb⟩ h8'
        have h2 : (128 : Byte) ≤ ch '%' := by rw [e]; exact this
        exact absurd h2 (by decide)
      · rw [← e] at hv
        exact absurd hv (by decide)
    · exact ih (fun k => by simpa using hno (k + 3)) hm

theorem Decodes_raw_all (m : url.encoding) (s : GoString) (h : ∀ c ∈ s, url.rawOK m c) :
    url.Decodes m s s := by
  induction s with
  | nil => exact .nil
  | cons c s ih =>
    exact .raw c s s (h c (List.mem_cons_self _ _)) (ih (fun d hd => h d (List.mem_cons_of_mem _ hd)))

theorem Decodes_zone_bytes (z h : GoString) (d : url.Decodes .encodeZone z h) :
    ∀ c ∈ h, c < 0x80 → c = ch '%' ∨ c = ch ' ' ∨ url.shouldEscape c .encodeHost = false := by
  induction d with
  | nil => intro c hc; simp at hc
  | raw c x h hc _ ih =>
    intro d hd hlt
    rcases List.mem_cons.mp hd with rfl | hd
    · right; right
      cases hs : url.shouldEscape d .encodeHost with
      | false => rfl
      | true => exact absurd ⟨Or.inr rfl, hlt, hs⟩ hc.2
    · exact ih d hd hlt
  | esc a b x h hab _ ih =>
    intro d hd hlt
    rcases List.mem_cons.mp hd with rfl | hd
    · obtain ⟨_, _, _, h4⟩ := hab
      by_cases ht : [ch '%', a, b] = str "%25"
      · left
        have h1 : str "%25" = [ch '%', ch '2', ch '5'] := by decide
        rw [h1] at ht
        have : a = ch '2' ∧ b = ch '5' := by simpa using ht
        rw [this.1, this.2]
        decide
      · by_cases hsp : url.unhex2 a b = ch ' '
        · exact Or.inr (Or.inl hsp)
        · right; right
          cases hs : url.shouldEscape (url.unhex2 a b) .encodeHost with
          | false => rfl
          | true => exact absurd ⟨rfl, ht, hsp, hs⟩ h4
    · exact ih d hd hlt

set_option maxRecDepth 100000 in
theorem zone_escape_byte : ∀ c : Byte,
    (c = ch '%' ∨ c = ch ' ' ∨ url.shouldEscape c .encodeHost = false) →
    (url.shouldEscape c .encodeHost = false → url.rawOK .encodeZone c) ∧
    (url.shouldEscape c .encodeHost = true →
      url.escOK .encodeZone (url.upperhex (c.val / 16)) (url.upperhex (c.val % 16))) := by
  decide

/-- A zone identifier made of bytes that are valid in a host, `%` and spaces: its escaped
form decodes back to it. -/
theorem Decodes_escape_zone (h : GoString)
    (hb : ∀ c ∈ h, c = ch '%' ∨ c = ch ' ' ∨ url.shouldEscape c .encodeHost = false) :
    url.Decodes .encodeZone (url.escape h .encodeHost) h := by
  induction h with
  | nil => rw [escape_nil]; exact .nil
  | cons c h ih =>
    have ih2 := ih (fun d hd => hb d (List.mem_cons_of_mem _ hd))
    have hc := zone_escape_byte c (hb c (List.mem_cons_self _ _))
    rw [escape_cons]
    cases hs : url.shouldEscape c .encodeHost with
    | false =>
      rw [escapeByte_of_not_shouldEscape _ c hs]
      exact .raw c _ _ (hc.1 hs) ih2
    | true =>
      rw [escapeByte_of_shouldEscape _ (by decide) c hs]
      have := url.Decodes.esc _ _ _ _ (hc.2 hs) ih2
      rw [upperhex_roundtrip] at this
      exact this

set_option maxRecDepth 100000 in
theorem digit_facts : ∀ c : Byte, (c = ch ':' ∨ (!(decide (c < ch '0') || decide (c > ch '9'))) = true) →
    c ≠ ch '%' ∧ c ≠ ch ']' ∧ url.shouldEscape c .encodeHost = false ∧
      url.rawOK .encodeHost c ∧ c < 0x80 := by
  decide

theorem port_bytes (port : GoString) (hv : url.validOptionalPort port = true) :
    ∀ c ∈ port, c ≠ ch '%' ∧ c ≠ ch ']' ∧ url.shouldEscape c .encodeHost = false ∧
      url.rawOK .encodeHost c ∧ c < 0x80 := by
  cases port with
  | nil => intro c hc; simp at hc
  | cons p port =>
    unfold url.validOptionalPort at hv
    simp only [Bool.decide_and, Bool.and_eq_true, decide_eq_true_eq, List.all_eq_true] at hv
    intro c hc
    rcases List.mem_cons.mp hc with rfl | hc
    · exact digit_facts _ (Or.inl hv.1)
    · have := hv.2 c hc
      exact digit_facts _ (Or.inr (by simpa using this))

set_option maxRecDepth 100000 in
theorem digit_not_bracket : ∀ c : Byte,
    (c = ch ':' ∨ (!(decide (c < ch '0') || decide (c > ch '9'))) = true) → c ≠ ch '[' := by
  decide

theorem port_no_bracket (port : GoString) (hv : url.validOptionalPort port = true) :
    ∀ c ∈ port, c ≠ ch '[' := by
  cases port with
  | nil => intro c hc; simp at hc
  | cons p port =>
    unfold url.validOptionalPort at hv
    simp only [Bool.decide_and, Bool.and_eq_true, decide_eq_true_eq, List.all_eq_true] at hv
    intro c hc
    rcases List.mem_cons.mp hc with rfl | hc
    · exact digit_not_bracket _ (Or.inl hv.1)
    · have := hv.2 c hc
      exact digit_not_bracket _ (Or.inr (by simpa using this))

theorem dropWhile_append_all (p : Byte → Bool) (a b : GoString) (h : ∀ c ∈ a, p c = true) :
    (a ++ b).dropWhile p = b.dropWhile p := by
  induction a with
  | nil => rfl
  | cons c a ih =>
    rw [List.cons_append, List.dropWhile_cons, h c (List.mem_cons_self _ _)]
    exact ih (fun d hd => h d (List.mem_cons_of_mem _ hd))

/-! ## Hosts: parsing the escaped host back -/

theorem LastIndex_append_notin (s t : GoString) (c : Byte) (h : c ∉ t) :
    strings.LastIndex (s ++ t) [c] = strings.LastIndex s [c] := by
  induction s with
  | nil =>
    rw [List.nil_append, LastIndex_byte_none t c h]
    rfl
  | cons d s ih =>
    rw [List.cons_append, strings.LastIndex, strings.LastIndex, ih, isPrefixOf_singleton,
      isPrefixOf_singleton]
    rfl

theorem LastIndex_head (c : Byte) (s : GoString) (h : c ∉ s) :
    strings.LastIndex (c :: s) [c] = some 0 := by
  have := LastIndex_byte_append [] s c h
  simpa using this

theorem Index_byte_cons (c d : Byte) (s : GoString) :
    strings.Index (c :: s) [d] = if c = d then some 0 else (strings.Index s [d]).map (· + 1) := by
  rw [strings.Index, isPrefixOf_singleton]
  simp only [List.head?_cons, Option.some.injEq, decide_eq_true_eq]

theorem portFrom_cons (c : Byte) (s : GoString) :
    url.portFrom (c :: s) =
      if c = ch ':' then some (url.validOptionalPort (c :: s)) else url.portFrom s := by
  unfold url.portFrom
  rw [Index_byte_cons]
  by_cases hc : c = ch ':'
  · simp [hc]
  · rw [if_neg hc, if_neg hc]
    cases strings.Index s [ch ':'] with
    | none => rfl
    | some i => simp

/-- Decoding in host mode keeps the optional port that starts at the first colon, and
brings in no `[`. -/
theorem Decodes_host_port (x h : GoString) (d : url.Decodes .encodeHost x h) :
    url.validOptionalPort x = url.validOptionalPort h ∧
    url.validOptionalPort (ch ':' :: x) = url.validOptionalPort (ch ':' :: h) ∧
    url.portFrom x = url.portFrom h ∧
    (ch '[' ∈ h → ch '[' ∈ x) := by
  induction d with
  | nil => simp
  | raw c x h hc _ ih =>
    obtain ⟨i3, i4, i5, i6⟩ := ih
    refine ⟨?_, ?_, ?_, ?_⟩
    · rw [validOptionalPort_cons c x, validOptionalPort_cons c h, i4]
    · rw [validOptionalPort_colon_cons c x, validOptionalPort_colon_cons c h, i4]
    · rw [portFrom_cons, portFrom_cons, i5, validOptionalPort_cons c x,
        validOptionalPort_cons c h, i4]
    · intro hm
      rcases List.mem_cons.mp hm with e | hm
      · rw [e]; exact List.mem_cons_self _ _
      · exact List.mem_cons_of_mem _ (i6 hm)
  | esc a b x h hab _ ih =>
    obtain ⟨i3, i4, i5, i6⟩ := ih
    obtain ⟨_, ha1, ha2, ha3⟩ := hexByte_facts a hab.1
    obtain ⟨_, hb1, hb2, hb3⟩ := hexByte_facts b hab.2.1
    obtain ⟨hv1, hv2, hv3, hv4⟩ := highByte_facts _ (escOK_host_value a b hab)
    have hp2 : ch '%' ≠ ch ':' := by decide
    have hp4 : url.validOptionalPort [ch ':', ch '%'] = false := by decide
    refine ⟨?_, ?_, ?_, ?_⟩
    · rw [validOptionalPort_cons (ch '%'), validOptionalPort_cons (url.unhex2 a b)]
      simp only [hp2, hv1, decide_False, Bool.false_and]
    · rw [validOptionalPort_colon_cons (ch '%'), validOptionalPort_colon_cons (url.unhex2 a b),
        hp4, hv4]
      simp only [Bool.false_and]
    · rw [portFrom_cons, portFrom_cons, portFrom_cons, portFrom_cons, i5]
      simp only [hp2, ha1, hb1, hv1, if_false]
    · intro hm
      rcases List.mem_cons.mp hm with e | hm
      · exact absurd e.symm hv3
      · exact List.mem_cons_of_mem _ (List.mem_cons_of_mem _ (List.mem_cons_of_mem _ (i6 hm)))

theorem upperhex_not_bracket : ∀ k : Fin 16, url.upperhex k.val ≠ ch '[' := by decide

/-- The escaped form of a text without `[` has no `[`. -/
theorem escape_no_bracket (m : url.encoding) (hm : m ≠ .encodeQueryComponent) (h : GoString)
    (hb : ch '[' ∉ h) : ch '[' ∉ url.escape h m := by
  intro hmem
  rw [escape_eq_flatten] at hmem
  simp only [List.mem_flatten, List.mem_map] at hmem
  obtain ⟨l, ⟨c, hc, rfl⟩, hdl⟩ := hmem
  rcases escapeByte_mem m hm c _ hdl with ⟨e, _⟩ | e | ⟨k, e⟩
  · exact hb (e ▸ hc)
  · exact absurd e (by decide)
  · exact upperhex_not_bracket k e.symm

theorem parseHost_plain (x : GoString) (hb : ch '[' ∉ x) :
    url.parseHost x =
      if (url.portFrom x).getD true = true then url.unescape x .encodeHost
      else .error (.invalidPort (x.drop ((strings.Index x [ch ':']).getD 0))) := by
  have hbr : str "[" = [ch '['] := by decide
  have hco : str ":" = [ch ':'] := by decide
  unfold url.parseHost url.portFrom
  rw [hbr, LastIndex_byte_none x _ hb, hco]
  simp only
  cases strings.Index x [ch ':'] with
  | none => rfl
  | some i =>
    simp only [Option.map_some', Option.getD_some]
    cases url.validOptionalPort (x.drop i) <;> rfl

/-- What `parseHost` returns for a text with a `[`: the text between the last `[` and the
last `]`, decoded, between brackets, and the port. -/
theorem parseHost_bracket (x h : GoString) (hb : ch '[' ∈ x) (hx : url.parseHost x = .ok h) :
    ∃ hn uh port, ch '[' ∉ hn ∧ url.validOptionalPort port = true ∧
      h = ch '[' :: (uh ++ ch ']' :: port) ∧
      (∃ addr, netip.ParseAddr uh = .ok addr ∧ addr.Is4 = false) ∧
      ((strings.Index hn (str "%25") = none ∧ url.Decodes .encodeHost hn uh) ∨
        (∃ z hp hz, strings.Index hn (str "%25") = some z ∧
          url.Decodes .encodeHost (hn.take z) hp ∧
          url.Decodes .encodeZone (hn.drop z) hz ∧ uh = hp ++ hz)) := by
  have hbr : str "[" = [ch '['] := by decide
  have hcl : str "]" = [ch ']'] := by decide
  unfold url.parseHost at hx
  rw [hbr, hcl] at hx
  cases ho : strings.LastIndex x [ch '['] with
  | none =>
    exfalso
    obtain ⟨a, b, hab, _⟩ := List.eq_append_cons_of_mem hb
    obtain ⟨a2, b2, hab2, hnb, _⟩ : ∃ a2 b2, x = a2 ++ ch '[' :: b2 ∧ ch '[' ∉ b2 ∧ True := by
      have hr : ch '[' ∈ x.reverse := List.mem_reverse.mpr hb
      obtain ⟨p, q, hpq, hp⟩ := List.eq_append_cons_of_mem hr
      refine ⟨q.reverse, p.reverse, ?_, fun h => hp (List.mem_reverse.mp h), trivial⟩
      have := congrArg List.reverse hpq
      simpa using this
    rw [hab2, LastIndex_byte_append _ _ _ hnb] at ho
    exact absurd ho (by simp)
  | some o =>
    rw [ho] at hx
    simp only at hx
    cases hc : strings.LastIndex x [ch ']'] with
    | none => rw [hc] at hx; exact absurd hx (by simp)
    | some c =>
      rw [hc] at hx
      simp only at hx
      obtain ⟨a1, port, hx1, hnp, hc1⟩ := LastIndex_byte_some x _ c hc
      have hdrop1 : x.drop (c + 1) = port := by
        rw [hx1, hc1, ← List.drop_drop, List.drop_left]; rfl
      have htake : x.take c = a1 := by rw [hx1, hc1, List.take_left]
      rw [hdrop1, htake] at hx
      split at hx
      · exact absurd hx (by simp)
      · rename_i hv
        have hv : url.validOptionalPort port = true := by simpa using hv
        have hpb := port_bytes port hv
        have hport : url.unescape port .encodeHost = .ok port :=
          (unescape_iff _ (by decide) _ _).mpr
            (Decodes_raw_all _ _ (fun d hd => (hpb d hd).2.2.2.1))
        rw [hport] at hx
        simp only at hx
        -- the last `[` is before the last `]`
        have hnb : ch '[' ∉ ch ']' :: port := by
          intro hm
          rcases List.mem_cons.mp hm with e | hm
          · exact absurd e (by decide)
          · exact port_no_bracket port hv _ hm rfl
        have ho2 : strings.LastIndex a1 [ch '['] = some o := by
          rw [← LastIndex_append_notin a1 (ch ']' :: port) _ hnb, ← hx1]
          exact ho
        obtain ⟨a0, hn, ha1, hnhn, ho1⟩ := LastIndex_byte_some a1 _ o ho2
        have hhn : a1.drop (o + 1) = hn := by
          rw [ha1, ho1, ← List.drop_drop, List.drop_left]; rfl
        rw [hhn] at hx
        refine ⟨hn, ?_⟩
        -- the decoded host name
        cases hz : strings.Index hn (str "%25") with
        | none =>
          rw [hz] at hx
          simp only at hx
          cases hu : url.unescape hn .encodeHost with
          | error e => rw [hu] at hx; exact absurd hx (by simp)
          | ok uh =>
            rw [hu] at hx
            simp only at hx
            cases hpa : netip.ParseAddr uh with
            | error e => rw [hpa] at hx; exact absurd hx (by simp)
            | ok addr =>
              rw [hpa] at hx
              simp only at hx
              split at hx
              · exact absurd hx (by simp)
              · rename_i h4
                refine ⟨uh, port, hnhn, hv, ?_, ⟨addr, hpa, by simpa using h4⟩,
                  Or.inl ⟨rfl, (unescape_iff _ (by decide) _ _).mp hu⟩⟩
                rw [← Except.ok.inj hx]
                simp
        | some z =>
          rw [hz] at hx
          simp only at hx
          cases hu1 : url.unescape (hn.take z) .encodeHost with
          | error e => rw [hu1] at hx; exact absurd hx (by simp)
          | ok hp =>
            rw [hu1] at hx
            simp only at hx
            cases hu2 : url.unescape (hn.drop z) .encodeZone with
            | error e => rw [hu2] at hx; exact absurd hx (by simp)
            | ok hzone =>
              rw [hu2] at hx
              simp only at hx
              cases hpa : netip.ParseAddr (hp ++ hzone) with
              | error e => rw [hpa] at hx; exact absurd hx (by simp)
              | ok addr =>
                rw [hpa] at hx
                simp only at hx
                split at hx
                · exact absurd hx (by simp)
                · rename_i h4
                  refine ⟨hp ++ hzone, port, hnhn, hv, ?_, ⟨addr, hpa, by simpa using h4⟩,
                    Or.inr ⟨z, hp, hzone, rfl, (unescape_iff _ (by decide) _ _).mp hu1,
                      (unescape_iff _ (by decide) _ _).mp hu2, rfl⟩⟩
                  rw [← Except.ok.inj hx]
                  simp

theorem parseHost_bracket_shape (e port : GoString) (hb : ch '[' ∉ e)
    (hv : url.validOptionalPort port = true) :
    strings.LastIndex (ch '[' :: (e ++ ch ']' :: port)) (str "[") = some 0 ∧
    strings.LastIndex (ch '[' :: (e ++ ch ']' :: port)) (str "]") = some (e.length + 1) ∧
    (ch '[' :: (e ++ ch ']' :: port)).drop (e.length + 1 + 1) = port ∧
    ((ch '[' :: (e ++ ch ']' :: port)).take (e.length + 1)).drop (0 + 1) = e ∧
    url.unescape port .encodeHost = .ok port := by
  have hbr : str "[" = [ch '['] := by decide
  have hcl : str "]" = [ch ']'] := by decide
  have hpb := port_bytes port hv
  have hnp : ch ']' ∉ port := fun h => (hpb _ h).2.1 rfl
  have hnb : ch '[' ∉ e ++ ch ']' :: port := by
    intro hm
    rcases List.mem_append.mp hm with hm | hm
    · exact hb hm
    · rcases List.mem_cons.mp hm with e | hm
      · exact absurd e (by decide)
      · exact port_no_bracket port hv _ hm rfl
  refine ⟨?_, ?_, ?_, ?_, ?_⟩
  · rw [hbr]; exact LastIndex_head _ _ hnb
  · rw [hcl]
    have := LastIndex_byte_append (ch '[' :: e) port (ch ']') hnp
    simpa using this
  · simp
  · simp
  · exact (unescape_iff _ (by decide) _ _).mpr
      (Decodes_raw_all _ _ (fun d hd => (hpb d hd).2.2.2.1))

theorem parseHost_bracket_none (e uh port : GoString) (addr : netip.Addr) (hb : ch '[' ∉ e)
    (hv : url.validOptionalPort port = true)
    (hi : strings.Index e (str "%25") = none)
    (hu : url.unescape e .encodeHost = .ok uh)
    (hpa : netip.ParseAddr uh = .ok addr) (h4 : addr.Is4 = false) :
    url.parseHost (ch '[' :: (e ++ ch ']' :: port)) = .ok (ch '[' :: (uh ++ ch ']' :: port)) := by
  obtain ⟨s1, s2, s3, s4, s5⟩ := parseHost_bracket_shape e port hb hv
  unfold url.parseHost
  rw [s1]
  simp only
  rw [s2]
  simp only
  rw [s3, s4, hv, s5, hi]
  simp only [Bool.not_true, Bool.false_eq_true, if_false]
  rw [hu]
  simp only
  rw [hpa]
  simp only [h4, Bool.false_eq_true, if_false]
  have hbr : str "[" = [ch '['] := by decide
  have hcl : str "]" = [ch ']'] := by decide
  rw [hbr, hcl]
  simp

theorem parseHost_bracket_zone (e hp hz port : GoString) (z : Nat) (addr : netip.Addr)
    (hb : ch '[' ∉ e) (hv : url.validOptionalPort port = true)
    (hi : strings.Index e (str "%25") = some z)
    (hu1 : url.unescape (e.take z) .encodeHost = .ok hp)
    (hu2 : url.unescape (e.drop z) .encodeZone = .ok hz)
    (hpa : netip.ParseAddr (hp ++ hz) = .ok addr) (h4 : addr.Is4 = false) :
    url.parseHost (ch '[' :: (e ++ ch ']' :: port)) =
      .ok (ch '[' :: ((hp ++ hz) ++ ch ']' :: port)) := by
  obtain ⟨s1, s2, s3, s4, s5⟩ := parseHost_bracket_shape e port hb hv
  unfold url.parseHost
  rw [s1]
  simp only
  rw [s2]
  simp only
  rw [s3, s4, hv, s5, hi]
  simp only [Bool.not_true, Bool.false_eq_true, if_false]
  rw [hu1]
  simp only
  rw [hu2]
  simp only
  rw [hpa]
  simp only [h4, Bool.false_eq_true, if_false]
  have hbr : str "[" = [ch '['] := by decide
  have hcl : str "]" = [ch ']'] := by decide
  rw [hbr, hcl]
  simp

/-- The escaped form of a host that `parseHost` returned is parsed back to the same host,
when the zone identifier of an IP literal, if any, is made of ASCII bytes other than `[`. -/
theorem parseHost_reparse (x h : GoString) (hx : url.parseHost x = .ok h)
    (hz : h.head? = some (ch '[') →
      ∀ c ∈ h.dropWhile (· ≠ ch '%'), c < 0x80 ∧ c ≠ ch '[') :
    url.parseHost (url.escape h .encodeHost) = .ok h := by
  by_cases hb : ch '[' ∈ x
  swap
  · -- no bracket: the host is the whole text, decoded
    have hpl := parseHost_plain x hb
    rw [hpl] at hx
    split at hx
    swap
    · exact absurd hx (by simp)
    rename_i hport
    have d := (unescape_iff _ (by decide) _ _).mp hx
    obtain ⟨_, _, p3, p4⟩ := Decodes_host_port x h d
    have hbh : ch '[' ∉ h := fun hm => hb (p4 hm)
    have d2 : url.Decodes .encodeHost (url.escape h .encodeHost) h :=
      Decodes_escape _ (by decide) h (Decodes_host_bytes _ _ d)
    obtain ⟨_, _, q3, _⟩ := Decodes_host_port _ h d2
    rw [parseHost_plain _ (escape_no_bracket _ (by decide) h hbh), q3, ← p3, if_pos hport]
    exact (unescape_iff _ (by decide) _ _).mpr d2
  · obtain ⟨hn, uh, port, hnb, hv, rfl, ⟨addr, hpa, h4⟩, hcase⟩ := parseHost_bracket x h hb hx
    have hpb := port_bytes port hv
    have he3 : url.escape (ch ']' :: port) .encodeHost = ch ']' :: port := by
      apply escape_id
      intro c hc
      rcases List.mem_cons.mp hc with rfl | hc
      · decide
      · exact (hpb c hc).2.2.1
    have hesc : url.escape (ch '[' :: (uh ++ ch ']' :: port)) .encodeHost =
        ch '[' :: (url.escape uh .encodeHost ++ ch ']' :: port) := by
      rw [escape_cons, escape_append, he3]
      have : url.escapeByte .encodeHost (ch '[') = [ch '['] := by decide
      rw [this]; rfl
    rw [hesc]
    rcases hcase with ⟨hi, d⟩ | ⟨z, hp, hzone, hi, d1, d2, rfl⟩
    · -- no zone
      have hpc : ch '%' ∉ uh := Decodes_host_percent _ _ d (Index_none_noOcc _ _ hi)
      have hbu : ch '[' ∉ uh := fun hm => hnb ((Decodes_host_port _ _ d).2.2.2 hm)
      have dd : url.Decodes .encodeHost (url.escape uh .encodeHost) uh :=
        Decodes_escape _ (by decide) uh (Decodes_host_bytes _ _ d)
      exact parseHost_bracket_none _ uh port addr (escape_no_bracket _ (by decide) uh hbu) hv
        (Index_none_of_noOcc _ (by decide) _ (Decodes_host_noOcc _ _ dd hpc))
        ((unescape_iff _ (by decide) _ _).mpr dd) hpa h4
    · -- a zone
      have hzle := Index_some_le _ _ _ hi
      have hpz := Index_some_isPrefix _ _ _ hi
      have h25 : str "%25" = [ch '%', ch '2', ch '5'] := by decide
      rw [h25, List.isPrefixOf_iff_prefix] at hpz
      obtain ⟨t, ht⟩ := hpz
      have hzb := Decodes_zone_bytes _ _ d2
      rw [← ht] at d2
      have hsplit : hn = hn.take z ++ ([ch '%', ch '2', ch '5'] ++ t) := by
        rw [ht, List.take_append_drop]
      cases d2 with
      | raw c x2 h2 hc _ => exact absurd rfl hc.1
      | esc p q x2 h2 _ d2 =>
        have hv25 : url.unhex2 (ch '2') (ch '5') = ch '%' := by decide
        rw [hv25] at hzb hpa hz ⊢
        -- no `%` before the zone
        have hp1 : ch '%' ∉ hp := by
          apply Decodes_host_percent _ _ d1
          intro k
          by_cases hk : k < z
          · have hm := Index_some_min _ _ _ hi k hk
            by_contra hc
            have hc2 : (str "%25").isPrefixOf ((hn.take z).drop k) = true := by
              simpa using hc
            rw [List.isPrefixOf_iff_prefix] at hc2
            have hpf : (hn.take z).drop k <+: hn.drop k := by
              conv_rhs => rw [hsplit]
              rw [List.drop_append_of_le_length (by rw [List.length_take]; omega)]
              exact List.prefix_append _ _
            have := List.IsPrefix.trans hc2 hpf
            rw [← List.isPrefixOf_iff_prefix, hm] at this
            exact absurd this (by simp)
          · rw [List.drop_eq_nil_of_le (by rw [List.length_take]; omega)]
            decide
        have hall := hz rfl
        rw [List.dropWhile_cons] at hall
        simp only [ne_eq, (by decide : ch '[' ≠ ch '%'), not_false_eq_true, decide_True,
          if_true] at hall
        rw [List.append_assoc, dropWhile_append_all _ _ _ (fun c hc => by
          have : c ≠ ch '%' := fun e => hp1 (e ▸ hc)
          simpa using this)] at hall
        rw [List.cons_append, List.dropWhile_cons] at hall
        simp only [ne_eq, not_true_eq_false, decide_False, Bool.false_eq_true,
          if_false] at hall
        have hb2 : ∀ c ∈ h2, c = ch '%' ∨ c = ch ' ' ∨ url.shouldEscape c .encodeHost = false :=
          fun c hc => hzb c (List.mem_cons_of_mem _ hc)
            (hall c (List.mem_cons_of_mem _ (List.mem_append_left _ hc))).1
        have hbh2 : ch '[' ∉ h2 := fun hm =>
          (hall _ (List.mem_cons_of_mem _ (List.mem_append_left _ hm))).2 rfl
        have hbhp : ch '[' ∉ hp := fun hm => hnb (by
          have := (Decodes_host_port _ _ d1).2.2.2 hm
          exact List.mem_of_mem_take this)
        have he2 : url.escape (ch '%' :: h2) .encodeHost =
            ch '%' :: ch '2' :: ch '5' :: url.escape h2 .encodeHost := by
          rw [escape_cons]
          have : url.escapeByte .encodeHost (ch '%') = [ch '%', ch '2', ch '5'] := by decide
          rw [this]; rfl
        have hd1 : url.Decodes .encodeHost (url.escape hp .encodeHost) hp :=
          Decodes_escape _ (by decide) hp (Decodes_host_bytes _ _ d1)
        have hd2 : url.Decodes .encodeZone
            (ch '%' :: ch '2' :: ch '5' :: url.escape h2 .encodeHost) (ch '%' :: h2) := by
          have := url.Decodes.esc (ch '2') (ch '5') _ _ (by decide : url.escOK .encodeZone _ _)
            (Decodes_escape_zone h2 hb2)
          rw [hv25] at this
          exact this
        have hnbe : ch '[' ∉ url.escape (hp ++ ch '%' :: h2) .encodeHost := by
          apply escape_no_bracket _ (by decide)
          intro hm
          rcases List.mem_append.mp hm with hm | hm
          · exact hbhp hm
          · rcases List.mem_cons.mp hm with e | hm
            · exact absurd e (by decide)
            · exact hbh2 hm
        have hE : url.escape (hp ++ ch '%' :: h2) .encodeHost =
            url.escape hp .encodeHost ++
              (ch '%' :: ch '2' :: ch '5' :: url.escape h2 .encodeHost) := by
          rw [escape_append, he2]
        have hidx : strings.Index (url.escape (hp ++ ch '%' :: h2) .encodeHost) (str "%25") =
            some (url.escape hp .encodeHost).length := by
          rw [hE]
          apply Index_eq_some
          · exact Decodes_host_noOcc_append _ hp _ hd1 hp1
          · rw [List.drop_left, h25]
            simp [List.isPrefixOf]
          · simp
        refine parseHost_bracket_zone _ hp (ch '%' :: h2) port _ addr hnbe hv hidx ?_ ?_ hpa h4
        · rw [hE, List.take_left]
          exact (unescape_iff _ (by decide) _ _).mpr hd1
        · rw [hE, List.drop_left]
          exact (unescape_iff _ (by decide) _ _).mpr hd2

/-! ## Parsing the text of a normalised URL back -/

theorem query_split (body RQ : GoString) (FQ : Bool) (hb : ch '?' ∉ body)
    (hfq : FQ = true → RQ = []) :
    (strings.HasSuffix (body ++ (if FQ = true ∨ RQ ≠ [] then ch '?' :: RQ else [])) (str "?") &&
      decide (strings.CountByte (body ++ (if FQ = true ∨ RQ ≠ [] then ch '?' :: RQ else []))
        (ch '?') = 1)) = FQ ∧
    (if FQ = true then
        (body ++ (if FQ = true ∨ RQ ≠ [] then ch '?' :: RQ else [])).take
          ((body ++ (if FQ = true ∨ RQ ≠ [] then ch '?' :: RQ else [])).length - 1)
      else (strings.Cut (body ++ (if FQ = true ∨ RQ ≠ [] then ch '?' :: RQ else []))
        (str "?")).1) = body ∧
    (if FQ = true then []
      else (strings.Cut (body ++ (if FQ = true ∨ RQ ≠ [] then ch '?' :: RQ else []))
        (str "?")).2.1) = RQ := by
  have hq : str "?" = [ch '?'] := by decide
  have hcb : List.count (ch '?') body = 0 := List.count_eq_zero.mpr hb
  cases FQ with
  | true =>
    have hr := hfq rfl
    subst hr
    simp only [true_or, if_true]
    refine ⟨?_, by simp, trivial⟩
    simp only [strings.HasSuffix, strings.CountByte, hq, Bool.and_eq_true, decide_eq_true_eq,
      List.isSuffixOf_iff_suffix, List.count_append, List.count_singleton_self, hcb]
    exact ⟨List.suffix_append _ _, trivial⟩
  | false =>
    simp only [Bool.false_eq_true, false_or, if_false]
    by_cases hR : RQ = []
    · subst hR
      simp only [ne_eq, not_true_eq_false, if_false, List.append_nil]
      rw [hq, Cut_byte_none _ _ hb]
      refine ⟨?_, rfl, rfl⟩
      cases hs : strings.HasSuffix body [ch '?'] with
      | false => rfl
      | true => exact absurd (HasSuffix_byte_mem _ _ hs) hb
    · simp only [ne_eq, hR, not_false_eq_true, if_true]
      rw [hq, Cut_byte_append _ _ _ hb]
      refine ⟨?_, rfl, rfl⟩
      by_contra hc
      have hc2 : (strings.HasSuffix (body ++ ch '?' :: RQ) (str "?") &&
          decide (strings.CountByte (body ++ ch '?' :: RQ) (ch '?') = 1)) = true := by
        rw [hq]; simpa using hc
      obtain ⟨a, ha, hna, _⟩ := forceQuery_spec _ hc2
      have h1 := congrArg (List.count (ch '?')) ha
      simp only [List.count_append, List.count_cons_self, List.count_singleton_self, hcb,
        List.count_nil, List.count_eq_zero.mpr hna] at h1
      have h3 : List.count (ch '?') RQ = 0 := by omega
      have h2 := congrArg List.reverse ha
      simp only [List.reverse_append, List.reverse_cons, List.reverse_nil, List.nil_append,
        List.singleton_append, List.append_assoc] at h2
      cases hrr : RQ.reverse with
      | nil => exact hR (List.reverse_eq_nil_iff.mp hrr)
      | cons l t =>
        rw [hrr] at h2
        simp only [List.cons_append, List.cons.injEq] at h2
        have : l ∈ RQ := by
          rw [← List.mem_reverse, hrr]
          simp
        rw [h2.1] at this
        exact (List.count_eq_zero.mp h3) this

set_option maxRecDepth 100000 in
theorem schemeByte_plain : ∀ c : Byte, url.isSchemeByte c = true →
    url.isCTL c = false ∧ c ≠ ch '#' ∧ c ≠ ch '?' ∧ c ≠ ch '*' := by
  decide

theorem validScheme_bytes (S : GoString) (hS : url.validScheme S = true) :
    S ≠ [] ∧ ∀ c ∈ S, url.isCTL c = false ∧ c ≠ ch '#' ∧ c ≠ ch '?' ∧ c ≠ ch '*' := by
  simp only [url.validScheme, Bool.and_eq_true] at hS
  cases S with
  | nil => simp [url.isScheme] at hS
  | cons c S =>
    refine ⟨by simp, ?_⟩
    have h1 := hS.1
    simp only [url.isScheme, Bool.and_eq_true, decide_eq_true_eq, List.all_eq_true] at h1
    intro d hd
    rcases List.mem_cons.mp hd with rfl | hd
    · apply schemeByte_plain
      simp only [url.isSchemeByte]
      rcases h1.1 with h2 | h2 <;> simp [h2]
    · exact schemeByte_plain d (h1.2 d hd)

theorem stringContainsCTLByte_false (s : GoString) (h : ∀ c ∈ s, url.isCTL c = false) :
    url.stringContainsCTLByte s = false := by
  unfold url.stringContainsCTLByte
  rw [List.any_eq_false]
  intro c hc
  have := h c hc
  simpa [url.isCTL] using this

/-- Parsing the part before the fragment of the text assembled from the parts of a URL. -/
theorem parse_assemble (S O auth path RQ : GoString) (FQ : Bool)
    (hS : url.validScheme S = true)
    (hO : ∀ c ∈ O, url.isCTL c = false ∧ c ≠ ch '?' ∧ c ≠ ch '#')
    (hO2 : O.head? ≠ some (ch '/'))
    (hA : ∀ c ∈ auth, c ≠ ch '/' ∧ c ≠ ch '?' ∧ c ≠ ch '#' ∧ url.isCTL c = false)
    (hP : ∀ c ∈ path, c ≠ ch '?' ∧ c ≠ ch '#' ∧ url.isCTL c = false)
    (hP2 : path = [] ∨ path.head? = some (ch '/'))
    (hQ : ∀ c ∈ RQ, url.isCTL c = false ∧ c ≠ ch '#') (hFQ : FQ = true → RQ = []) :
    ch '#' ∉ S ++ ch ':' :: ((if O ≠ [] then O else str "//" ++ auth ++ path) ++
        (if FQ = true ∨ RQ ≠ [] then ch '?' :: RQ else [])) ∧
    (O ≠ [] → url.parse (S ++ ch ':' :: ((if O ≠ [] then O else str "//" ++ auth ++ path) ++
        (if FQ = true ∨ RQ ≠ [] then ch '?' :: RQ else []))) =
      .ok { Scheme := S, Opaque := O, ForceQuery := FQ, RawQuery := RQ }) ∧
    (∀ e, O = [] → url.parseAuthority auth = .error e →
      url.parse (S ++ ch ':' :: ((if O ≠ [] then O else str "//" ++ auth ++ path) ++
        (if FQ = true ∨ RQ ≠ [] then ch '?' :: RQ else []))) = .error e) ∧
    (∀ user H, O = [] → url.parseAuthority auth = .ok (user, H) →
      url.parse (S ++ ch ':' :: ((if O ≠ [] then O else str "//" ++ auth ++ path) ++
        (if FQ = true ∨ RQ ≠ [] then ch '?' :: RQ else []))) =
      url.setPath { Scheme := S, ForceQuery := FQ, RawQuery := RQ, User := user, Host := H }
        path) := by
  obtain ⟨hSne, hSb⟩ := validScheme_bytes S hS
  have hsl : str "//" = [ch '/', ch '/'] := by decide
  have hs1 : str "/" = [ch '/'] := by decide
  -- the bytes of the body and of the query
  have hbody : ∀ c ∈ (if O ≠ [] then O else str "//" ++ auth ++ path),
      url.isCTL c = false ∧ c ≠ ch '?' ∧ c ≠ ch '#' := by
    intro c hc
    split at hc
    · exact hO c hc
    · rw [hsl] at hc
      simp only [List.cons_append, List.nil_append, List.mem_cons, List.mem_append] at hc
      rcases hc with rfl | rfl | hc | hc
      · decide
      · decide
      · exact ⟨(hA c hc).2.2.2, (hA c hc).2.1, (hA c hc).2.2.1⟩
      · exact ⟨(hP c hc).2.2, (hP c hc).1, (hP c hc).2.1⟩
  have hquery : ∀ c ∈ (if FQ = true ∨ RQ ≠ [] then ch '?' :: RQ else []),
      url.isCTL c = false ∧ c ≠ ch '#' := by
    intro c hc
    split at hc
    · rcases List.mem_cons.mp hc with rfl | hc
      · decide
      · exact hQ c hc
    · simp at hc
  generalize hbd : (if O ≠ [] then O else str "//" ++ auth ++ path) = body at hbody ⊢
  have hall : ∀ c ∈ S ++ ch ':' :: (body ++
      (if FQ = true ∨ RQ ≠ [] then ch '?' :: RQ else [])), url.isCTL c = false ∧ c ≠ ch '#' := by
    intro c hc
    simp only [List.mem_append, List.mem_cons] at hc
    rcases hc with hc | rfl | hc | hc
    · exact ⟨(hSb c hc).1, (hSb c hc).2.1⟩
    · decide
    · exact ⟨(hbody c hc).1, (hbody c hc).2.2⟩
    · exact hquery c (by simpa using hc)
  refine ⟨fun h => (hall _ h).2 rfl, ?_⟩
  have hctl := stringContainsCTLByte_false _ (fun c hc => (hall c hc).1)
  have hstar : S ++ ch ':' :: (body ++ (if FQ = true ∨ RQ ≠ [] then ch '?' :: RQ else []))
      ≠ str "*" := by
    intro h
    have := congrArg List.length h
    have hl := List.length_pos.mpr hSne
    simp only [List.length_append, List.length_cons] at this
    have h1 : (str "*").length = 1 := by decide
    omega
  obtain ⟨q1, q2, q3⟩ := query_split body RQ FQ (fun h => (hbody _ h).2.1 rfl) hFQ
  have hpe := parse_eq _ S _ body RQ FQ hctl hstar (getScheme_valid S _ hS) q1 q2 q3
  rw [ToLower_valid S hS] at hpe
  rw [hpe]
  have hsplit : O = [] →
      strings.HasPrefix body (str "/") = true ∧ strings.HasPrefix body (str "//") = true ∧
      body.drop 2 = auth ++ path ∧ ch '/' ∉ auth := by
    intro hOe
    have hb : body = ch '/' :: ch '/' :: (auth ++ path) := by
      rw [← hbd, if_neg (by simp [hOe]), hsl]; simp
    refine ⟨?_, ?_, ?_, fun h => (hA _ h).1 rfl⟩
    · rw [hs1, HasPrefix_byte, hb]; simp
    · rw [hsl, hb]; simp [strings.HasPrefix, List.isPrefixOf]
    · rw [hb]; rfl
  refine ⟨?_, ?_, ?_⟩
  · intro hOe
    have hb : body = O := by rw [← hbd, if_pos hOe]
    have hpre1 : strings.HasPrefix body (str "/") = false := by
      rw [hs1, HasPrefix_byte, hb]; simpa using hO2
    rw [if_pos ⟨by simp [hpre1], hSne⟩, hb]
  · intro e hOe hPA
    obtain ⟨h1, h2, hdrop, hna⟩ := hsplit hOe
    rw [if_neg (by simp [h1]), if_neg (by simp [h1]), if_pos ⟨Or.inl hSne, h2⟩, hdrop, hs1]
    rcases hP2 with rfl | hp
    · rw [List.append_nil, Index_byte_none _ _ hna]
      simp only [hPA]
    · cases path with
      | nil => simp at hp
      | cons c p =>
        simp only [List.head?_cons, Option.some.injEq] at hp
        subst hp
        rw [Index_byte_append _ _ _ hna]
        simp only [List.take_left, List.drop_left, hPA]
  · intro user H hOe hPA
    obtain ⟨h1, h2, hdrop, hna⟩ := hsplit hOe
    rw [if_neg (by simp [h1]), if_neg (by simp [h1]), if_pos ⟨Or.inl hSne, h2⟩, hdrop, hs1]
    rcases hP2 with rfl | hp
    · rw [List.append_nil, Index_byte_none _ _ hna]
      simp only [hPA]
    · cases path with
      | nil => simp at hp
      | cons c p =>
        simp only [List.head?_cons, Option.some.injEq] at hp
        subst hp
        rw [Index_byte_append _ _ _ hna]
        simp only [List.take_left, List.drop_left, hPA]

set_option maxRecDepth 100000 in
theorem validEncoded_path_byte : ∀ c : Byte, url.validEncoded [c] .encodePath = true →
    c ≠ ch '?' ∧ c ≠ ch '#' ∧ url.isCTL c = false := by
  decide

set_option maxRecDepth 100000 in
theorem path_raw_bytes : ∀ c : Byte, url.shouldEscape c .encodePath = false →
    c ≠ ch '?' ∧ c ≠ ch '#' ∧ url.isCTL c = false := by
  decide

theorem validEncoded_cons (c : Byte) (s : GoString) (m : url.encoding) :
    url.validEncoded (c :: s) m = (url.validEncoded [c] m && url.validEncoded s m) := by
  simp [url.validEncoded]

theorem validEncoded_bytes (s : GoString) (h : url.validEncoded s .encodePath = true) :
    ∀ c ∈ s, c ≠ ch '?' ∧ c ≠ ch '#' ∧ url.isCTL c = false := by
  induction s with
  | nil => simp
  | cons d s ih =>
    rw [validEncoded_cons, Bool.and_eq_true] at h
    intro c hc
    rcases List.mem_cons.mp hc with rfl | hc
    · exact validEncoded_path_byte _ h.1
    · exact ih h.2 c hc

theorem EscapedPath_bytes (u : url.URL) :
    ∀ c ∈ url.EscapedPath u, c ≠ ch '?' ∧ c ≠ ch '#' ∧ url.isCTL c = false := by
  rcases (EscapedPath_spec u).2 with h | h
  · exact validEncoded_bytes _ h
  · rw [h]
    exact escape_forall .encodePath (by decide) _ path_raw_bytes (by decide)
      (fun k => ⟨(hex_bytes k).2.2.2.1, (hex_bytes k).2.2.2.2.1, (hex_bytes k).2.2.2.2.2.1⟩) _

theorem Decodes_head_slash (m : url.encoding) (x h : GoString)
    (d : url.Decodes m (ch '/' :: x) h) : h.head? = some (ch '/') := by
  cases d with
  | raw c x h _ _ => rfl

/-- The path written for a URL with a host decodes to the path of the URL, after a `/` if it
does not start with one. -/
theorem slashPath_spec (u : url.URL) :
    ∃ P, url.Decodes .encodePath (url.slashPath u) P ∧
      (url.validEncoded (url.slashPath u) .encodePath = true ∨
        url.slashPath u = url.escape P .encodePath) ∧
      ((url.slashPath u = [] ∧ u.Path = [] ∧ P = []) ∨
        ((url.slashPath u).head? = some (ch '/') ∧ P.head? = some (ch '/'))) ∧
      ∀ c ∈ url.slashPath u, c ≠ ch '?' ∧ c ≠ ch '#' ∧ url.isCTL c = false := by
  obtain ⟨hd, hv⟩ := EscapedPath_spec u
  have hb := EscapedPath_bytes u
  have hs1 : str "/" = [ch '/'] := by decide
  unfold url.slashPath
  rw [hs1]
  generalize url.EscapedPath u = e at hd hv hb
  cases e with
  | nil =>
    have := Decodes_nil_left _ _ hd
    refine ⟨[], ?_, Or.inl (by decide), Or.inl ⟨by simp, this, rfl⟩, by simp⟩
    simpa using url.Decodes.nil
  | cons c e =>
    by_cases hc : c = ch '/'
    · subst hc
      refine ⟨u.Path, ?_, ?_, Or.inr ⟨by simp, Decodes_head_slash _ _ _ hd⟩, ?_⟩
      · simpa using hd
      · simpa using hv
      · simpa using hb
    · have hif : ((ch '/' :: (c :: e) : GoString) = (if (c :: e) ≠ [] ∧ (c :: e).head? ≠ some (ch '/')
          then [ch '/'] else []) ++ c :: e) := by
        rw [if_pos ⟨by simp, by simpa using hc⟩]; rfl
      rw [← hif]
      refine ⟨ch '/' :: u.Path, .raw _ _ _ (by decide) hd, ?_, Or.inr ⟨rfl, rfl⟩, ?_⟩
      · rcases hv with hv | hv
        · left
          rw [validEncoded_cons, hv]
          decide
        · right
          rw [escape_cons, ← hv]
          rfl
      · intro d hd
        rcases List.mem_cons.mp hd with rfl | hd
        · decide
        · exact hb d hd

theorem Parse_split (pre frag : GoString) (h : ch '#' ∉ pre) :
    url.Parse (pre ++ (if frag ≠ [] then ch '#' :: frag else [])) =
      match url.parse pre with
      | .error e => .error (pre, e)
      | .ok u =>
        if frag = [] then .ok u
        else
          match url.setFragment u frag with
          | .error e => .error (pre ++ ch '#' :: frag, e)
          | .ok u => .ok u := by
  have hf : str "#" = [ch '#'] := by decide
  unfold url.Parse
  rw [hf]
  by_cases hfr : frag = []
  · subst hfr
    simp only [ne_eq, not_true_eq_false, if_false, List.append_nil, Cut_byte_none pre _ h,
      if_true]
  · simp only [ne_eq, hfr, not_false_eq_true, if_true, Cut_byte_append pre frag _ h, if_false]

theorem authOf_bytes (u : url.URL) :
    ∀ c ∈ url.authOf u, c ≠ ch '/' ∧ c ≠ ch '?' ∧ c ≠ ch '#' ∧ url.isCTL c = false := by
  intro c hc
  unfold url.authOf at hc
  rcases List.mem_append.mp hc with h | h
  · cases hU : u.User with
    | none => rw [hU] at h; simp at h
    | some ui =>
      rw [hU] at h
      have hat : str "@" = [ch '@'] := by decide
      rw [hat] at h
      rcases List.mem_append.mp h with h | h
      · obtain ⟨_, h2, h3, h4, h5, _⟩ := Userinfo_String_bytes ui c h
        exact ⟨h2, h3, h4, h5⟩
      · have : c = ch '@' := by simpa using h
        subst this
        decide
  · obtain ⟨_, h2, h3, h4, h5⟩ := escape_host_bytes _ c h
    exact ⟨h2, h3, h4, h5⟩

theorem parseAuthority_authOf_gen (u : url.URL) :
    url.parseAuthority (url.authOf u) =
      (url.parseHost (url.escape u.Host .encodeHost)).map
        fun H => (u.User.map url.normUser, H) := by
  cases hH : url.parseHost (url.escape u.Host .encodeHost) with
  | ok H =>
    have hat : str "@" = [ch '@'] := by decide
    have hcol : str ":" = [ch ':'] := by decide
    have heh : ch '@' ∉ url.escape u.Host .encodeHost := fun h =>
      (escape_host_bytes _ _ h).1 rfl
    show _ = Except.ok _
    unfold url.authOf url.parseAuthority
    rw [hat, hcol]
    cases hU : u.User with
    | none =>
      simp only [List.nil_append, Option.map_none']
      rw [LastIndex_byte_none _ _ heh]
      simp only [hH]
    | some ui =>
      simp only [Option.map_some']
      have hform : ui.String ++ [ch '@'] ++ url.escape u.Host .encodeHost
          = ui.String ++ ch '@' :: url.escape u.Host .encodeHost := by simp
      rw [hform, LastIndex_byte_append _ _ _ heh]
      simp only [List.drop_left', List.take_left']
      have hd : (ui.String ++ ch '@' :: url.escape u.Host .encodeHost).drop (ui.String.length + 1)
          = url.escape u.Host .encodeHost := by
        rw [← List.drop_drop]
        simp
      rw [hd, hH]
      simp only
      have hv : url.validUserinfo ui.String = true :=
        validUserinfo_of_bytes _ (fun d hd => (Userinfo_String_bytes ui d hd).2.2.2.2.2)
      rw [hv]
      simp only [Bool.not_true, Bool.false_eq_true, if_false]
      have hu : ch ':' ∉ url.escape ui.username .encodeUserPassword := fun h =>
        (escape_user_bytes _ _ h).2.1 rfl
      cases hps : ui.passwordSet with
      | false =>
        have hs : ui.String = url.escape ui.username .encodeUserPassword := by
          simp [url.Userinfo.String, hps]
        rw [hs, Contains_byte, unescape_escape_userPassword]
        simp [hu, url.normUser, hps]
      | true =>
        have hs : ui.String = url.escape ui.username .encodeUserPassword ++
            ch ':' :: url.escape ui.password .encodeUserPassword := by
          simp [url.Userinfo.String, hps, hcol]
        rw [hs, Contains_byte, Cut_byte_append _ _ _ hu]
        simp only [List.mem_append, List.mem_cons, true_or, or_true, decide_True, Bool.not_true,
          Bool.false_eq_true, if_false, unescape_escape_userPassword]
        simp only [url.normUser, hps, if_true]
        cases ui
        simp only at hps
        subst hps
        rfl
  | error e =>
    have hat : str "@" = [ch '@'] := by decide
    have heh : ch '@' ∉ url.escape u.Host .encodeHost := fun h =>
      (escape_host_bytes _ _ h).1 rfl
    show _ = Except.error e
    unfold url.authOf url.parseAuthority
    rw [hat]
    cases hU : u.User with
    | none =>
      simp only [List.nil_append]
      rw [LastIndex_byte_none _ _ heh]
      simp only [hH]
    | some ui =>
      simp only
      have hform : ui.String ++ [ch '@'] ++ url.escape u.Host .encodeHost
          = ui.String ++ ch '@' :: url.escape u.Host .encodeHost := by simp
      rw [hform, LastIndex_byte_append _ _ _ heh]
      simp only
      have hd : (ui.String ++ ch '@' :: url.escape u.Host .encodeHost).drop (ui.String.length + 1)
          = url.escape u.Host .encodeHost := by
        rw [← List.drop_drop]
        simp
      rw [hd, hH]

/-- Parsing the text of a URL that has a valid scheme and a host: it fails when the escaped
host is rejected (and the URL is not opaque); otherwise the result has the same parts, up to
the raw forms of the path and of the fragment, with the host that the escaped host parses
to. A URL with an opaque part is written without its host and path. -/
theorem Parse_String_gen (U : url.URL) (hS : url.validScheme U.Scheme = true) (hH : U.Host ≠ [])
    (hO : ∀ c ∈ U.Opaque, url.isCTL c = false ∧ c ≠ ch '?' ∧ c ≠ ch '#')
    (hO2 : U.Opaque.head? ≠ some (ch '/'))
    (hQ : ∀ c ∈ U.RawQuery, url.isCTL c = false ∧ c ≠ ch '#')
    (hFQ : U.ForceQuery = true → U.RawQuery = []) :
    (∀ e, U.Opaque = [] → url.parseHost (url.escape U.Host .encodeHost) = .error e →
      ∀ V, url.Parse U.String ≠ .ok V) ∧
    ((U.Opaque = [] → ∃ H, url.parseHost (url.escape U.Host .encodeHost) = .ok H) →
      ∃ V, url.Parse U.String = .ok V ∧ V.Scheme = U.Scheme ∧ V.Opaque = U.Opaque ∧
        V.ForceQuery = U.ForceQuery ∧ V.RawQuery = U.RawQuery ∧ V.OmitHost = false ∧
        V.Fragment = U.Fragment ∧
        (U.Fragment ≠ [] → url.EscapedFragment V = url.EscapedFragment U) ∧
        (U.Opaque = [] → V.User = U.User.map url.normUser ∧
          url.parseHost (url.escape U.Host .encodeHost) = .ok V.Host ∧
          url.EscapedPath V = url.slashPath U ∧
          ((V.Path = [] ∧ U.Path = []) ∨ V.Path.head? = some (ch '/'))) ∧
        (U.Opaque ≠ [] → V.User = none ∧ V.Host = [] ∧ V.Path = [])) := by
  have hSne : U.Scheme ≠ [] := (validScheme_bytes _ hS).1
  obtain ⟨P, hd, hv, hcase, hpb⟩ := slashPath_spec U
  have hP2 : url.slashPath U = [] ∨ (url.slashPath U).head? = some (ch '/') := by
    rcases hcase with h | h
    · exact Or.inl h.1
    · exact Or.inr h.1
  obtain ⟨hnf, hpaO, hpaE, hpaH⟩ := parse_assemble U.Scheme U.Opaque (url.authOf U)
    (url.slashPath U) U.RawQuery U.ForceQuery hS hO hO2 (authOf_bytes U) hpb hP2 hQ hFQ
  constructor
  · intro e hOe hph V
    have hA : url.parseAuthority (url.authOf U) = .error e := by
      rw [parseAuthority_authOf_gen, hph]; rfl
    rw [String_assemble U hSne hH]
    unfold url.assemble
    rw [Parse_split _ _ hnf, hpaE e hOe hA]
    simp
  intro hhost
  -- the value of `parse` on the part before the fragment
  have hparse : ∃ W, url.parse (U.Scheme ++ ch ':' ::
        ((if U.Opaque ≠ [] then U.Opaque else str "//" ++ url.authOf U ++ url.slashPath U) ++
        (if U.ForceQuery = true ∨ U.RawQuery ≠ [] then ch '?' :: U.RawQuery else []))) = .ok W ∧
      W.Scheme = U.Scheme ∧ W.Opaque = U.Opaque ∧ W.ForceQuery = U.ForceQuery ∧
      W.RawQuery = U.RawQuery ∧ W.OmitHost = false ∧ W.Fragment = [] ∧
      (U.Opaque = [] → W.User = U.User.map url.normUser ∧
        url.parseHost (url.escape U.Host .encodeHost) = .ok W.Host ∧
        url.EscapedPath W = url.slashPath U ∧
        ((W.Path = [] ∧ U.Path = []) ∨ W.Path.head? = some (ch '/'))) ∧
      (U.Opaque ≠ [] → W.User = none ∧ W.Host = [] ∧ W.Path = []) := by
    by_cases hOe : U.Opaque = []
    · obtain ⟨H, hph⟩ := hhost hOe
      have hA : url.parseAuthority (url.authOf U) = .ok (U.User.map url.normUser, H) := by
        rw [parseAuthority_authOf_gen, hph]; rfl
      have hstar : P ≠ str "*" := by
        rcases hcase with h | h
        · rw [h.2.2]; decide
        · intro h2
          rw [h2] at h
          exact absurd h.2 (by decide)
      obtain ⟨W, hW, hWP, hWE, hWeq⟩ := setPath_roundtrip
        { Scheme := U.Scheme, ForceQuery := U.ForceQuery, RawQuery := U.RawQuery,
          User := U.User.map url.normUser, Host := H } (url.slashPath U) P hd hv hstar
      refine ⟨W, by rw [hpaH _ _ hOe hA, hW], ?_, ?_, ?_, ?_, ?_, ?_, ?_, fun h => absurd hOe h⟩
      · rw [hWeq]
      · rw [hWeq, hOe]
      · rw [hWeq]
      · rw [hWeq]
      · rw [hWeq]
      · rw [hWeq]
      · intro _
        refine ⟨by rw [hWeq], by rw [hWeq]; exact hph, hWE, ?_⟩
        rw [hWP]
        rcases hcase with h | h
        · exact Or.inl ⟨h.2.2, h.2.1⟩
        · exact Or.inr h.2
    · exact ⟨_, hpaO hOe, rfl, rfl, rfl, rfl, rfl, rfl, fun h => absurd h hOe,
        fun _ => ⟨rfl, rfl, rfl⟩⟩
  obtain ⟨W, hW, w1, w2, w3, w4, w5, w6, w7, w8⟩ := hparse
  rw [String_assemble U hSne hH]
  unfold url.assemble
  rw [Parse_split _ _ hnf, hW]
  by_cases hF : U.Fragment = []
  · simp only [hF, ne_eq, not_true_eq_false, if_false, if_true]
    exact ⟨W, rfl, w1, w2, w3, w4, w5, w6, fun h => h.elim, w7, w8⟩
  · have hEne : url.EscapedFragment U ≠ [] := Decodes_ne_nil _ _ _ (EscapedFragment_spec U).1 hF
    obtain ⟨V, hV, hVF, hVE, hVeq⟩ := setFragment_roundtrip W (url.EscapedFragment U) U.Fragment
      (EscapedFragment_spec U).1 (EscapedFragment_spec U).2
    simp only [hF, ne_eq, not_false_eq_true, if_true, hEne, if_false, hV]
    have hEP : url.EscapedPath V = url.EscapedPath W := by
      rw [hVeq]; rfl
    refine ⟨V, rfl, ?_, ?_, ?_, ?_, ?_, hVF, fun _ => hVE, ?_, ?_⟩
    · rw [hVeq]; exact w1
    · rw [hVeq]; exact w2
    · rw [hVeq]; exact w3
    · rw [hVeq]; exact w4
    · rw [hVeq]; exact w5
    · intro h
      obtain ⟨a, b, c, d⟩ := w7 h
      refine ⟨by rw [hVeq]; exact a, by rw [hVeq]; exact b, by rw [hEP]; exact c, ?_⟩
      rw [hVeq]
      exact d
    · intro h
      obtain ⟨a, b, c⟩ := w8 h
      exact ⟨by rw [hVeq]; exact a, by rw [hVeq]; exact b, by rw [hVeq]; exact c⟩

/-- Parsing the text of a URL that has a valid scheme and a host that parses back: the
result has the same parts, up to the raw forms of the path and of the fragment. -/
theorem Parse_String (U : url.URL) (hS : url.validScheme U.Scheme = true) (hH : U.Host ≠ [])
    (hPH : url.parseHost (url.escape U.Host .encodeHost) = .ok U.Host)
    (hO : ∀ c ∈ U.Opaque, url.isCTL c = false ∧ c ≠ ch '?' ∧ c ≠ ch '#')
    (hO2 : U.Opaque.head? ≠ some (ch '/'))
    (hQ : ∀ c ∈ U.RawQuery, url.isCTL c = false ∧ c ≠ ch '#')
    (hFQ : U.ForceQuery = true → U.RawQuery = []) :
    ∃ V, url.Parse U.String = .ok V ∧ V.Scheme = U.Scheme ∧ V.Opaque = U.Opaque ∧
      V.ForceQuery = U.ForceQuery ∧ V.RawQuery = U.RawQuery ∧ V.OmitHost = false ∧
      V.Fragment = U.Fragment ∧ (U.Fragment ≠ [] → url.EscapedFragment V = url.EscapedFragment U) ∧
      (U.Opaque = [] → V.User = U.User.map url.normUser ∧ V.Host = U.Host ∧
        url.EscapedPath V = url.slashPath U ∧
        ((V.Path = [] ∧ U.Path = []) ∨ V.Path.head? = some (ch '/'))) := by
  obtain ⟨V, hV, v1, v2, v3, v4, v5, v6, v7, v8, _⟩ :=
    (Parse_String_gen U hS hH hO hO2 hQ hFQ).2 (fun _ => ⟨_, hPH⟩)
  refine ⟨V, hV, v1, v2, v3, v4, v5, v6, v7, fun h => ?_⟩
  obtain ⟨a, b, c, d⟩ := v8 h
  rw [hPH] at b
  exact ⟨a, (Except.ok.inj b).symm, c, d⟩

/-! ## Normalising the text of a normalised URL -/

theorem EscapedPath_congr (u v : url.URL) (h1 : u.Path = v.Path) (h2 : u.RawPath = v.RawPath) :
    url.EscapedPath u = url.EscapedPath v := by
  unfold url.EscapedPath
  rw [h1, h2]

theorem EscapedFragment_congr (u v : url.URL) (h1 : u.Fragment = v.Fragment)
    (h2 : u.RawFragment = v.RawFragment) : url.EscapedFragment u = url.EscapedFragment v := by
  unfold url.EscapedFragment
  rw [h1, h2]

theorem normUser_String (ui : url.Userinfo) : (url.normUser ui).String = ui.String := by
  unfold url.normUser
  by_cases h : ui.passwordSet = true
  · rw [if_pos h]
  · rw [if_neg h]
    unfold url.Userinfo.String
    simp [h]

theorem authOf_congr (u v : url.URL) (h1 : v.User = u.User.map url.normUser)
    (h2 : v.Host = u.Host) : url.authOf v = url.authOf u := by
  unfold url.authOf
  rw [h1, h2]
  cases u.User with
  | none => rfl
  | some ui => simp only [Option.map_some', normUser_String]

theorem slashPath_idem (u v : url.URL) (h : url.EscapedPath v = url.slashPath u) :
    url.slashPath v = url.slashPath u := by
  obtain ⟨P, _, _, hcase, _⟩ := slashPath_spec u
  have : url.slashPath v = (if url.EscapedPath v ≠ [] ∧ (url.EscapedPath v).head? ≠ some (ch '/')
      then str "/" else []) ++ url.EscapedPath v := rfl
  rw [this, h]
  rcases hcase with hc | hc
  · rw [hc.1]; rfl
  · rw [if_neg (fun h2 => h2.2 hc.1)]; rfl

theorem assemble_opaque (S O a p a2 p2 RQ frag : GoString) (FQ : Bool) (hO : O ≠ []) :
    url.assemble S O a p FQ RQ frag = url.assemble S O a2 p2 FQ RQ frag := by
  unfold url.assemble
  rw [if_pos hO, if_pos hO]

/-- Normalising a URL that was parsed from the text of `U` gives a URL with the text of
`U`, when `U` has a scheme and a host. -/
theorem String_renormalize (config : Config) (pkg : Package) (U V : url.URL)
    (hS : U.Scheme ≠ []) (hH : U.Host ≠ [])
    (hjoin : U.Path = [] → path.Join [config.DefaultUser, pkg.Name] = [])
    (v1 : V.Scheme = U.Scheme) (v2 : V.Opaque = U.Opaque) (v3 : V.ForceQuery = U.ForceQuery)
    (v4 : V.RawQuery = U.RawQuery) (v6 : V.Fragment = U.Fragment)
    (v7 : U.Fragment ≠ [] → url.EscapedFragment V = url.EscapedFragment U)
    (v8 : U.Opaque = [] → V.User = U.User.map url.normUser ∧ V.Host = U.Host ∧
        url.EscapedPath V = url.slashPath U ∧
        ((V.Path = [] ∧ U.Path = []) ∨ V.Path.head? = some (ch '/'))) :
    (normalizeURL config pkg V).String = U.String := by
  have hs1 : str "/" = [ch '/'] := by decide
  have n1 : (normalizeURL config pkg V).Scheme = U.Scheme := by
    rw [normalizeURL_Scheme, v1, if_neg hS]
  have n2 : (normalizeURL config pkg V).Opaque = U.Opaque := by
    rw [normalizeURL_eq]; exact v2
  have n3 : (normalizeURL config pkg V).ForceQuery = U.ForceQuery := by
    rw [normalizeURL_eq]; exact v3
  have n4 : (normalizeURL config pkg V).RawQuery = U.RawQuery := by
    rw [normalizeURL_eq]; exact v4
  have n5 : (normalizeURL config pkg V).Fragment = U.Fragment := by
    rw [normalizeURL_eq]; exact v6
  have n6 : url.EscapedFragment (normalizeURL config pkg V) = url.EscapedFragment V :=
    EscapedFragment_congr _ _ (by rw [normalizeURL_eq]) (by rw [normalizeURL_eq])
  have n7 : (normalizeURL config pkg V).Host ≠ [] := by
    rw [normalizeURL_Host]
    split
    · decide
    · assumption
  have hfrag : (if (normalizeURL config pkg V).Fragment ≠ [] then
        url.EscapedFragment (normalizeURL config pkg V) else []) =
      (if U.Fragment ≠ [] then url.EscapedFragment U else []) := by
    rw [n5, n6]
    by_cases h : U.Fragment = []
    · simp [h]
    · rw [if_pos h, if_pos h, v7 h]
  rw [String_assemble _ (by rw [n1]; exact hS) n7, String_assemble U hS hH, n1, n2, n3, n4, hfrag]
  by_cases hO : U.Opaque = []
  · obtain ⟨a, b, c, d⟩ := v8 hO
    have hP : (normalizeURL config pkg V).Path = V.Path := by
      rw [normalizeURL_Path]
      rcases d with d | d
      · rw [if_pos d.1, d.1]
        exact hjoin d.2
      · have hne : V.Path ≠ [] := by
          intro h; rw [h] at d; exact absurd d (by decide)
        have hc : strings.Contains V.Path (str "/") = true := by
          rw [hs1, Contains_byte, decide_eq_true_eq]
          cases hV : V.Path with
          | nil => exact absurd hV hne
          | cons x t =>
            rw [hV] at d
            simp only [List.head?_cons, Option.some.injEq] at d
            rw [d]
            exact List.mem_cons_self _ _
        rw [if_neg hne, if_pos hc]
    have hEP : url.EscapedPath (normalizeURL config pkg V) = url.slashPath U := by
      rw [EscapedPath_congr _ V hP (by rw [normalizeURL_eq]), c]
    have hA : url.authOf (normalizeURL config pkg V) = url.authOf U := by
      apply authOf_congr
      · rw [normalizeURL_eq]; exact a
      · rw [normalizeURL_Host, b, if_neg hH]
    rw [hA, slashPath_idem U _ hEP]
  · exact assemble_opaque _ _ _ _ _ _ _ _ _ hO

/-! ## C5: the backfill of scheme and host, and the text of a bare reference -/

set_option maxRecDepth 100000 in
theorem wordByte_facts : ∀ c : Byte, isWordByte c = true →
    c ≠ ch ':' ∧ c ≠ ch '/' ∧ c ≠ ch '?' ∧ c ≠ ch '#' ∧ c ≠ ch '.' ∧ c ≠ ch '*' ∧
      url.isCTL c = false ∧ url.shouldEscape c .encodePath = false ∧ url.rawOK .encodePath c := by
  decide

theorem getSchemeLoop_noColon (raw : GoString) :
    ∀ (suf : GoString) (i : Nat), ch ':' ∉ suf → url.getSchemeLoop raw i suf = .ok ([], raw) := by
  intro suf
  induction suf with
  | nil => intro i _; rfl
  | cons c suf ih =>
    intro i h
    simp only [List.mem_cons, not_or] at h
    have hc : ¬ c = ch ':' := fun e => h.1 e.symm
    rw [url.getSchemeLoop]
    split
    · exact ih _ h.2
    · split
      · split
        · rfl
        · exact ih _ h.2
      · rfl

theorem getScheme_noColon (r : GoString) (h : ch ':' ∉ r) : url.getScheme r = .ok ([], r) :=
  getSchemeLoop_noColon r r 0 h

theorem word_plain (r : GoString) (hne : r ≠ []) (hw : ∀ c ∈ r, isWordByte c = true) :
    plainElem r := by
  refine ⟨hne, fun h => (wordByte_facts _ (hw _ h)).2.1 rfl, ?_, ?_⟩
  · intro e
    have : ch '.' ∈ r := by rw [e]; decide
    exact (wordByte_facts _ (hw _ this)).2.2.2.2.1 rfl
  · intro e
    have : ch '.' ∈ r := by rw [e]; decide
    exact (wordByte_facts _ (hw _ this)).2.2.2.2.1 rfl

/-- A non-empty text of letters, digits, `-` and `_` parses to a URL that has only a path:
the text itself. -/
theorem Parse_word (r : GoString) (hne : r ≠ []) (hw : ∀ c ∈ r, isWordByte c = true) :
    url.Parse r = .ok { Path := r } := by
  have hf : str "#" = [ch '#'] := by decide
  have hq : str "?" = [ch '?'] := by decide
  have hs : str "/" = [ch '/'] := by decide
  have hco : str ":" = [ch ':'] := by decide
  have n1 : ch ':' ∉ r := fun h => (wordByte_facts _ (hw _ h)).1 rfl
  have n2 : ch '/' ∉ r := fun h => (wordByte_facts _ (hw _ h)).2.1 rfl
  have n3 : ch '?' ∉ r := fun h => (wordByte_facts _ (hw _ h)).2.2.1 rfl
  have n4 : ch '#' ∉ r := fun h => (wordByte_facts _ (hw _ h)).2.2.2.1 rfl
  have n5 : ch '*' ∉ r := fun h => (wordByte_facts _ (hw _ h)).2.2.2.2.2.1 rfl
  have hctl : url.stringContainsCTLByte r = false := by
    unfold url.stringContainsCTLByte
    rw [List.any_eq_false]
    intro c hc
    have := (wordByte_facts _ (hw _ hc)).2.2.2.2.2.2.1
    simpa [url.isCTL] using this
  have hstar : r ≠ str "*" := by
    intro e
    apply n5
    rw [e]
    decide
  have hfq : (strings.HasSuffix r (str "?") && decide (strings.CountByte r (ch '?') = 1))
      = false := by
    have : strings.CountByte r (ch '?') = 0 := List.count_eq_zero.mpr n3
    rw [this]
    simp
  have hpre : strings.HasPrefix r (str "/") = false := by
    rw [hs, HasPrefix_byte, decide_eq_false_iff_not]
    cases r with
    | nil => simp
    | cons c r =>
      simp only [List.head?_cons, Option.some.injEq]
      intro e
      exact n2 (by simp [e])
  have hpre2 : strings.HasPrefix r (str "//") = false := by
    have h2 : str "//" = [ch '/', ch '/'] := by decide
    rw [h2]
    unfold strings.HasPrefix
    cases r with
    | nil => rfl
    | cons c r =>
      have : (ch '/' == c) = false := by
        simp only [beq_eq_false_iff_ne, ne_eq]
        intro e
        exact n2 (by simp [e])
      simp [List.isPrefixOf, this]
  have hcont : strings.Contains r (str ":") = false := by
    rw [hco, Contains_byte]
    simpa using n1
  have hdec : url.unescape r .encodePath = .ok r :=
    (unescape_iff _ (by decide) _ _).mpr
      (Decodes_raw_all _ _ (fun c hc => (wordByte_facts _ (hw _ hc)).2.2.2.2.2.2.2.2))
  have hesc : url.escape r .encodePath = r :=
    escape_id _ _ (fun c hc => (wordByte_facts _ (hw _ hc)).2.2.2.2.2.2.2.1)
  have hparse : url.parse r = .ok { Path := r } := by
    rw [parse_eq r [] r r [] false hctl hstar (getScheme_noColon r n1) hfq
      (by rw [hq, Cut_byte_none r _ n3]; rfl) (by rw [hq, Cut_byte_none r _ n3]; rfl)]
    have hl : strings.ToLower [] = [] := rfl
    rw [hl, hs, Cut_byte_none r _ n2, ← hs]
    simp only [hpre, hpre2, hcont, ne_eq, not_true_eq_false, and_false, if_false,
      Bool.false_eq_true, false_and, and_self]
    unfold url.setPath
    rw [hdec]
    simp only [hesc, if_true]
  unfold url.Parse
  rw [hf, Cut_byte_none r _ n4]
  simp only [hparse, if_true]

set_option maxRecDepth 100000 in
/-- C5 (as stated) fails: with the default user `a b` the bare reference `myrepo` gives the
text `https://github.com/a%20b/myrepo` (the space is escaped), and with the default user
`acme/` it gives `https://github.com/acme/myrepo` (the path is cleaned). -/
theorem backfill_string_counterexample :
    (normalizeRepo ⟨str "example.com", str "a b", []⟩ ⟨str "bar", str "myrepo"⟩).map
        url.URL.String = .ok (str "https://github.com/a%20b/myrepo") ∧
      str "https://github.com/a%20b/myrepo" ≠
        str "https://github.com/" ++ str "a b" ++ str "/" ++ str "myrepo" ∧
    (normalizeRepo ⟨str "example.com", str "acme/", []⟩ ⟨str "bar", str "myrepo"⟩).map
        url.URL.String = .ok (str "https://github.com/acme/myrepo") ∧
      str "https://github.com/acme/myrepo" ≠
        str "https://github.com/" ++ str "acme/" ++ str "/" ++ str "myrepo" := by
  decide

/-- C5 (amended): for every package whose reference parses to a URL without scheme and
without host, the normalised URL has the scheme `https` and the host `github.com`, and so has
its text when it is parsed again; and for every `defaultUser` that is a plain path element
(non-empty, without `/`, neither `.` nor `..`) made of bytes that need no escaping in a URL
path, and every non-empty bare reference `r` made only of ASCII letters, digits, `-` and
`_`, the text of the normalised URL is exactly `https://github.com/` + defaultUser + `/` +
`r`. -/
theorem backfill_string (config : Config) (pkg : Package) :
    (∀ repo, url.Parse pkg.Repo = .ok repo → repo.Scheme = [] → repo.Host = [] →
      normalizeRepo config pkg = .ok (normalizeURL config pkg repo) ∧
      (normalizeURL config pkg repo).Scheme = str "https" ∧
      (normalizeURL config pkg repo).Host = str "github.com" ∧
      ∃ V, url.Parse (normalizeURL config pkg repo).String = .ok V ∧
        V.Scheme = str "https" ∧ V.Host = str "github.com") ∧
    (plainElem config.DefaultUser →
      (∀ c ∈ config.DefaultUser, url.shouldEscape c .encodePath = false) →
      pkg.Repo ≠ [] → (∀ c ∈ pkg.Repo, isWordByte c = true) →
      (normalizeRepo config pkg).map url.URL.String =
        .ok (str "https://github.com/" ++ config.DefaultUser ++ str "/" ++ pkg.Repo)) := by
  constructor
  · intro repo hparse hs hh
    obtain ⟨f1, f2, f3, f4, f5, f6, f7⟩ := Parse_facts _ _ hparse
    have eS : (normalizeURL config pkg repo).Scheme = str "https" := by
      rw [normalizeURL_Scheme, if_pos hs]
    have eH : (normalizeURL config pkg repo).Host = str "github.com" := by
      rw [normalizeURL_Host, if_pos hh]
    have eO : (normalizeURL config pkg repo).Opaque = [] := by
      rw [normalizeURL_eq]
      by_contra h
      exact f7 h hs
    have eQ : (normalizeURL config pkg repo).RawQuery = repo.RawQuery := by
      rw [normalizeURL_eq]
    have eF : (normalizeURL config pkg repo).ForceQuery = repo.ForceQuery := by
      rw [normalizeURL_eq]
    obtain ⟨V, hV, v1, _, _, _, _, _, _, v8⟩ := Parse_String (normalizeURL config pkg repo)
      (by rw [eS]; decide) (by rw [eH]; decide) (by rw [eH]; decide)
      (by rw [eO]; intro c hc; simp at hc) (by rw [eO]; simp) (by rw [eQ]; exact f4)
      (by rw [eF, eQ]; exact f5)
    exact ⟨normalizeRepo_ok _ _ _ hparse, eS, eH, V, hV, by rw [v1, eS],
      by rw [(v8 eO).2.1, eH]⟩
  · intro hdu hesc hne hw
    have hparse := Parse_word pkg.Repo hne hw
    have hpr := word_plain pkg.Repo hne hw
    have hs1 : str "/" = [ch '/'] := by decide
    have hnc : strings.Contains pkg.Repo (str "/") = false := by
      rw [hs1, Contains_byte]
      simpa using hpr.2.1
    have hU : normalizeURL config pkg { Path := pkg.Repo } =
        { Scheme := str "https", Host := str "github.com",
          Path := config.DefaultUser ++ [ch '/'] ++ pkg.Repo } := by
      rw [normalizeURL_eq]
      simp only [hne, hnc, if_true, if_false, Bool.false_eq_true,
        Join_two_plain _ _ hdu hpr]
    have hEP : url.EscapedPath
        { Scheme := str "https", Host := str "github.com",
          Path := config.DefaultUser ++ [ch '/'] ++ pkg.Repo } =
        config.DefaultUser ++ [ch '/'] ++ pkg.Repo := by
      have hstar : config.DefaultUser ++ [ch '/'] ++ pkg.Repo ≠ str "*" := by
        intro e
        have := congrArg List.length e
        have h1 : (str "*").length = 1 := by decide
        have h2 := List.length_pos.mpr hne
        simp only [List.length_append, List.length_cons, List.length_nil] at this
        omega
      unfold url.EscapedPath
      simp only [ne_eq, not_true_eq_false, false_and, if_false, hstar]
      apply escape_id
      intro c hc
      simp only [List.mem_append, List.mem_singleton] at hc
      rcases hc with (hc | rfl) | hc
      · exact hesc c hc
      · decide
      · exact (wordByte_facts _ (hw _ hc)).2.2.2.2.2.2.2.1
    rw [normalizeRepo_ok _ _ _ hparse, hU]
    have hhead : ¬ (config.DefaultUser ++ ch '/' :: pkg.Repo).head? = some (ch '/') :=
      plainElem_head _ _ hdu
    have hne2 : ¬ config.DefaultUser ++ ch '/' :: pkg.Repo = [] := by simp
    have hhost : url.escape (str "github.com") .encodeHost = str "github.com" := by decide
    have hlit : str "https://github.com/" =
        str "https" ++ ch ':' :: (str "//" ++ str "github.com" ++ str "/") := by decide
    show Except.ok _ = _
    rw [String_assemble _ (by show str "https" ≠ []; decide)
      (by show str "github.com" ≠ []; decide)]
    unfold url.assemble url.authOf url.slashPath
    rw [hEP]
    simp only [hhead, hne2, ne_eq, not_false_eq_true, and_self, if_true, hhost,
      not_true_eq_false, if_false, List.nil_append, List.append_nil, or_self,
      Bool.false_eq_true, hlit, hs1, List.append_assoc, List.cons_append]

set_option maxRecDepth 100000 in
theorem backfill_string_witness :
    (normalizeRepo ⟨str "example.com", str "acme", []⟩ ⟨str "bar", str "myrepo"⟩).map
      url.URL.String = .ok (str "https://github.com/" ++ str "acme" ++ str "/" ++ str "myrepo") ∧
    (normalizeURL ⟨str "example.com", str "acme", []⟩ ⟨str "baz", str "other/baz2"⟩
      { Path := str "other/baz2" }).Host = str "github.com" :=
  ⟨(backfill_string ⟨str "example.com", str "acme", []⟩ ⟨str "bar", str "myrepo"⟩).2
      (by decide) (by decide) (by decide) (by decide),
    ((backfill_string ⟨str "example.com", str "acme", []⟩ ⟨str "baz", str "other/baz2"⟩).1
      { Path := str "other/baz2" } (by decide) rfl rfl).2.2.1⟩

/-! ## C6: normalising twice -/

set_option maxRecDepth 100000 in
/-- C6 (as stated) fails, in two ways.  The reference `https://[fe80::1%25é]/a/b` (an IPv6
host whose zone identifier has the two bytes of `é`) normalises to
`https://[fe80::1%25%C3%A9]/a/b`, and that text is rejected when it is parsed again: a zone
identifier may not contain the escape `%C3`.  The reference `https://[fe80::1%25a%5B::1]/a/b`
(a zone identifier with an escaped `[`) normalises to `https://[fe80::1%25a[::1]/a/b`, where
the `[` is written unescaped; normalising that text succeeds, with another result:
`https://[::1]/a/b`. -/
theorem normalize_idempotent_counterexample :
    ((normalizeRepo ⟨str "example.com", str "acme", []⟩
      ⟨str "bar", str "https://[fe80::1%25" ++ [0xC3, 0xA9] ++ str "]/a/b"⟩).map url.URL.String =
      .ok (str "https://[fe80::1%25%C3%A9]/a/b") ∧
    normalizeRepo ⟨str "example.com", str "acme", []⟩
      ⟨str "bar", str "https://[fe80::1%25%C3%A9]/a/b"⟩ =
      .error (.urlError (str "parse") (str "https://[fe80::1%25%C3%A9]/a/b")
        (.escapeError (str "%C3")))) ∧
    ((normalizeRepo ⟨str "example.com", str "acme", []⟩
      ⟨str "bar", str "https://[fe80::1%25a%5B::1]/a/b"⟩).map url.URL.String =
      .ok (str "https://[fe80::1%25a[::1]/a/b") ∧
    (normalizeRepo ⟨str "example.com", str "acme", []⟩
      ⟨str "bar", str "https://[fe80::1%25a[::1]/a/b"⟩).map url.URL.String =
      .ok (str "https://[::1]/a/b")) := by
  decide

/-- C6 (amended): for every configuration and every package whose reference normalises
successfully to a URL `U` with text `u`, where the host of `U` is not an IP literal with a
byte from 0x80 on or a `[` in its zone identifier (from its first `%` on), normalising the
same package with its repo replaced by `u` succeeds and yields exactly `u` again. -/
theorem normalize_idempotent (config : Config) (pkg : Package) (U : url.URL)
    (hnorm : normalizeRepo config pkg = .ok U)
    (hzone : U.Host.head? = some (ch '[') →
      ∀ c ∈ U.Host.dropWhile (· ≠ ch '%'), c < 0x80 ∧ c ≠ ch '[') :
    (normalizeRepo config { pkg with Repo := U.String }).map url.URL.String = .ok U.String := by
  -- the first normalisation
  cases hparse : url.Parse pkg.Repo with
  | error e =>
    unfold normalizeRepo at hnorm
    rw [hparse] at hnorm
    exact absurd hnorm (by simp)
  | ok repo =>
    rw [normalizeRepo_ok _ _ _ hparse] at hnorm
    have hU : U = normalizeURL config pkg repo := (Except.ok.inj hnorm).symm
    obtain ⟨f1, f2, f3, f4, f5, f6, f7⟩ := Parse_facts _ _ hparse
    have eO : U.Opaque = repo.Opaque := by rw [hU, normalizeURL_eq]
    have eQ : U.RawQuery = repo.RawQuery := by rw [hU, normalizeURL_eq]
    have eF : U.ForceQuery = repo.ForceQuery := by rw [hU, normalizeURL_eq]
    have eS : U.Scheme = if repo.Scheme = [] then str "https" else repo.Scheme := by
      rw [hU, normalizeURL_Scheme]
    have eH : U.Host = if repo.Host = [] then str "github.com" else repo.Host := by
      rw [hU, normalizeURL_Host]
    have eP : U.Path = if repo.Path = [] then path.Join [config.DefaultUser, pkg.Name]
        else if strings.Contains repo.Path (str "/") = true then repo.Path
        else path.Join [config.DefaultUser, pkg.Repo] := by
      rw [hU, normalizeURL_Path]
    have hS : url.validScheme U.Scheme = true := by
      rw [eS]
      split
      · decide
      · rename_i h
        rcases f1 with h1 | h1
        · exact absurd h1 h
        · exact h1
    have hH : U.Host ≠ [] := by
      rw [eH]
      split
      · decide
      · assumption
    have hPH : url.parseHost (url.escape U.Host .encodeHost) = .ok U.Host := by
      by_cases h0 : repo.Host = []
      · rw [eH, if_pos h0]
        decide
      · rcases f6 with h1 | ⟨x, hx⟩
        · exact absurd h1 h0
        · rw [eH, if_neg h0] at hzone ⊢
          exact parseHost_reparse x _ hx hzone
    have hjoin : U.Path = [] → path.Join [config.DefaultUser, pkg.Name] = [] := by
      intro h0
      rw [eP] at h0
      split at h0
      · exact h0
      · rename_i hne
        split at h0
        · exact absurd h0 hne
        · exfalso
          have hr : pkg.Repo = [] := by
            by_contra hr
            exact Join_two_ne_nil _ _ (Or.inr hr) h0
          rw [hr, Parse_nil] at hparse
          exact hne (by rw [← Except.ok.inj hparse])
    -- parsing the text of `U`
    obtain ⟨V, hV, v1, v2, v3, v4, _, v6, v7, v8⟩ := Parse_String U hS hH hPH
      (by rw [eO]; exact f2) (by rw [eO]; exact f3) (by rw [eQ]; exact f4)
      (by rw [eF, eQ]; exact f5)
    have hV2 : url.Parse ({ pkg with Repo := U.String } : Package).Repo = .ok V := hV
    rw [normalizeRepo_ok _ _ _ hV2]
    have := String_renormalize config { pkg with Repo := U.String } U V
      (validScheme_bytes _ hS).1 hH hjoin v1 v2 v3 v4 v6 v7 v8
    exact congrArg Except.ok this

set_option maxRecDepth 100000 in
theorem normalize_idempotent_witness :
    normalizeRepo ⟨str "example.com", str "acme", []⟩
      ⟨str "bar", str "https://[fe80::1%25eth0]/a/b"⟩ =
      .ok { Scheme := str "https", Host := str "[fe80::1%eth0]", Path := str "/a/b" } ∧
    (normalizeRepo ⟨str "example.com", str "acme", []⟩
      ⟨str "bar", str "https://[fe80::1%25eth0]/a/b"⟩).map url.URL.String =
      .ok (str "https://[fe80::1%25eth0]/a/b") :=
  ⟨by decide,
    normalize_idempotent ⟨str "example.com", str "acme", []⟩
      ⟨str "bar", str "https://[fe80::1%25eth0]/a/b"⟩
      { Scheme := str "https", Host := str "[fe80::1%eth0]", Path := str "/a/b" }
      (by decide) (by decide)⟩


/-! ## C7: scheme, host and path of the normalised reference -/

theorem escape_ne_nil (m : url.encoding) (hm : m ≠ .encodeQueryComponent) (s : GoString)
    (hs : s ≠ []) : url.escape s m ≠ [] := by
  cases s with
  | nil => exact absurd rfl hs
  | cons c s =>
    rw [escape_cons]
    cases h : url.shouldEscape c m with
    | false => rw [escapeByte_of_not_shouldEscape m c h]; simp
    | true => rw [escapeByte_of_shouldEscape m hm c h]; simp

theorem Decodes_ne_nil_right (m : url.encoding) (x h : GoString) (d : url.Decodes m x h)
    (hx : x ≠ []) : h ≠ [] := by
  intro hh
  subst hh
  exact hx (Decodes_nil_right m x d)

theorem parseHost_ne_nil (e H : GoString) (he : e ≠ []) (h : url.parseHost e = .ok H) :
    H ≠ [] := by
  by_cases hb : ch '[' ∈ e
  · obtain ⟨_, _, _, _, _, rfl, _⟩ := parseHost_bracket e H hb h
    simp
  · rw [parseHost_plain e hb] at h
    split at h
    · exact Decodes_ne_nil_right _ _ _ ((unescape_iff _ (by decide) _ _).mp h) he
    · exact absurd h (by simp)

theorem EscapedPath_eq_nil (u : url.URL) : url.EscapedPath u = [] ↔ u.Path = [] := by
  have d := (EscapedPath_spec u).1
  constructor
  · intro h
    rw [h] at d
    exact Decodes_nil_left _ _ d
  · intro h
    rw [h] at d
    exact Decodes_nil_right _ _ d

theorem slashPath_eq_nil (u : url.URL) : url.slashPath u = [] ↔ u.Path = [] := by
  rw [← EscapedPath_eq_nil]
  unfold url.slashPath
  constructor
  · intro h
    exact (List.append_eq_nil.mp h).2
  · intro h
    rw [h]
    simp

theorem normalizeURL_Path_nil (config : Config) (pkg : Package) (repo : url.URL)
    (hparse : url.Parse pkg.Repo = .ok repo) :
    (normalizeURL config pkg repo).Path = [] ↔
      repo.Path = [] ∧ config.DefaultUser = [] ∧ pkg.Name = [] := by
  rw [normalizeURL_Path]
  constructor
  · intro h0
    split at h0
    · rename_i hp
      refine ⟨hp, ?_⟩
      by_contra hne
      apply Join_two_ne_nil config.DefaultUser pkg.Name _ h0
      by_cases hd : config.DefaultUser = []
      · exact Or.inr (fun hn => hne ⟨hd, hn⟩)
      · exact Or.inl hd
    · rename_i hne
      split at h0
      · exact absurd h0 hne
      · exfalso
        have hr : pkg.Repo = [] := by
          by_contra hr
          exact Join_two_ne_nil _ _ (Or.inr hr) h0
        rw [hr, Parse_nil] at hparse
        exact hne (by rw [← Except.ok.inj hparse])
  · rintro ⟨hp, hd, hn⟩
    rw [if_pos hp, hd, hn]
    rfl

set_option maxRecDepth 100000 in
/-- C7 (as stated) fails, in two ways.  With an empty `defaultUser`, a package with an empty
name and an empty reference is normalised to the text `https://github.com`, which has no
path.  The reference `mailto:x` has an opaque part: it is normalised to a URL value with the
host `github.com` and the path `acme/bar`, but `String` does not write them: the text stored
is `mailto:x`, which has neither host nor path.  (And the text stored need not parse at
all: for the reference `https://[fe80::1%25é]/a/b` it is `https://[fe80::1%25%C3%A9]/a/b`,
which `url.Parse` rejects.) -/
theorem normalized_nonempty_counterexample :
    ((normalizeRepo ⟨str "example.com", str "", []⟩ ⟨str "", str ""⟩).map url.URL.String =
        .ok (str "https://github.com") ∧
      url.Parse (str "https://github.com") =
        .ok { Scheme := str "https", Host := str "github.com", Path := [] }) ∧
    (normalizeRepo ⟨str "example.com", str "acme", []⟩ ⟨str "bar", str "mailto:x"⟩ =
        .ok { Scheme := str "mailto", Opaque := str "x", Host := str "github.com",
              Path := str "acme/bar" } ∧
      ({ Scheme := str "mailto", Opaque := str "x", Host := str "github.com",
         Path := str "acme/bar" } : url.URL).String = str "mailto:x" ∧
      url.Parse (str "mailto:x") =
        .ok { Scheme := str "mailto", Opaque := str "x", Host := [], Path := [] }) ∧
    ((normalizeRepo ⟨str "example.com", str "acme", []⟩
        ⟨str "bar", str "https://[fe80::1%25" ++ [0xC3, 0xA9] ++ str "]/a/b"⟩).map
        url.URL.String = .ok (str "https://[fe80::1%25%C3%A9]/a/b") ∧
      url.Parse (str "https://[fe80::1%25%C3%A9]/a/b") =
        .error (str "https://[fe80::1%25%C3%A9]/a/b", .escapeError (str "%C3"))) := by
  decide

/-- C7 (amended): for every configuration and every package whose reference parses, the
normalised URL value has a non-empty scheme and a non-empty host, and its path is empty
exactly when the path of the reference, `defaultUser` and the package name are all empty.
The repo that `templatePkg` stores back and renders is the text `String()` of that value.
Whenever that text parses as a URL, the result has the same, non-empty, scheme; when the
reference has no opaque part it has a non-empty host, and its path is empty exactly when the
path of the reference, `defaultUser` and the package name are all empty; when the reference
has an opaque part (as `mailto:x`) it has neither host nor path.  The text parses exactly
when the reference has an opaque part or `parseHost` accepts the escaped host, which it
does when the host is not an IP literal with a byte from 0x80 on or a `[` in its zone
identifier. -/
theorem normalized_nonempty (config : Config) (pkg : Package) (repo : url.URL)
    (hparse : url.Parse pkg.Repo = .ok repo) :
    ∃ U, normalizeRepo config pkg = .ok U ∧
      U.Scheme ≠ [] ∧ U.Host ≠ [] ∧
      (U.Path = [] ↔ repo.Path = [] ∧ config.DefaultUser = [] ∧ pkg.Name = []) ∧
      (∀ tpl gi w,
        (∀ err, (os.MkdirAll (pkgDir pkg) w).2 = some err → os.IsExist err = true) →
        (gi = true → (os.WriteFile (gitignorePath pkg) (str ".gitignore\nindex.html")
          (os.MkdirAll (pkgDir pkg) w).1).2 = none) →
        templatePkg tpl config pkg gi w =
          writePage tpl config { pkg with Repo := U.String } (pkgDir pkg)
            (worldAfterGitignore pkg gi w)) ∧
      (∀ V, url.Parse U.String = .ok V →
        V.Scheme = U.Scheme ∧
        (repo.Opaque = [] → V.Host ≠ [] ∧
          (V.Path = [] ↔ repo.Path = [] ∧ config.DefaultUser = [] ∧ pkg.Name = [])) ∧
        (repo.Opaque ≠ [] → V.Host = [] ∧ V.Path = [])) ∧
      ((∃ V, url.Parse U.String = .ok V) ↔
        (repo.Opaque ≠ [] ∨ ∃ H, url.parseHost (url.escape U.Host .encodeHost) = .ok H)) ∧
      ((U.Host.head? = some (ch '[') →
          ∀ c ∈ U.Host.dropWhile (· ≠ ch '%'), c < 0x80 ∧ c ≠ ch '[') →
        url.parseHost (url.escape U.Host .encodeHost) = .ok U.Host) := by
  have hnorm := normalizeRepo_ok config pkg repo hparse
  obtain ⟨f1, f2, f3, f4, f5, f6, f7⟩ := Parse_facts _ _ hparse
  generalize hU : normalizeURL config pkg repo = U at hnorm
  have eO : U.Opaque = repo.Opaque := by rw [← hU, normalizeURL_eq]
  have eQ : U.RawQuery = repo.RawQuery := by rw [← hU, normalizeURL_eq]
  have eF : U.ForceQuery = repo.ForceQuery := by rw [← hU, normalizeURL_eq]
  have eS : U.Scheme = if repo.Scheme = [] then str "https" else repo.Scheme := by
    rw [← hU, normalizeURL_Scheme]
  have eH : U.Host = if repo.Host = [] then str "github.com" else repo.Host := by
    rw [← hU, normalizeURL_Host]
  have eP : U.Path = [] ↔ repo.Path = [] ∧ config.DefaultUser = [] ∧ pkg.Name = [] := by
    rw [← hU]
    exact normalizeURL_Path_nil config pkg repo hparse
  have hS : url.validScheme U.Scheme = true := by
    rw [eS]
    split
    · decide
    · rename_i h
      rcases f1 with h1 | h1
      · exact absurd h1 h
      · exact h1
  have hSne : U.Scheme ≠ [] := (validScheme_bytes _ hS).1
  have hH : U.Host ≠ [] := by
    rw [eH]
    split
    · decide
    · assumption
  obtain ⟨g1, g2⟩ := Parse_String_gen U hS hH (by rw [eO]; exact f2) (by rw [eO]; exact f3)
    (by rw [eQ]; exact f4) (by rw [eF, eQ]; exact f5)
  refine ⟨U, hnorm, hSne, hH, eP, ?_, ?_, ?_, ?_⟩
  · intro tpl gi w hmk hwr
    rcases templatePkg_cases tpl config pkg gi w with ⟨err, h1, h2, _⟩ | ⟨err, h1, h2, _⟩ |
      ⟨_, h⟩
    · rw [hmk err h1] at h2
      exact absurd h2 (by simp)
    · rw [hwr h1] at h2
      exact absurd h2 (by simp)
    · rw [h, hnorm]
  · intro V hV
    have hex : U.Opaque = [] → ∃ H, url.parseHost (url.escape U.Host .encodeHost) = .ok H := by
      intro hOe
      cases hph : url.parseHost (url.escape U.Host .encodeHost) with
      | ok H => exact ⟨H, rfl⟩
      | error e => exact absurd hV (g1 e hOe hph V)
    obtain ⟨V2, hV2, v1, _, _, _, _, _, _, v8, v9⟩ := g2 hex
    have hVV : V2 = V := by
      rw [hV2] at hV
      exact Except.ok.inj hV
    subst hVV
    refine ⟨v1, ?_, ?_⟩
    · intro hOe
      obtain ⟨_, b, c, _⟩ := v8 (by rw [eO]; exact hOe)
      refine ⟨parseHost_ne_nil _ _ (escape_ne_nil _ (by decide) _ hH) b, ?_⟩
      rw [← eP, ← EscapedPath_eq_nil, c, slashPath_eq_nil]
    · intro hOe
      obtain ⟨_, b, c⟩ := v9 (by rw [eO]; exact hOe)
      exact ⟨b, c⟩
  · constructor
    · rintro ⟨V, hV⟩
      by_cases hOe : repo.Opaque = []
      · right
        cases hph : url.parseHost (url.escape U.Host .encodeHost) with
        | ok H => exact ⟨H, rfl⟩
        | error e => exact absurd hV (g1 e (by rw [eO]; exact hOe) hph V)
      · exact Or.inl hOe
    · intro h
      have hex : U.Opaque = [] →
          ∃ H, url.parseHost (url.escape U.Host .encodeHost) = .ok H := by
        intro hOe
        rcases h with h | h
        · exact absurd (by rw [← eO]; exact hOe) h
        · exact h
      obtain ⟨V, hV, _⟩ := g2 hex
      exact ⟨V, hV⟩
  · intro hzone
    by_cases h0 : repo.Host = []
    · rw [eH, if_pos h0]
      decide
    · rcases f6 with h1 | ⟨x, hx⟩
      · exact absurd h1 h0
      · rw [eH, if_neg h0] at hzone ⊢
        exact parseHost_reparse x _ hx hzone

set_option maxRecDepth 100000 in
theorem normalized_nonempty_witness :
    url.Parse (str "myrepo") = .ok { Path := str "myrepo" } ∧
    ∃ U, normalizeRepo ⟨str "example.com", str "acme", []⟩ ⟨str "bar", str "myrepo"⟩ = .ok U ∧
      U.String = str "https://github.com/acme/myrepo" ∧
      ∀ V, url.Parse U.String = .ok V →
        V.Scheme = U.Scheme ∧ V.Host ≠ [] ∧ V.Path ≠ [] := by
  refine ⟨by decide, ?_⟩
  obtain ⟨U, h1, _, _, h4, _, h6, _⟩ := normalized_nonempty
    ⟨str "example.com", str "acme", []⟩ ⟨str "bar", str "myrepo"⟩ { Path := str "myrepo" }
    (by decide)
  refine ⟨U, h1, ?_, fun V hV => ?_⟩
  · have h2 : normalizeRepo ⟨str "example.com", str "acme", []⟩ ⟨str "bar", str "myrepo"⟩ =
        .ok { Scheme := str "https", Host := str "github.com", Path := str "acme/myrepo" } := by
      decide
    rw [h2] at h1
    rw [← Except.ok.inj h1]
    decide
  · obtain ⟨a, b, _⟩ := h6 V hV
    obtain ⟨b1, b2⟩ := b rfl
    exact ⟨a, b1, fun h => absurd (b2.mp h).1 (by decide)⟩
